import Mathlib

/-!
Verification of the chess engine core (board representation, move generation,
make/unmake, evaluation, transposition table, search driver).

Shallow embedding conventions:
- Python board squares are pairs of ints (row, col); we use Int × Int.
  The 8×8 grid is a total function on Fin 8 × Fin 8; reads outside the grid
  return none and writes outside the grid are no-ops (in the source every
  grid access on the modelled paths is bounds-guarded).
- Python floats become ℚ; the sentinel infinities used by the search become
  an explicit Score type with -inf / finite / +inf.
- Python exceptions become Except String; functions that mutate the board
  object thread the Board value explicitly and return the possibly-changed
  board.
- Python dicts keyed by small enumerations become total functions.
-/

set_option maxHeartbeats 1000000

inductive Color where
  | white
  | black
deriving DecidableEq, Repr

def Color.opponent : Color → Color
  | .white => .black
  | .black => .white

inductive PieceType where
  | K
  | Q
  | R
  | B
  | N
  | P
deriving DecidableEq, Repr

abbrev Square : Type := Int × Int

/-- Source: board.py `_square_index`. -/
def squareIndex (sq : Square) : Nat :=
  (sq.1 * 8 + sq.2).toNat

/-- Source: board.py `_in_bounds`. -/
def inBounds (sq : Square) : Bool :=
  decide (0 ≤ sq.1 ∧ sq.1 < 8 ∧ 0 ≤ sq.2 ∧ sq.2 < 8)

/-- Source: board.py `_bit` (bit for a square, used when building masks). -/
def bitOf (sq : Square) : Nat :=
  1 <<< squareIndex sq

structure Piece where
  kind : PieceType
  color : Color
deriving DecidableEq, Repr

structure Move where
  start : Square
  dest : Square
  promotion : Option PieceType := none
  is_castle : Bool := false
  is_en_passant : Bool := false
deriving DecidableEq, Repr

structure MoveState where
  move : Move
  captured : Option Piece
  castling_rights : Bool × Bool × Bool × Bool
  moved_piece : Piece
  en_passant_square : Option Square
  halfmove_clock : Nat
deriving DecidableEq, Repr

/- Precomputed attack tables (source: board.py `_precompute_attacks`). -/

def knightOffsets : List (Int × Int) :=
  [(-2, -1), (-2, 1), (2, -1), (2, 1), (-1, -2), (-1, 2), (1, -2), (1, 2)]

def kingOffsets : List (Int × Int) :=
  [(-1, -1), (-1, 0), (-1, 1), (0, -1), (0, 1), (1, -1), (1, 0), (1, 1)]

/-- Direction used by the pawn-attack table (source: `pawn_directions`). -/
def pawnTableDir : Color → Int
  | .white => 1
  | .black => -1

def maskOfTargets (targets : List Square) : Nat :=
  targets.foldl (fun acc t => if inBounds t then acc ||| bitOf t else acc) 0

def KNIGHT_ATTACKS : List Nat :=
  (List.range 8).flatMap fun r =>
    (List.range 8).map fun c =>
      maskOfTargets (knightOffsets.map fun d => ((r : Int) + d.1, (c : Int) + d.2))

def KING_ATTACKS : List Nat :=
  (List.range 8).flatMap fun r =>
    (List.range 8).map fun c =>
      maskOfTargets (kingOffsets.map fun d => ((r : Int) + d.1, (c : Int) + d.2))

def PAWN_ATTACKS (color : Color) : List Nat :=
  (List.range 8).flatMap fun r =>
    (List.range 8).map fun c =>
      maskOfTargets ([(-1 : Int), 1].map fun dc =>
        ((r : Int) + pawnTableDir color, (c : Int) + dc))

def slideDirections : List (Int × Int) :=
  [(-1, 0), (1, 0), (0, -1), (0, 1), (-1, -1), (-1, 1), (1, -1), (1, 1)]

/-- One sliding ray: indices along a direction until the board edge.
The fuel bound 8 exceeds the longest possible ray (7 squares). -/
def rayWalk : Nat → Int → Int → Int → Int → List Nat
  | 0, _, _, _, _ => []
  | fuel + 1, nr, nc, dr, dc =>
    if inBounds (nr, nc) then
      squareIndex (nr, nc) :: rayWalk fuel (nr + dr) (nc + dc) dr dc
    else []

def SLIDING_RAYS : List (List (List Nat)) :=
  (List.range 8).flatMap fun r =>
    (List.range 8).map fun c =>
      slideDirections.map fun d =>
        rayWalk 8 ((r : Int) + d.1) ((c : Int) + d.2) d.1 d.2

/- The board. -/

def toFin8 (z : Int) : Option (Fin 8) :=
  if h : 0 ≤ z ∧ z < 8 then some ⟨z.toNat, by omega⟩ else none

structure Board where
  squares : Fin 8 → Fin 8 → Option Piece
  castling_rights : Bool × Bool × Bool × Bool
  en_passant_square : Option Square
  history : List MoveState
  halfmove_clock : Nat

instance : DecidableEq (Fin 8 → Fin 8 → Option Piece) :=
  fun f g => Fintype.decidablePiFintype f g

instance : DecidableEq Board :=
  fun a b =>
    decidable_of_iff
      (a.squares = b.squares ∧ a.castling_rights = b.castling_rights ∧
        a.en_passant_square = b.en_passant_square ∧ a.history = b.history ∧
        a.halfmove_clock = b.halfmove_clock)
      (by cases a; cases b; simp)

/-- Source: board.py `Board.get_piece` (grid reads are bounds-guarded in the
source on every modelled path; out-of-range reads give none here). -/
def Board.get_piece (b : Board) (sq : Square) : Option Piece :=
  match toFin8 sq.1, toFin8 sq.2 with
  | some i, some j => b.squares i j
  | _, _ => none

/-- Source: board.py `Board.set_piece` (no-op out of range, see get_piece). -/
def Board.set_piece (b : Board) (sq : Square) (v : Option Piece) : Board :=
  match toFin8 sq.1, toFin8 sq.2 with
  | some i, some j =>
    { b with squares := fun i' j' => if i' = i ∧ j' = j then v else b.squares i' j' }
  | _, _ => b

/-- Scan order of the board loops: r in 0..7, c in 0..7. -/
def allSquares : List Square :=
  (List.range 8).flatMap fun r => (List.range 8).map fun (c : Nat) =>
    ((Nat.cast r : Int), (Nat.cast c : Int))

/-- Source: board.py `Board._king_position` (first match in scan order). -/
def Board.king_position (b : Board) (color : Color) : Option Square :=
  allSquares.findSome? fun sq =>
    match b.get_piece sq with
    | some p => if p.kind = .K ∧ p.color = color then some sq else none
    | none => none

structure BoardState where
  pieceBB : Color → PieceType → Nat
  occupancy : Nat
  piecesByIndex : Nat → Option Piece
  kingPos : Color → Option Square

def emptyBoardState : BoardState :=
  ⟨fun _ _ => 0, 0, fun _ => none, fun _ => none⟩

def boardStateStep (b : Board) (s : BoardState) (sq : Square) : BoardState :=
  match b.get_piece sq with
  | none => s
  | some p =>
    let idx := squareIndex sq
    let bit := 1 <<< idx
    { occupancy := s.occupancy ||| bit
      pieceBB := fun col k =>
        if col = p.color ∧ k = p.kind then s.pieceBB col k ||| bit else s.pieceBB col k
      piecesByIndex := fun i => if i = idx then some p else s.piecesByIndex i
      kingPos :=
        if p.kind = .K then
          fun col => if col = p.color then some sq else s.kingPos col
        else s.kingPos }

/-- Source: board.py `Board._board_state`. -/
def Board.board_state (b : Board) : BoardState :=
  allSquares.foldl (boardStateStep b) emptyBoardState

/- Attack queries. -/

/-- Walk one ray: skip empty squares, stop at the first occupied one.
Source: inner loop of `Board._sliding_attack`. -/
def rayHit (byColor : Color) (s : BoardState) (usesRook : Bool) : List Nat → Bool
  | [] => false
  | t :: rest =>
    if s.occupancy &&& (1 <<< t) = 0 then rayHit byColor s usesRook rest
    else
      match s.piecesByIndex t with
      | some p =>
        if p.color = byColor then
          if usesRook then decide (p.kind = .R ∨ p.kind = .Q)
          else decide (p.kind = .B ∨ p.kind = .Q)
        else false
      | none => false

/-- Source: board.py `Board._sliding_attack`. -/
def slidingAttack (idx : Nat) (byColor : Color) (s : BoardState) : Bool :=
  ((SLIDING_RAYS.getD idx []).enum).any fun dir =>
    let usesRook := dir.1 < 4
    let mask :=
      if usesRook then s.pieceBB byColor .R ||| s.pieceBB byColor .Q
      else s.pieceBB byColor .B ||| s.pieceBB byColor .Q
    if mask = 0 then false else rayHit byColor s usesRook dir.2

/-- Source: board.py `Board.is_square_attacked` (with an explicit state). -/
def isSquareAttackedState (sq : Square) (byColor : Color) (s : BoardState) : Bool :=
  let idx := squareIndex sq
  if (PAWN_ATTACKS byColor).getD idx 0 &&& s.pieceBB byColor .P ≠ 0 then true
  else if KNIGHT_ATTACKS.getD idx 0 &&& s.pieceBB byColor .N ≠ 0 then true
  else if KING_ATTACKS.getD idx 0 &&& s.pieceBB byColor .K ≠ 0 then true
  else slidingAttack idx byColor s

def Board.is_square_attacked (b : Board) (sq : Square) (byColor : Color) : Bool :=
  isSquareAttackedState sq byColor b.board_state

/-- Source: board.py `Board.in_check` with an explicit state; a missing king
counts as in check. -/
def inCheckState (color : Color) (s : BoardState) : Bool :=
  match s.kingPos color with
  | none => true
  | some kp => isSquareAttackedState kp color.opponent s

def Board.in_check (b : Board) (color : Color) : Bool :=
  inCheckState color b.board_state

/- Pseudo-legal move generation. -/

/-- Source: board.py `Board._castling_path_is_safe`. -/
def Board.castling_path_is_safe (b : Board) (color : Color) (kingside : Bool) : Bool :=
  if b.in_check color then false
  else
    let row : Int := if color = .white then 7 else 0
    let empty_squares : List Square :=
      if kingside then [(row, 5), (row, 6)] else [(row, 3), (row, 2)]
    let target_files : List Int := if kingside then [5, 6] else [3, 2]
    let rook_file : Int := if kingside then 7 else 0
    match b.get_piece (row, rook_file) with
    | none => false
    | some rook =>
      if rook.kind ≠ .R ∨ rook.color ≠ color then false
      else if empty_squares.any fun sq => (b.get_piece sq).isSome then false
      else !(target_files.any fun file => b.is_square_attacked (row, file) color.opponent)

/-- Walk of one sliding direction (source: the while loop in
`Board._generate_pseudo_moves_for_piece` for B/R/Q; fuel as in rayWalk). -/
def slideMoves (b : Board) (color : Color) (start : Square) (dr dc : Int) :
    Nat → Int → Int → List Move
  | 0, _, _ => []
  | fuel + 1, nr, nc =>
    if inBounds (nr, nc) then
      match b.get_piece (nr, nc) with
      | some target =>
        if target.color ≠ color ∧ target.kind ≠ .K then
          [{ start := start, dest := (nr, nc) }]
        else []
      | none =>
        { start := start, dest := (nr, nc) } ::
          slideMoves b color start dr dc fuel (nr + dr) (nc + dc)
    else []

def promotionKinds : List PieceType := [.Q, .R, .B, .N]

/-- One knight/king step candidate: the shared in-bounds / occupancy pattern
of `Board._generate_pseudo_moves_for_piece` for the N and K offsets. -/
def stepMoveAt (b : Board) (color : Color) (pos t : Square) : Option Move :=
  if inBounds t = true then
    match b.get_piece t with
    | none => some { start := pos, dest := t }
    | some target =>
      if target.color ≠ color ∧ target.kind ≠ .K then
        some { start := pos, dest := t }
      else none
  else none

/-- Single-step or promotion pawn pushes onto `one_step` (the `base` list of
the pawn case of `Board._generate_pseudo_moves_for_piece`). -/
def pawnPushBase (pos one_step : Square) : List Move :=
  if one_step.1 = 0 ∨ one_step.1 = 7 then
    promotionKinds.map fun promo =>
      { start := pos, dest := one_step, promotion := some promo : Move }
  else [{ start := pos, dest := one_step }]

/-- Pawn pushes from `pos` (source: the forward-move block of the pawn case
of `Board._generate_pseudo_moves_for_piece`); `allowTwo` is the
start-row test computed at the call site. -/
def pawnPushesAt (b : Board) (pos one_step two_step : Square) (allowTwo : Bool) :
    List Move :=
  if inBounds one_step = true ∧ b.get_piece one_step = none then
    if allowTwo = true ∧ inBounds two_step = true ∧ b.get_piece two_step = none then
      pawnPushBase pos one_step ++ [{ start := pos, dest := two_step }]
    else pawnPushBase pos one_step
  else []

/-- Pawn captures onto the diagonal square `diag` (source: the capture block
of the pawn case of `Board._generate_pseudo_moves_for_piece`). -/
def pawnCapsAt (b : Board) (color : Color) (pos diag : Square) : List Move :=
  if inBounds diag = true then
    match b.get_piece diag with
    | some target =>
      if target.color ≠ color ∧ target.kind ≠ .K then
        if diag.1 = 0 ∨ diag.1 = 7 then
          promotionKinds.map fun promo =>
            { start := pos, dest := diag, promotion := some promo : Move }
        else [{ start := pos, dest := diag }]
      else []
    | none => []
  else []

/-- Pawn en-passant capture onto `diag` with the captured pawn expected on
`adjsq` (source: the en-passant block of the pawn case of
`Board._generate_pseudo_moves_for_piece`). -/
def pawnEpAt (b : Board) (color : Color) (pos diag adjsq : Square) : List Move :=
  match b.en_passant_square with
  | some ep =>
    if diag = ep then
      match b.get_piece adjsq with
      | some adj =>
        if adj.color ≠ color ∧ adj.kind = .P then
          [{ start := pos, dest := diag, is_en_passant := true : Move }]
        else []
      | none => []
    else []
  | none => []

/-- Source: board.py `Board._generate_pseudo_moves_for_piece`. -/
def pseudoMovesFor (b : Board) (pos : Square) (piece : Piece) : List Move :=
  let r := pos.1
  let c := pos.2
  let color := piece.color
  match piece.kind with
  | .P =>
    let direction : Int := if color = .white then -1 else 1
    let start_row : Int := if color = .white then 6 else 1
    let pushMoves :=
      pawnPushesAt b pos (r + direction, c) (r + 2 * direction, c) (decide (r = start_row))
    let capMoves := ([(-1 : Int), 1]).flatMap fun dc =>
      pawnCapsAt b color pos (r + direction, c + dc) ++
        pawnEpAt b color pos (r + direction, c + dc) (r, c + dc)
    pushMoves ++ capMoves
  | .N =>
    knightOffsets.filterMap fun d => stepMoveAt b color pos (r + d.1, c + d.2)
  | .K =>
    let normal := ([(-1 : Int), 0, 1]).flatMap fun dr =>
      ([(-1 : Int), 0, 1]).filterMap fun dc =>
        if dr = 0 ∧ dc = 0 then none
        else stepMoveAt b color pos (r + dr, c + dc)
    let wk := b.castling_rights.1
    let wq := b.castling_rights.2.1
    let bk := b.castling_rights.2.2.1
    let bq := b.castling_rights.2.2.2
    let castles :=
      (if color = .white then
        (if wk ∧ b.castling_path_is_safe .white true then
          [{ start := ((7 : Int), (4 : Int)), dest := ((7 : Int), (6 : Int)),
             is_castle := true : Move }]
        else []) ++
        (if wq then
          let path_clear := b.get_piece (7, 1) = none ∧ b.get_piece (7, 2) = none ∧
            b.get_piece (7, 3) = none
          if path_clear ∧ b.castling_path_is_safe .white false then
            [{ start := ((7 : Int), (4 : Int)), dest := ((7 : Int), (2 : Int)),
               is_castle := true : Move }]
          else []
        else [])
      else []) ++
      (if color = .black then
        (if bk ∧ b.castling_path_is_safe .black true then
          [{ start := ((0 : Int), (4 : Int)), dest := ((0 : Int), (6 : Int)),
             is_castle := true : Move }]
        else []) ++
        (if bq then
          let path_clear := b.get_piece (0, 1) = none ∧ b.get_piece (0, 2) = none ∧
            b.get_piece (0, 3) = none
          if path_clear ∧ b.castling_path_is_safe .black false then
            [{ start := ((0 : Int), (4 : Int)), dest := ((0 : Int), (2 : Int)),
               is_castle := true : Move }]
          else []
        else [])
      else [])
    normal ++ castles
  | _ =>
    let directions : List (Int × Int) :=
      (if piece.kind = .B ∨ piece.kind = .Q then [(-1, -1), (-1, 1), (1, -1), (1, 1)] else []) ++
      (if piece.kind = .R ∨ piece.kind = .Q then [(-1, 0), (1, 0), (0, -1), (0, 1)] else [])
    directions.flatMap fun d => slideMoves b color pos d.1 d.2 8 (r + d.1) (c + d.2)

/- Make / unmake. -/

/-- Source: board.py `Board._update_castling_rights_after_move` (the Python
tuple reassignments written as staged tuples r1, r2). -/
def updateCastlingRights (rights : Bool × Bool × Bool × Bool) (m : Move)
    (moved : Piece) (captured : Option Piece) : Bool × Bool × Bool × Bool :=
  let r1 :=
    if moved.kind = .K then
      if moved.color = .white then (false, false, rights.2.2.1, rights.2.2.2)
      else (rights.1, rights.2.1, false, false)
    else rights
  let r2 :=
    if moved.kind = .R then
      if moved.color = .white then
        ((if m.start = ((7 : Int), (7 : Int)) then false else r1.1),
         (if m.start = ((7 : Int), (0 : Int)) then false else r1.2.1),
         r1.2.2.1, r1.2.2.2)
      else
        (r1.1, r1.2.1,
         (if m.start = ((0 : Int), (7 : Int)) then false else r1.2.2.1),
         (if m.start = ((0 : Int), (0 : Int)) then false else r1.2.2.2))
    else r1
  match captured with
  | some cap =>
    if cap.kind = .R then
      if cap.color = .white then
        ((if m.dest = ((7 : Int), (7 : Int)) then false else r2.1),
         (if m.dest = ((7 : Int), (0 : Int)) then false else r2.2.1),
         r2.2.2.1, r2.2.2.2)
      else
        (r2.1, r2.2.1,
         (if m.dest = ((0 : Int), (7 : Int)) then false else r2.2.2.1),
         (if m.dest = ((0 : Int), (0 : Int)) then false else r2.2.2.2))
    else r2
  | none => r2

/-- Source: board.py `Board._resolve_en_passant_capture`. -/
def Board.resolve_en_passant_capture (b : Board) (m : Move) (moved : Piece) :
    Option Piece × Board :=
  let csq : Square := (m.start.1, m.dest.2)
  let captured := b.get_piece csq
  let b := b.set_piece csq none
  let b := b.set_piece m.dest (some moved)
  let b := b.set_piece m.start none
  (captured, b)

/-- Source: board.py `Board.apply_move`.  The ValueError on an empty start
square becomes an Except.error; the error is raised before any mutation, so
the caller keeps the unchanged board. -/
def Board.apply_move (b : Board) (m : Move) : Except String (MoveState × Board) :=
  match b.get_piece m.start with
  | none => .error "No piece on start square"
  | some moved =>
    let prev_ep := b.en_passant_square
    let b := { b with en_passant_square := none }
    let capb : Option Piece × Board :=
      if m.is_castle then
        let b := (b.set_piece m.dest (some moved)).set_piece m.start none
        let rs : Square := if m.dest.2 = 6 then (m.start.1, 7) else (m.start.1, 0)
        let re : Square := if m.dest.2 = 6 then (m.start.1, 5) else (m.start.1, 3)
        let rook := b.get_piece rs
        ((none : Option Piece), (b.set_piece re rook).set_piece rs none)
      else if m.is_en_passant then
        b.resolve_en_passant_capture m moved
      else
        let cap := b.get_piece m.dest
        (cap, (b.set_piece m.dest (some moved)).set_piece m.start none)
    let captured := capb.1
    let b := capb.2
    let b :=
      match m.promotion with
      | some pk => b.set_piece m.dest (some ⟨pk, moved.color⟩)
      | none => b
    let b :=
      if moved.kind = .P ∧ (m.start.1 - m.dest.1).natAbs = 2 then
        let dir : Int := if moved.color = .white then -1 else 1
        { b with en_passant_square := some (m.start.1 + dir, m.start.2) }
      else b
    let prev_castling := b.castling_rights
    let b := { b with castling_rights := updateCastlingRights b.castling_rights m moved captured }
    let prev_half := b.halfmove_clock
    let b :=
      { b with halfmove_clock :=
          if moved.kind = PieceType.P ∨ captured.isSome then 0 else b.halfmove_clock + 1 }
    let st : MoveState := ⟨m, captured, prev_castling, moved, prev_ep, prev_half⟩
    .ok (st, { b with history := st :: b.history })

/-- Source: board.py `Board.undo` (empty history returns the sentinel none). -/
def Board.undo (b : Board) : Board × Option MoveState :=
  match b.history with
  | [] => (b, none)
  | st :: rest =>
    let b :=
      { b with
        history := rest
        castling_rights := st.castling_rights
        en_passant_square := st.en_passant_square
        halfmove_clock := st.halfmove_clock }
    let m := st.move
    if m.is_castle then
      let b := (b.set_piece m.start (some st.moved_piece)).set_piece m.dest none
      let rs : Square := if m.dest.2 = 6 then (m.start.1, 7) else (m.start.1, 0)
      let re : Square := if m.dest.2 = 6 then (m.start.1, 5) else (m.start.1, 3)
      let rook := b.get_piece re
      ((b.set_piece rs rook).set_piece re none, some st)
    else if m.is_en_passant then
      let csq : Square := (m.start.1, m.dest.2)
      let b := ((b.set_piece m.start (some st.moved_piece)).set_piece m.dest none).set_piece
        csq st.captured
      (b, some st)
    else
      ((b.set_piece m.start (some st.moved_piece)).set_piece m.dest st.captured, some st)

/-- Source: board.py `Board._move_puts_self_in_check` (apply, test, undo). -/
def Board.move_puts_self_in_check (b : Board) (m : Move) (color : Color) :
    Except String (Bool × Board) := do
  let r ← b.apply_move m
  let b1 := r.2
  let chk := inCheckState color b1.board_state
  pure (chk, (b1.undo).1)

/-- One iteration of the inner candidate loop of
`Board.generate_legal_moves`: test the move on the threaded board, keep it
when it does not leave the mover in check. -/
def genMoveStep (color : Color) (acc2 : List Move × Board) (mv : Move) :
    Except String (List Move × Board) := do
  let r ← (acc2.2).move_puts_self_in_check mv color
  pure (if r.1 then (acc2.1, r.2) else (acc2.1 ++ [mv], r.2))

/-- One iteration of the outer square scan of `Board.generate_legal_moves`. -/
def genSquareStep (color : Color) (acc : List Move × Board) (sq : Square) :
    Except String (List Move × Board) :=
  match (acc.2).get_piece sq with
  | some p =>
    if p.color = color then (pseudoMovesFor acc.2 sq p).foldlM (genMoveStep color) acc
    else pure acc
  | none => pure acc

/-- Source: board.py `Board.generate_legal_moves`.  The Python method mutates
self through each apply/undo test, so the (possibly changed) board is
threaded and returned. -/
def Board.generate_legal_moves (b : Board) (color : Color) :
    Except String (List Move × Board) :=
  allSquares.foldlM (genSquareStep color) ([], b)

/- Standard setup. -/

def backRankOrder : List PieceType := [.R, .N, .B, .Q, .K, .B, .N, .R]

/-- Source: board.py `Board._setup_standard` plus the `__init__` defaults
(net effect of the setup loops as a square function). -/
def initialSquares : Fin 8 → Fin 8 → Option Piece := fun r c =>
  if r.val = 7 then some ⟨backRankOrder.getD c.val .R, .white⟩
  else if r.val = 0 then some ⟨backRankOrder.getD c.val .R, .black⟩
  else if r.val = 6 then some ⟨.P, .white⟩
  else if r.val = 1 then some ⟨.P, .black⟩
  else none

def initialBoard : Board :=
  ⟨initialSquares, (true, true, true, true), none, [], 0⟩

/- Scores: Python floats including the float("inf") sentinels used by the
search.  Finite scores are ℚ. -/

inductive Score where
  | ninf
  | fin (q : ℚ)
  | inf
deriving DecidableEq, Repr

def Score.le : Score → Score → Bool
  | .ninf, _ => true
  | .fin _, .ninf => false
  | .fin a, .fin b => decide (a ≤ b)
  | .fin _, .inf => true
  | .inf, .inf => true
  | .inf, _ => false

def Score.lt (a b : Score) : Bool := !(Score.le b a)

def Score.max2 (a b : Score) : Score := if Score.le a b then b else a

def Score.min2 (a b : Score) : Score := if Score.le b a then b else a

def Score.neg : Score → Score
  | .ninf => .inf
  | .fin q => .fin (-q)
  | .inf => .ninf

/-- Subtract a finite value (used for the null-move zero window beta - 1). -/
def Score.subFin : Score → ℚ → Score
  | .ninf, _ => .ninf
  | .fin a, q => .fin (a - q)
  | .inf, _ => .inf

/- Transposition table (source: transposition.py). -/

inductive TTFlag where
  | exact
  | lower
  | upper
deriving DecidableEq, Repr

structure TTEntry where
  key : Nat
  depth : Int
  score : Score
  flag : TTFlag
  best_move : Option Move
  age : Nat := 0
deriving DecidableEq, Repr

structure TranspositionTable where
  size : Nat := 1 <<< 18
  bucket_size : Nat := 4
  table : Nat → List TTEntry
  counter : Nat := 0

/-- A fresh table of the given geometry (the `__init__` defaults are
size = 2^18 and bucket_size = 4). -/
def TranspositionTable.mk0 (size : Nat) (bucket_size : Nat) : TranspositionTable :=
  ⟨size, bucket_size, fun _ => [], 0⟩

/-- `TranspositionTable()` with the constructor defaults. -/
def TranspositionTable.default0 : TranspositionTable :=
  TranspositionTable.mk0 (1 <<< 18) 4

/-- Source: transposition.py `TranspositionTable._index`. -/
def TranspositionTable.index (t : TranspositionTable) (key : Nat) : Nat :=
  key % t.size

/-- Source: transposition.py `TranspositionTable.probe` (first entry of the
bucket with a matching key). -/
def TranspositionTable.probe (t : TranspositionTable) (key : Nat) : Option TTEntry :=
  (t.table (t.index key)).find? fun e => e.key == key

/-- One comparison step of the Python `min(range(len(bucket)), key=...)`
call in `TranspositionTable.store`: keep the earlier candidate unless the
new one is strictly (depth, age)-smaller. -/
def minDAStep (best : Option (Nat × TTEntry)) (cur : Nat × TTEntry) :
    Option (Nat × TTEntry) :=
  match best with
  | none => some cur
  | some bst =>
    if cur.2.depth < bst.2.depth ∨
        (cur.2.depth = bst.2.depth ∧ cur.2.age < bst.2.age) then some cur
    else some bst

/-- First index of the bucket entry with lexicographically minimal
(depth, age) — Python min over range(len(bucket)) with that key. -/
def minDepthAgeIdx (bucket : List TTEntry) : Nat :=
  ((bucket.enum.foldl minDAStep none).map Prod.fst).getD 0

/-- The (depth, age) lexicographic order the replacement policy minimises. -/
def lexDA (a b : TTEntry) : Prop :=
  a.depth < b.depth ∨ (a.depth = b.depth ∧ a.age ≤ b.age)

/-- Source: transposition.py `TranspositionTable.store`.  With an empty
bucket and bucket_size = 0 the Python min() would raise; that configuration
is excluded by hypothesis wherever it matters. -/
def TranspositionTable.store (t : TranspositionTable) (entry : TTEntry) :
    TranspositionTable :=
  let index := t.index entry.key
  let bucket := t.table index
  let entry := { entry with age := t.counter }
  let t := { t with counter := t.counter + 1 }
  match bucket.findIdx? (fun e => e.key == entry.key) with
  | some idx =>
    if (bucket.getD idx entry).depth ≤ entry.depth then
      { t with table := fun i => if i = index then bucket.set idx entry else t.table i }
    else t
  | none =>
    if bucket.length < t.bucket_size then
      { t with table := fun i => if i = index then bucket ++ [entry] else t.table i }
    else
      let ridx := minDepthAgeIdx bucket
      let weakest := bucket.getD ridx entry
      if entry.depth < weakest.depth then t
      else { t with table := fun i => if i = index then bucket.set ridx entry else t.table i }

/- Zobrist hashing (source: transposition.py `_init_zobrist`, `zobrist_hash`). -/

/-- Modelled from the spec: the source generates its 64-bit keys from Python
stdlib random.Random(1337), which is not part of this repository; spec §4.3
only requires seeded pseudo-random 64-bit values generated deterministically
at startup.  A deterministic 64-bit linear-congruential stream stands in for
the stdlib generator. -/
def zNext (s : Nat) : Nat :=
  (6364136223846793005 * s + 1442695040888963407) % (1 <<< 64)

def zStream : Nat → Nat
  | 0 => zNext 1337
  | n + 1 => zNext (zStream n)

def colorIdx : Color → Nat
  | .white => 0
  | .black => 1

/-- Key-generation order of `_init_zobrist`: colors (white, black) × kinds
(K, Q, R, B, N, P) × 64 squares, then 4 castling keys, 8 en-passant file
keys, one side-to-move key. -/
def zobristKindIdx : PieceType → Nat
  | .K => 0
  | .Q => 1
  | .R => 2
  | .B => 3
  | .N => 4
  | .P => 5

def zobristPieceKey (c : Color) (k : PieceType) (idx : Nat) : Nat :=
  zStream (colorIdx c * 384 + zobristKindIdx k * 64 + idx)

def zobristCastlingKey (i : Nat) : Nat := zStream (768 + i)

def zobristEpKey (file : Int) : Nat := zStream (772 + file.toNat)

def zobristSideKey : Nat := zStream 780

/-- Source: transposition.py `zobrist_hash`.  This Board has no
piece_bitboards attribute, so the source takes its square-scanning branch. -/
def zobrist_hash (b : Board) (side_to_move : Color) : Nat :=
  let h := allSquares.foldl
    (fun h sq =>
      match b.get_piece sq with
      | some p => h ^^^ zobristPieceKey p.color p.kind (squareIndex sq)
      | none => h)
    0
  let rightsList := [b.castling_rights.1, b.castling_rights.2.1,
    b.castling_rights.2.2.1, b.castling_rights.2.2.2]
  let h := (rightsList.enum).foldl
    (fun h ir => if ir.2 then h ^^^ zobristCastlingKey ir.1 else h) h
  let h :=
    match b.en_passant_square with
    | some ep => h ^^^ zobristEpKey ep.2
    | none => h
  if side_to_move = .white then h ^^^ zobristSideKey else h

/-- Source: transposition.py module-level `probe` (imported by the engine as
tt_probe). -/
def tt_probe (table : TranspositionTable) (key : Nat) (depth : Int)
    (alpha beta : Score) : Option TTEntry :=
  match table.probe key with
  | none => none
  | some entry =>
    if entry.key ≠ key ∨ entry.depth < depth then none
    else if entry.flag = .exact then some entry
    else if entry.flag = .lower ∧ Score.le beta entry.score then some entry
    else if entry.flag = .upper ∧ Score.le entry.score alpha then some entry
    else none

/-- Source: transposition.py module-level `store` (imported by the engine as
tt_store). -/
def tt_store (table : TranspositionTable) (key : Nat) (depth : Int)
    (score : Score) (flag : TTFlag) (best_move : Option Move) :
    TranspositionTable :=
  table.store ⟨key, depth, score, flag, best_move, 0⟩

/- Evaluation (source: evaluation.py), floats as ℚ. -/

/-- Source: evaluation.py `PieceValue` (dict lookups use .get with default 0,
and every kind is present, so a total function). -/
def PieceValue : PieceType → ℚ
  | .P => 1
  | .N => 3.2
  | .B => 3.33
  | .R => 5.1
  | .Q => 9
  | .K => 0

/-- Source: evaluation.py `PHASE_WEIGHTS`. -/
def PHASE_WEIGHTS : PieceType → ℚ
  | .P => 0
  | .N => 1
  | .B => 1
  | .R => 2
  | .Q => 4
  | .K => 0

def TOTAL_PHASE : ℚ := 24

/-- Source: evaluation.py `EvaluationConfig` / `CONFIG` (frozen defaults). -/
structure EvaluationConfig where
  pawn_shield_bonus : ℚ := 0.15
  king_open_file_penalty : ℚ := 0.25
  king_centralization_bonus : ℚ := 0.05
  doubled_pawn_penalty : ℚ := 0.2
  isolated_pawn_penalty : ℚ := 0.15
  passed_pawn_bonus : ℚ := 0.3
  minor_centralization_bonus : ℚ := 0.03
  development_bonus : ℚ := 0.08
  early_castle_bonus : ℚ := 0.25
  early_queen_penalty : ℚ := 0.08

def CONFIG : EvaluationConfig := {}
def midTableP : List (List ℚ) := [
  [0, 0, 0, 0, 0, 0, 0, 0],
  [0.05, 0.1, 0.1, -0.1, -0.1, 0.1, 0.1, 0.05],
  [0.05, -0.05, -0.05, 0.1, 0.1, -0.05, -0.05, 0.05],
  [0, 0, 0, 0.2, 0.2, 0, 0, 0],
  [0.05, 0.05, 0.1, 0.25, 0.25, 0.1, 0.05, 0.05],
  [0.1, 0.1, 0.15, 0.2, 0.2, 0.15, 0.1, 0.1],
  [0.2, 0.2, 0.2, 0.25, 0.25, 0.2, 0.2, 0.2],
  [0, 0, 0, 0, 0, 0, 0, 0]]

def midTableN : List (List ℚ) := [
  [-0.5, -0.4, -0.3, -0.25, -0.25, -0.3, -0.4, -0.5],
  [-0.35, -0.15, 0, 0.1, 0.1, 0, -0.15, -0.35],
  [-0.25, 0.05, 0.15, 0.2, 0.2, 0.15, 0.05, -0.25],
  [-0.2, 0.05, 0.2, 0.25, 0.25, 0.2, 0.05, -0.2],
  [-0.2, 0.05, 0.2, 0.25, 0.25, 0.2, 0.05, -0.2],
  [-0.25, 0, 0.15, 0.2, 0.2, 0.15, 0, -0.25],
  [-0.35, -0.2, -0.05, 0.05, 0.05, -0.05, -0.2, -0.35],
  [-0.5, -0.35, -0.25, -0.2, -0.2, -0.25, -0.35, -0.5]]

def midTableB : List (List ℚ) := [
  [-0.2, -0.1, -0.1, -0.05, -0.05, -0.1, -0.1, -0.2],
  [-0.1, 0, 0.05, 0, 0, 0.05, 0, -0.1],
  [-0.05, 0.1, 0.15, 0.1, 0.1, 0.15, 0.1, -0.05],
  [-0.05, 0.05, 0.15, 0.2, 0.2, 0.15, 0.05, -0.05],
  [-0.05, 0.05, 0.15, 0.2, 0.2, 0.15, 0.05, -0.05],
  [-0.05, 0.05, 0.1, 0.15, 0.15, 0.1, 0.05, -0.05],
  [-0.1, 0, 0.05, 0.05, 0.05, 0.05, 0, -0.1],
  [-0.2, -0.1, -0.1, -0.05, -0.05, -0.1, -0.1, -0.2]]

def midTableR : List (List ℚ) := [
  [-0.05, 0, 0.05, 0.05, 0.05, 0.05, 0, -0.05],
  [-0.05, 0.05, 0.1, 0.15, 0.15, 0.1, 0.05, -0.05],
  [-0.05, 0.05, 0.1, 0.15, 0.15, 0.1, 0.05, -0.05],
  [-0.05, 0.05, 0.1, 0.15, 0.15, 0.1, 0.05, -0.05],
  [-0.05, 0.05, 0.1, 0.15, 0.15, 0.1, 0.05, -0.05],
  [-0.05, 0.05, 0.1, 0.15, 0.15, 0.1, 0.05, -0.05],
  [0.05, 0.1, 0.15, 0.2, 0.2, 0.15, 0.1, 0.05],
  [0.05, 0.05, 0.1, 0.15, 0.15, 0.1, 0.05, 0.05]]

def midTableQ : List (List ℚ) := [
  [-0.2, -0.1, -0.1, -0.05, -0.05, -0.1, -0.1, -0.2],
  [-0.1, 0, 0.05, 0.05, 0.05, 0.05, 0, -0.1],
  [-0.1, 0.05, 0.1, 0.1, 0.1, 0.1, 0.05, -0.1],
  [-0.05, 0.05, 0.1, 0.1, 0.1, 0.1, 0.05, -0.05],
  [-0.05, 0.05, 0.1, 0.1, 0.1, 0.1, 0.05, -0.05],
  [-0.1, 0.05, 0.1, 0.1, 0.1, 0.1, 0.05, -0.1],
  [-0.1, 0, 0.05, 0.05, 0.05, 0.05, 0, -0.1],
  [-0.2, -0.1, -0.1, -0.05, -0.05, -0.1, -0.1, -0.2]]

def midTableK : List (List ℚ) := [
  [0.2, 0.3, 0.1, 0, 0, 0.1, 0.3, 0.2],
  [0.2, 0.2, 0, 0, 0, 0, 0.2, 0.2],
  [-0.1, -0.2, -0.2, -0.2, -0.2, -0.2, -0.2, -0.1],
  [-0.2, -0.3, -0.3, -0.4, -0.4, -0.3, -0.3, -0.2],
  [-0.3, -0.4, -0.4, -0.5, -0.5, -0.4, -0.4, -0.3],
  [-0.3, -0.4, -0.4, -0.5, -0.5, -0.4, -0.4, -0.3],
  [-0.3, -0.4, -0.4, -0.5, -0.5, -0.4, -0.4, -0.3],
  [-0.3, -0.4, -0.4, -0.5, -0.5, -0.4, -0.4, -0.3]]

def endTableN : List (List ℚ) := [
  [-0.4, -0.3, -0.2, -0.15, -0.15, -0.2, -0.3, -0.4],
  [-0.25, -0.05, 0.05, 0.15, 0.15, 0.05, -0.05, -0.25],
  [-0.15, 0.1, 0.2, 0.25, 0.25, 0.2, 0.1, -0.15],
  [-0.1, 0.1, 0.25, 0.3, 0.3, 0.25, 0.1, -0.1],
  [-0.1, 0.1, 0.25, 0.3, 0.3, 0.25, 0.1, -0.1],
  [-0.15, 0.05, 0.2, 0.25, 0.25, 0.2, 0.05, -0.15],
  [-0.25, -0.05, 0.05, 0.1, 0.1, 0.05, -0.05, -0.25],
  [-0.35, -0.25, -0.2, -0.15, -0.15, -0.2, -0.25, -0.35]]

def endTableB : List (List ℚ) := [
  [-0.15, -0.1, -0.05, 0, 0, -0.05, -0.1, -0.15],
  [-0.05, 0.05, 0.1, 0.15, 0.15, 0.1, 0.05, -0.05],
  [0, 0.1, 0.15, 0.2, 0.2, 0.15, 0.1, 0],
  [0, 0.1, 0.2, 0.25, 0.25, 0.2, 0.1, 0],
  [0, 0.1, 0.2, 0.25, 0.25, 0.2, 0.1, 0],
  [0, 0.1, 0.15, 0.2, 0.2, 0.15, 0.1, 0],
  [-0.05, 0.05, 0.1, 0.15, 0.15, 0.1, 0.05, -0.05],
  [-0.15, -0.1, -0.05, 0, 0, -0.05, -0.1, -0.15]]

def endTableR : List (List ℚ) := [
  [-0.05, 0, 0.05, 0.05, 0.05, 0.05, 0, -0.05],
  [0, 0.05, 0.1, 0.15, 0.15, 0.1, 0.05, 0],
  [0.05, 0.1, 0.15, 0.2, 0.2, 0.15, 0.1, 0.05],
  [0.05, 0.1, 0.15, 0.25, 0.25, 0.15, 0.1, 0.05],
  [0.05, 0.1, 0.15, 0.25, 0.25, 0.15, 0.1, 0.05],
  [0.05, 0.1, 0.15, 0.2, 0.2, 0.15, 0.1, 0.05],
  [0, 0.05, 0.1, 0.15, 0.15, 0.1, 0.05, 0],
  [-0.05, 0, 0.05, 0.05, 0.05, 0.05, 0, -0.05]]

def endTableQ : List (List ℚ) := [
  [-0.25, -0.15, -0.15, -0.1, -0.1, -0.15, -0.15, -0.25],
  [-0.15, -0.05, 0, 0.05, 0.05, 0, -0.05, -0.15],
  [-0.1, 0, 0.05, 0.1, 0.1, 0.05, 0, -0.1],
  [-0.05, 0.05, 0.1, 0.15, 0.15, 0.1, 0.05, -0.05],
  [-0.05, 0.05, 0.1, 0.15, 0.15, 0.1, 0.05, -0.05],
  [-0.1, 0, 0.05, 0.1, 0.1, 0.05, 0, -0.1],
  [-0.15, -0.05, 0, 0.05, 0.05, 0, -0.05, -0.15],
  [-0.25, -0.15, -0.15, -0.1, -0.1, -0.15, -0.15, -0.25]]

def endTableK : List (List ℚ) := [
  [-0.1, -0.05, 0, 0.05, 0.05, 0, -0.05, -0.1],
  [-0.05, 0.05, 0.1, 0.15, 0.15, 0.1, 0.05, -0.05],
  [0, 0.1, 0.15, 0.2, 0.2, 0.15, 0.1, 0],
  [0.05, 0.15, 0.2, 0.25, 0.25, 0.2, 0.15, 0.05],
  [0.1, 0.2, 0.25, 0.3, 0.3, 0.25, 0.2, 0.1],
  [0.15, 0.25, 0.3, 0.35, 0.35, 0.3, 0.25, 0.15],
  [0.15, 0.25, 0.3, 0.35, 0.35, 0.3, 0.25, 0.15],
  [0.1, 0.2, 0.25, 0.3, 0.3, 0.25, 0.2, 0.1]]

/-- Source: evaluation.py `MIDGAME_TABLES`. -/
def MIDGAME_TABLES : PieceType → List (List ℚ)
  | .P => midTableP
  | .N => midTableN
  | .B => midTableB
  | .R => midTableR
  | .Q => midTableQ
  | .K => midTableK

/-- Source: evaluation.py `ENDGAME_TABLES` (P is the reversed midgame table). -/
def ENDGAME_TABLES : PieceType → List (List ℚ)
  | .P => midTableP.reverse
  | .N => endTableN
  | .B => endTableB
  | .R => endTableR
  | .Q => endTableQ
  | .K => endTableK

/-- Modelled from the spec: `Board.iter_pieces` belongs to the bitboard
position class that is absent from src/ (only its callers remain); per the
data model it enumerates (piece, row, col) over occupied squares in board
scan order. -/
def Board.iter_pieces (b : Board) : List (Piece × Int × Int) :=
  allSquares.filterMap fun sq => (b.get_piece sq).map fun p => (p, sq.1, sq.2)

/-- Modelled from the spec: `Board.file_pieces` likewise is absent from src/;
it enumerates (piece, row) over the occupied squares of one file. -/
def Board.file_pieces (b : Board) (file : Int) : List (Piece × Int) :=
  (List.range 8).filterMap fun r =>
    (b.get_piece ((r : Int), file)).map fun p => (p, (r : Int))

/-- Source: evaluation.py `_mirror_row`. -/
def mirrorRow (row : Int) : Int := 7 - row

/-- Source: evaluation.py `_interpolate`. -/
def interpolate (mid_value end_value phase : ℚ) : ℚ :=
  phase * mid_value + (1 - phase) * end_value

/-- Source: evaluation.py `_game_phase`. -/
def gamePhase (b : Board) : ℚ :=
  let remaining := b.iter_pieces.foldl (fun acc prc => acc + PHASE_WEIGHTS prc.1.kind) 0
  max 0 (min 1 (remaining / TOTAL_PHASE))

def tableAt (t : List (List ℚ)) (r c : Int) : ℚ :=
  (t.getD r.toNat []).getD c.toNat 0

/-- Source: evaluation.py `_piece_square_value`. -/
def pieceSquareValue (table : List (List ℚ)) (piece : Piece) (row col : Int) : ℚ :=
  let lookup_row := if piece.color = .white then row else mirrorRow row
  tableAt table lookup_row col

/-- Source: evaluation.py `_material_and_position`. -/
def materialAndPosition (b : Board) : ℚ × ℚ :=
  b.iter_pieces.foldl
    (fun acc prc =>
      let p := prc.1
      let r := prc.2.1
      let c := prc.2.2
      let sign : ℚ := if p.color = .white then 1 else -1
      let base := PieceValue p.kind
      (acc.1 + sign * (base + pieceSquareValue (MIDGAME_TABLES p.kind) p r c),
       acc.2 + sign * (base + pieceSquareValue (ENDGAME_TABLES p.kind) p r c)))
    (0, 0)

/-- Source: evaluation.py `_file_has_pawn`. -/
def fileHasPawn (b : Board) (file_index : Int) (color : Color) : Bool :=
  (b.file_pieces file_index).any fun pr => pr.1.kind = .P ∧ pr.1.color = color

/-- Source: evaluation.py `king_safety`. -/
def kingSafety (b : Board) : ℚ × ℚ :=
  ([Color.white, Color.black]).foldl
    (fun acc color =>
      match b.king_position color with
      | none => acc
      | some kp =>
        let r := kp.1
        let c := kp.2
        let direction : Int := if color = .white then -1 else 1
        let shield_squares := ([(-1 : Int), 0, 1]).filterMap fun dc =>
          if inBounds (r + direction, c + dc) then some ((r + direction, c + dc) : Square)
          else none
        let shield := (shield_squares.filter fun sq =>
          match b.get_piece sq with
          | some p => p.kind = .P ∧ p.color = color
          | none => false).length
        let score : ℚ := (shield : ℚ) * CONFIG.pawn_shield_bonus
        let score := if fileHasPawn b c color then score
          else score - CONFIG.king_open_file_penalty
        let center_distance : ℚ := |(7 : ℚ) / 2 - (r : ℚ)| + |(7 : ℚ) / 2 - (c : ℚ)|
        let centralization := ((7 : ℚ) / 2 - center_distance) * CONFIG.king_centralization_bonus
        (acc.1 + (if color = .white then score else -score),
         acc.2 + (if color = .white then centralization else -centralization)))
    (0, 0)

/-- Source: evaluation.py `_pawn_files` (dict of files 0..7 as a list). -/
def pawnFiles (b : Board) (color : Color) : List (List (Int × Int)) :=
  (List.range 8).map fun f =>
    b.iter_pieces.filterMap fun prc =>
      if prc.1.kind = .P ∧ prc.1.color = color ∧ prc.2.2 = (f : Int) then
        some (prc.2.1, prc.2.2)
      else none

/-- Rows strictly ahead of a pawn (source: the `rows_ahead` ranges in
`pawn_structure`). -/
def rowsAhead (color : Color) (pawn_row : Int) : List Int :=
  if color = .white then
    (List.range pawn_row.toNat).map fun i => pawn_row - 1 - (i : Int)
  else
    (List.range (7 - pawn_row).toNat).map fun i => pawn_row + 1 + (i : Int)

/-- Source: evaluation.py `pawn_structure`. -/
def pawnStructure (b : Board) : ℚ :=
  ([((1 : ℚ), Color.white), ((-1 : ℚ), Color.black)]).foldl
    (fun score sc =>
      let color_sign := sc.1
      let color := sc.2
      let files := pawnFiles b color
      let opponent_files := pawnFiles b color.opponent
      (List.range 8).foldl
        (fun score fi =>
          let pawns := files.getD fi []
          let score :=
            if 1 < pawns.length then
              score - color_sign * CONFIG.doubled_pawn_penalty * ((pawns.length : ℚ) - 1)
            else score
          let has_neighbor := ([(fi : Int) - 1, (fi : Int) + 1]).any fun adj =>
            0 ≤ adj ∧ adj < 8 ∧ (files.getD adj.toNat []) ≠ []
          let score := if has_neighbor then score
            else score - color_sign * CONFIG.isolated_pawn_penalty
          pawns.foldl
            (fun score prc =>
              let pawn_row := prc.1
              let opponent_pawns_ahead := (rowsAhead color pawn_row).any fun row_ahead =>
                ([(fi : Int) - 1, (fi : Int), (fi : Int) + 1]).any fun f =>
                  0 ≤ f ∧ f < 8 ∧
                    ((opponent_files.getD f.toNat []).any fun pr => pr.1 = row_ahead)
              if opponent_pawns_ahead then score
              else score + color_sign * CONFIG.passed_pawn_bonus)
            score)
        score)
    0

/-- Source: evaluation.py `_minor_centralization`. -/
def minorCentralization (b : Board) : ℚ :=
  b.iter_pieces.foldl
    (fun score prc =>
      let p := prc.1
      if p.kind = .N ∨ p.kind = .B then
        let r := prc.2.1
        let c := prc.2.2
        let distance : ℚ := |(7 : ℚ) / 2 - (r : ℚ)| + |(7 : ℚ) / 2 - (c : ℚ)|
        let centralization := ((7 : ℚ) / 2 - distance) * CONFIG.minor_centralization_bonus
        score + (if p.color = .white then centralization else -centralization)
      else score)
    0

/-- Source: evaluation.py `_mobility` (calls generate_legal_moves for both
colors on the same board object, hence the threading). -/
def evalMobility (b : Board) : Except String ((ℚ × ℚ) × Board) := do
  let w ← b.generate_legal_moves .white
  let bl ← w.2.generate_legal_moves .black
  let diff : ℚ := (w.1.length : ℚ) - (bl.1.length : ℚ)
  pure ((diff * 0.01, diff * 0.004), bl.2)

/-- Source: evaluation.py `_pawn_attacks_square`. -/
def pawnAttacksSquare (b : Board) (square : Square) (attacker : Color) : Bool :=
  let r := square.1
  let c := square.2
  let direction : Int := if attacker = .white then -1 else 1
  ([(-1 : Int), 1]).any fun dc =>
    if inBounds (r + direction, c + dc) then
      match b.get_piece (r + direction, c + dc) with
      | some p => p.color = attacker ∧ p.kind = .P
      | none => false
    else false

/-- Source: evaluation.py `_outpost_squares`. -/
def outpostSquares (b : Board) : ℚ × ℚ :=
  b.iter_pieces.foldl
    (fun acc prc =>
      let p := prc.1
      if p.kind = .N ∨ p.kind = .B then
        let r := prc.2.1
        let c := prc.2.2
        let supported := pawnAttacksSquare b (r, c) p.color
        let attacked := pawnAttacksSquare b (r, c) p.color.opponent
        if supported ∧ ¬attacked then
          let outpost_bonus : ℚ := if p.kind = .N then 0.15 else 0.1
          let sign : ℚ := if p.color = .white then 1 else -1
          (acc.1 + sign * outpost_bonus, acc.2 + sign * (outpost_bonus * 0.5))
        else acc
      else acc)
    (0, 0)

/-- Source: evaluation.py `_START_MINOR_SQUARES`. -/
def startMinorSquares (c : Color) : List Square :=
  if c = .white then [(7, 1), (7, 6), (7, 2), (7, 5)] else [(0, 1), (0, 6), (0, 2), (0, 5)]

/-- Source: evaluation.py `_CASTLED_KING_SQUARES`. -/
def castledKingSquares : List Square := [(7, 6), (7, 2), (0, 6), (0, 2)]

/-- Source: evaluation.py `_development_and_castling`. -/
def developmentAndCastling (b : Board) : ℚ × ℚ :=
  let phase := gamePhase b
  let opening_weight := max 0 (1 - phase)
  if opening_weight = 0 then (0, 0)
  else
    let mid_score := ([Color.white, Color.black]).foldl
      (fun mid color =>
        let sign : ℚ := if color = .white then 1 else -1
        let mid := (startMinorSquares color).foldl
          (fun mid square =>
            let ok : Bool := match b.get_piece square with
              | some p => decide (p.color = color ∧ (p.kind = .N ∨ p.kind = .B))
              | none => false
            if ok then mid else mid + sign * CONFIG.development_bonus * opening_weight)
          mid
        let mid :=
          match b.king_position color with
          | some kp => if kp ∈ castledKingSquares then
              mid + sign * CONFIG.early_castle_bonus * opening_weight
            else mid
          | none => mid
        let queen_home : Square := if color = .white then (7, 3) else (0, 3)
        let queen_ok : Bool := match b.get_piece queen_home with
          | some p => decide (p.kind = .Q ∧ p.color = color)
          | none => false
        if queen_ok then mid else mid - sign * CONFIG.early_queen_penalty * opening_weight)
      0
    (mid_score, mid_score * 0.3)

/-- Source: evaluation.py `evaluate_board`.  The mobility term runs
generate_legal_moves on the shared board object, so later terms see the
board it leaves behind; the threading reproduces that. -/
def evaluate_board (b : Board) : Except String (ℚ × Board) := do
  let phase := gamePhase b
  let mats := materialAndPosition b
  let kings := kingSafety b
  let pawn_score := pawnStructure b
  let minor_activity := minorCentralization b
  let mob ← evalMobility b
  let outs := outpostSquares mob.2
  let devs := developmentAndCastling mob.2
  let mid_total := mats.1 + kings.1 + pawn_score + minor_activity + mob.1.1 + outs.1 + devs.1
  let end_total := mats.2 + kings.2 + pawn_score + minor_activity + mob.1.2 + outs.2 + devs.2
  pure (interpolate mid_total end_total phase, mob.2)

/- AI engine (source: ai/engine.py).  The wall-clock deadline arguments are
modelled as absent (time_limit_ms = None), so every deadline check is the
skipped branch; diagnostics are likewise omitted.  Python dict state
(node counter, killer moves, history scores, transposition table, and the
mutated board object) is threaded through a SearchCtx record. -/

def QUIESCENCE_DEPTH : Nat := 2

abbrev HistKey : Type := Square × Square × Option PieceType

/-- The 4-tuple returned by `_move_order_score`: capture flag, combined
capture/promotion/development score, killer bonus, history score. -/
abbrev OrderKey : Type := Nat × ℚ × Nat × Nat

/-- Python lexicographic tuple comparison on OrderKey. -/
def orderKeyLe (a b : OrderKey) : Bool :=
  if a.1 ≠ b.1 then decide (a.1 < b.1)
  else if a.2.1 ≠ b.2.1 then decide (a.2.1 < b.2.1)
  else if a.2.2.1 ≠ b.2.2.1 then decide (a.2.2.1 < b.2.2.1)
  else decide (a.2.2.2 ≤ b.2.2.2)

/-- Python sorted(..., reverse=True) over (element, key) pairs: a stable
descending sort on the precomputed keys (CPython computes all keys first,
in list order, then stable-sorts). -/
def pySortDescPairs (pairs : List (Move × OrderKey)) : List (Move × OrderKey) :=
  List.insertionSort (fun p q => orderKeyLe q.2 p.2 = true) pairs

/-- Source: engine.py `_pseudo_legal_move_count`. -/
def pseudoLegalMoveCount (b : Board) (color : Color) : Nat :=
  b.iter_pieces.foldl
    (fun cnt prc =>
      if prc.1.color = color then
        cnt + (pseudoMovesFor b (prc.2.1, prc.2.2) prc.1).length
      else cnt)
    0

/-- Source: engine.py `_mobility_score` (the engine only ever passes integer
counts, so the Iterable variant of MobilityCounts is not modelled). -/
def mobilityScore (b : Board) (mc : Option Nat × Option Nat) : ℚ :=
  let wm := match mc.1 with | some n => n | none => pseudoLegalMoveCount b .white
  let bm := match mc.2 with | some n => n | none => pseudoLegalMoveCount b .black
  0.1 * ((wm : ℚ) - (bm : ℚ))

/-- Source: engine.py `_captured_piece`. -/
def capturedPiece (b : Board) (m : Move) : Option Piece :=
  if m.is_en_passant then b.get_piece (m.start.1, m.dest.2) else b.get_piece m.dest

/-- Source: engine.py `_move_order_score`. -/
def moveOrderScore (b : Board) (m : Move) (killer_moves : Option (Nat → List Move))
    (history_scores : Option (HistKey → Nat)) (depth : Nat) : OrderKey :=
  let captured := capturedPiece b m
  let mover := b.get_piece m.start
  let captured_value : ℚ := match captured with | some p => PieceValue p.kind | none => 0
  let mover_value : ℚ := match mover with | some p => PieceValue p.kind | none => 0
  let capture_score : ℚ := if captured.isSome then captured_value * 10 - mover_value else 0
  let development_bonus : ℚ :=
    match mover with
    | none => 0
    | some pc =>
      let d1 : ℚ := if m.is_castle then 30 else 0
      let d2 : ℚ :=
        if (pc.kind = .N ∨ pc.kind = .B) ∧
            m.start.1 = (if pc.color = .white then (7 : Int) else 0) then 6 else 0
      let d3 : ℚ := if pc.kind = .P ∧ (m.start.2 = 3 ∨ m.start.2 = 4) then 5 else 0
      let d4 : ℚ :=
        if pc.kind = .K ∧ (m.dest = ((7 : Int), (6 : Int)) ∨ m.dest = ((7 : Int), (2 : Int)) ∨
            m.dest = ((0 : Int), (6 : Int)) ∨ m.dest = ((0 : Int), (2 : Int))) then 12 else 0
      d1 + d2 + d3 + d4
  let promotion_bonus : ℚ := match m.promotion with | some pk => PieceValue pk | none => 0
  let killer_bonus : Nat :=
    match killer_moves with
    | some km => if m ∈ km depth then 1 else 0
    | none => 0
  let history_score : Nat :=
    match history_scores with
    | some hs => hs (m.start, m.dest, m.promotion)
    | none => 0
  ((if captured.isSome then 1 else 0),
    capture_score + promotion_bonus + development_bonus, killer_bonus, history_score)

/-- Source: engine.py `evaluate_board` (static evaluation plus mobility; the
static evaluation mutates the board through its own mobility term, and the
engine mobility then reads that board). -/
def engineEvaluateBoard (b : Board) (mc : Option Nat × Option Nat) :
    Except String (ℚ × Board) := do
  let r ← evaluate_board b
  pure (r.1 + mobilityScore r.2 mc, r.2)

/-- Source: engine.py `_terminal_score`. -/
def terminalScore (b : Board) (player maximizing_color : Color)
    (legal : Option (List Move)) : Except String (Option Score × Board) := do
  let lm ← match legal with
    | some ms => pure (ms, b)
    | none => b.generate_legal_moves player
  if lm.1 ≠ [] then pure (none, lm.2)
  else if lm.2.in_check player then
    pure (some (if player = maximizing_color then Score.ninf else Score.inf), lm.2)
  else pure (some (Score.fin 0), lm.2)

/-- Source: engine.py `_is_quiescence_candidate`. -/
def isQuiescenceCandidate (b : Board) (m : Move) (next_color : Color) :
    Except String ((Bool × OrderKey) × Board) := do
  let order_score := moveOrderScore b m none none 0
  if order_score.1 ≠ 0 then
    pure ((decide ((0 : ℚ) ≤ order_score.2.1), order_score), b)
  else if m.promotion.isSome then
    pure ((true, order_score), b)
  else do
    let r ← b.apply_move m
    let gives := r.2.in_check next_color
    pure ((gives, order_score), (r.2.undo).1)

structure SearchCtx where
  board : Board
  counter : Nat
  tt : Option TranspositionTable
  killers : Nat → List Move
  history : HistKey → Nat

/-- The budget-exhausted early return of `_minimax` / `_quiescence`: the
static engine evaluation from the maximizing side. -/
def budgetScore (maximizing_color : Color) (ctx : SearchCtx) :
    Except String (Score × SearchCtx) := do
  let r ← engineEvaluateBoard ctx.board (none, none)
  pure ((if maximizing_color = .white then Score.fin r.1 else Score.fin (-r.1)),
    { ctx with board := r.2 })

def overBudget (maxNodes : Option Nat) (counter : Nat) : Bool :=
  match maxNodes with
  | some mn => decide (mn < counter)
  | none => false

/-- The move loop of `_quiescence`, with the recursive call abstracted; the
two Python loops (maximizer and minimizer) share this shape with the
`maximizing` flag selecting the branch actually transliterated. -/
def quiescenceLoopGen
    (recur : Color → Score → Score → SearchCtx → Except String (Score × SearchCtx))
    (maximizing : Bool) (next_color : Color) :
    List (Move × OrderKey) → Score → Score → Score → SearchCtx →
    Except String (Score × SearchCtx)
  | [], value, _, _, ctx => pure (value, ctx)
  | (mv, _) :: rest, value, alpha, beta, ctx => do
    let r ← ctx.board.apply_move mv
    let ctx := { ctx with board := r.2 }
    let s ← recur next_color alpha beta ctx
    let ctx := { s.2 with board := ((s.2).board.undo).1 }
    let score := s.1
    if maximizing then
      let value := Score.max2 value score
      let alpha := Score.max2 alpha value
      if Score.le beta alpha then pure (value, ctx)
      else quiescenceLoopGen recur maximizing next_color rest value alpha beta ctx
    else
      let value := Score.min2 value score
      let beta := Score.min2 beta value
      if Score.le beta alpha then pure (value, ctx)
      else quiescenceLoopGen recur maximizing next_color rest value alpha beta ctx

/-- Source: engine.py `_quiescence`. -/
def quiescenceQ (maxNodes : Option Nat) (maximizing_color : Color) :
    Nat → Color → Score → Score → SearchCtx → Except String (Score × SearchCtx)
  | q_depth, current_color, alpha, beta, ctx => do
    let ctx := { ctx with counter := ctx.counter + 1 }
    if overBudget maxNodes ctx.counter then budgetScore maximizing_color ctx
    else do
      let g ← ctx.board.generate_legal_moves current_color
      let legal_moves := g.1
      let ctx := { ctx with board := g.2 }
      let t ← terminalScore ctx.board current_color maximizing_color (some legal_moves)
      let ctx := { ctx with board := t.2 }
      match t.1 with
      | some ts => pure (ts, ctx)
      | none => do
        let mobility_counts : Option Nat × Option Nat :=
          if current_color = .white then (some legal_moves.length, none)
          else (none, some legal_moves.length)
        let ev ← engineEvaluateBoard ctx.board mobility_counts
        let ctx := { ctx with board := ev.2 }
        let stand_pat : Score :=
          if maximizing_color = .white then .fin ev.1 else .fin (-ev.1)
        match q_depth with
        | 0 => pure (stand_pat, ctx)
        | qd + 1 => do
          let tt_key : Option Nat :=
            match ctx.tt with
            | some _ => some (zobrist_hash ctx.board current_color)
            | none => none
          let probed : Option TTEntry :=
            match ctx.tt, tt_key with
            | some tbl, some k => tt_probe tbl k ((qd + 1 : Nat) : Int) alpha beta
            | _, _ => none
          match probed with
          | some e => pure (e.score, ctx)
          | none => do
            let maximizing := current_color = maximizing_color
            let alpha_original := alpha
            let beta_original := beta
            if maximizing ∧ Score.le beta stand_pat then pure (stand_pat, ctx)
            else if ¬maximizing ∧ Score.le stand_pat alpha then pure (stand_pat, ctx)
            else do
              let alpha := if maximizing then Score.max2 alpha stand_pat else alpha
              let beta := if maximizing then beta else Score.min2 beta stand_pat
              let next_color := current_color.opponent
              let nm ← legal_moves.foldlM
                (fun (acc : List (Move × OrderKey) × SearchCtx) mv => do
                  let r ← isQuiescenceCandidate acc.2.board mv next_color
                  pure (if r.1.1 then acc.1 ++ [(mv, r.1.2)] else acc.1,
                    { acc.2 with board := r.2 }))
                ([], ctx)
              let noisy_moves := nm.1
              let ctx := nm.2
              if noisy_moves = [] then pure (stand_pat, ctx)
              else do
                let sortedMoves := pySortDescPairs noisy_moves
                let r ← quiescenceLoopGen
                  (fun cc a bb cx => quiescenceQ maxNodes maximizing_color qd cc a bb cx)
                  maximizing next_color sortedMoves stand_pat alpha beta ctx
                let value := r.1
                let ctx := r.2
                let ctx :=
                  match ctx.tt, tt_key with
                  | some tbl, some k =>
                    let flag :=
                      if Score.le value alpha_original then TTFlag.upper
                      else if Score.le beta_original value then TTFlag.lower
                      else TTFlag.exact
                    { ctx with tt := some (tt_store tbl k ((qd + 1 : Nat) : Int) value flag none) }
                  | _, _ => ctx
                pure (value, ctx)
termination_by q_depth _ _ _ _ => q_depth
decreasing_by omega

/-- The maximizing-player move loop of `_minimax` (source lines with
`value = float("-inf")`); `dd + 1` is the node depth, recursive calls are
abstracted and bounded by dd. -/
def minimaxLoopMax (dd : Nat)
    (recur : (d2 : Nat) → d2 ≤ dd → Color → Score → Score → SearchCtx →
      Except String (Score × SearchCtx))
    (next_color : Color) :
    List Move → Nat → Score → Score → Score → Option Move → SearchCtx →
    Except String (Score × Option Move × SearchCtx)
  | [], _, value, _, _, best, ctx => pure (value, best, ctx)
  | mv :: rest, idx, value, alpha, beta, best, ctx => do
    let depth := dd + 1
    let is_capture := (capturedPiece ctx.board mv).isSome
    let is_promotion := mv.promotion.isSome
    let r ← ctx.board.apply_move mv
    let ctx := { ctx with board := r.2 }
    let gives_check := ctx.board.in_check next_color
    let reduction : Nat :=
      if 3 ≤ depth ∧ 3 ≤ idx ∧ ¬is_capture ∧ ¬is_promotion ∧ gives_check = false then
        (if depth < 5 then 1 else 2)
      else 0
    let s1 ← recur (dd - reduction) (Nat.sub_le dd reduction) next_color alpha beta ctx
    let sc ←
      if reduction ≠ 0 ∧ Score.lt alpha s1.1 then
        recur dd (Nat.le_refl dd) next_color alpha beta s1.2
      else pure s1
    let score := sc.1
    let ctx := sc.2
    let ctx := { ctx with board := (ctx.board.undo).1 }
    let vbc :=
      if Score.lt value score then
        let ctx2 :=
          if is_capture = false then
            let hk : HistKey := (mv.start, mv.dest, mv.promotion)
            { ctx with history :=
                fun k => if k = hk then ctx.history hk + depth * depth else ctx.history k }
          else ctx
        (score, some mv, ctx2)
      else (value, best, ctx)
    let value := vbc.1
    let best := vbc.2.1
    let ctx := vbc.2.2
    let alpha := Score.max2 alpha value
    if Score.le beta alpha then
      let ctx :=
        if is_capture = false then
          let killers0 := ctx.killers depth
          let killers1 := (if mv ∈ killers0 then killers0.erase mv else killers0) ++ [mv]
          let killers2 := killers1.drop (killers1.length - 2)
          { ctx with killers := fun d => if d = depth then killers2 else ctx.killers d }
        else ctx
      pure (value, best, ctx)
    else
      minimaxLoopMax dd recur next_color rest (idx + 1) value alpha beta best ctx

/-- The minimizing-player move loop of `_minimax` (source lines with
`value = float("inf")`). -/
def minimaxLoopMin (dd : Nat)
    (recur : (d2 : Nat) → d2 ≤ dd → Color → Score → Score → SearchCtx →
      Except String (Score × SearchCtx))
    (next_color : Color) :
    List Move → Nat → Score → Score → Score → Option Move → SearchCtx →
    Except String (Score × Option Move × SearchCtx)
  | [], _, value, _, _, best, ctx => pure (value, best, ctx)
  | mv :: rest, idx, value, alpha, beta, best, ctx => do
    let depth := dd + 1
    let is_capture := (capturedPiece ctx.board mv).isSome
    let is_promotion := mv.promotion.isSome
    let r ← ctx.board.apply_move mv
    let ctx := { ctx with board := r.2 }
    let gives_check := ctx.board.in_check next_color
    let reduction : Nat :=
      if 3 ≤ depth ∧ 3 ≤ idx ∧ ¬is_capture ∧ ¬is_promotion ∧ gives_check = false then
        (if depth < 5 then 1 else 2)
      else 0
    let s1 ← recur (dd - reduction) (Nat.sub_le dd reduction) next_color alpha beta ctx
    let sc ←
      if reduction ≠ 0 ∧ Score.lt s1.1 beta then
        recur dd (Nat.le_refl dd) next_color alpha beta s1.2
      else pure s1
    let score := sc.1
    let ctx := sc.2
    let ctx := { ctx with board := (ctx.board.undo).1 }
    let vbc :=
      if Score.lt score value then
        let ctx2 :=
          if is_capture = false then
            let hk : HistKey := (mv.start, mv.dest, mv.promotion)
            { ctx with history :=
                fun k => if k = hk then ctx.history hk + depth * depth else ctx.history k }
          else ctx
        (score, some mv, ctx2)
      else (value, best, ctx)
    let value := vbc.1
    let best := vbc.2.1
    let ctx := vbc.2.2
    let beta := Score.min2 beta value
    if Score.le beta alpha then
      let ctx :=
        if is_capture = false then
          let killers0 := ctx.killers depth
          let killers1 := (if mv ∈ killers0 then killers0.erase mv else killers0) ++ [mv]
          let killers2 := killers1.drop (killers1.length - 2)
          { ctx with killers := fun d => if d = depth then killers2 else ctx.killers d }
        else ctx
      pure (value, best, ctx)
    else
      minimaxLoopMin dd recur next_color rest (idx + 1) value alpha beta best ctx

/-- Source: engine.py `_minimax`.  The per-node `move_order_scores` memo dict
caches a pure function of state that does not change inside the node, so it
is semantically transparent and the keys are computed directly. -/
def minimaxM (maxNodes : Option Nat) (maximizing_color : Color) :
    Nat → Color → Score → Score → SearchCtx → Except String (Score × SearchCtx)
  | depth, current_color, alpha, beta, ctx => do
    let ctx := { ctx with counter := ctx.counter + 1 }
    if overBudget maxNodes ctx.counter then budgetScore maximizing_color ctx
    else do
      let g ← ctx.board.generate_legal_moves current_color
      let legal_moves := g.1
      let ctx := { ctx with board := g.2 }
      let t ← terminalScore ctx.board current_color maximizing_color (some legal_moves)
      let ctx := { ctx with board := t.2 }
      match t.1 with
      | some ts => pure (ts, ctx)
      | none =>
        match depth with
        | 0 => quiescenceQ maxNodes maximizing_color QUIESCENCE_DEPTH current_color alpha beta ctx
        | dd + 1 => do
          let depth := dd + 1
          let maximizing := current_color = maximizing_color
          let next_color := current_color.opponent
          -- Null-move pruning (source: _apply_null_move_allowed and
          -- _null_move_search; the depth >= 2 test of the former is the
          -- explicit outer branch here).
          let nmr ←
            if hdd : 2 ≤ depth then
              let allowed : Bool :=
                if ctx.board.in_check current_color then false
                else
                  let counts := allSquares.foldl
                    (fun (acc : Nat × Nat) sq =>
                      match ctx.board.get_piece sq with
                      | some p =>
                        if p.color = current_color then
                          if p.kind = .P then (acc.1 + 1, acc.2)
                          else if p.kind ≠ .K then (acc.1, acc.2 + 1)
                          else acc
                        else acc
                      | none => acc)
                    (0, 0)
                  !(counts.2 = 0 ∧ counts.1 ≤ 4)
              if allowed then do
                let prev_ep := ctx.board.en_passant_square
                let prev_half := ctx.board.halfmove_clock
                let prev_castling := ctx.board.castling_rights
                let b1 :=
                  { ctx.board with
                    en_passant_square := none
                    halfmove_clock := ctx.board.halfmove_clock + 1 }
                let reduction : Nat := if 5 < depth then 2 else 1
                let s ← minimaxM maxNodes maximizing_color (depth - 1 - reduction)
                  next_color (Score.subFin beta 1) beta { ctx with board := b1 }
                let b2 :=
                  { (s.2).board with
                    en_passant_square := prev_ep
                    halfmove_clock := prev_half
                    castling_rights := prev_castling }
                pure ((some s.1 : Option Score), { s.2 with board := b2 })
              else pure ((none : Option Score), ctx)
            else pure ((none : Option Score), ctx)
          let nullCut : Bool :=
            match nmr.1 with
            | some ns => if maximizing then Score.le beta ns else Score.le ns alpha
            | none => false
          let ctx := nmr.2
          match hcut : nmr.1, nullCut with
          | some ns, true => pure (ns, ctx)
          | _, _ => do
            let tt_key : Option Nat :=
              match ctx.tt with
              | some _ => some (zobrist_hash ctx.board current_color)
              | none => none
            let ordering_entry : Option TTEntry :=
              match ctx.tt, tt_key with
              | some tbl, some k => tbl.probe k
              | _, _ => none
            let probed : Option TTEntry :=
              match ctx.tt, tt_key with
              | some tbl, some k => tt_probe tbl k (depth : Int) alpha beta
              | _, _ => none
            match probed with
            | some e => pure (e.score, ctx)
            | none => do
              let tbl0 :=
                match ordering_entry with
                | some oe =>
                  match oe.best_move with
                  | some bm =>
                    match legal_moves.findIdx? (fun mv => mv == bm) with
                    | some i => ((some (legal_moves.getD i bm) : Option Move), legal_moves.eraseIdx i)
                    | none => ((none : Option Move), legal_moves)
                  | none => ((none : Option Move), legal_moves)
                | none => ((none : Option Move), legal_moves)
              let tt_best_move := tbl0.1
              let keyed := tbl0.2.map fun mv =>
                (mv, moveOrderScore ctx.board mv (some ctx.killers) (some ctx.history) depth)
              let sortedMoves := (pySortDescPairs keyed).map Prod.fst
              let legal2 :=
                match tt_best_move with
                | some tb => tb :: sortedMoves
                | none => sortedMoves
              if legal2 = [] then do
                let t2 ← terminalScore ctx.board current_color maximizing_color none
                pure ((t2.1).getD (Score.fin 0), { ctx with board := t2.2 })
              else do
                let alpha_original := alpha
                let beta_original := beta
                let lr ←
                  if maximizing then
                    minimaxLoopMax dd
                      (fun d2 _h cc a bb cx => minimaxM maxNodes maximizing_color d2 cc a bb cx)
                      next_color legal2 0 Score.ninf alpha beta none ctx
                  else
                    minimaxLoopMin dd
                      (fun d2 _h cc a bb cx => minimaxM maxNodes maximizing_color d2 cc a bb cx)
                      next_color legal2 0 Score.inf alpha beta none ctx
                let value := lr.1
                let best_move_found := lr.2.1
                let ctx := lr.2.2
                let ctx :=
                  match ctx.tt, tt_key with
                  | some tbl, some k =>
                    let flag :=
                      if Score.le value alpha_original then TTFlag.upper
                      else if Score.le beta_original value then TTFlag.lower
                      else TTFlag.exact
                    { ctx with tt := some (tt_store tbl k (depth : Int) value flag best_move_found) }
                  | _, _ => ctx
                pure (value, ctx)
termination_by depth _ _ _ _ => depth
decreasing_by all_goals omega

/- choose_move (source: engine.py `choose_move`). -/

/-- Modelled from the spec: `BitboardBoard` (imported by engine.py from
chess_engine.board) is absent from src/ — only this caller remains.  Per the
spec the bitboard class is the Position representation with identical
move-generation and make/unmake contracts, and `from_board` preserves the
position, so the conversion is the identity on the modelled position. -/
def BitboardBoard.from_board (b : Board) : Board := b

/-- The per-depth `move_order_scores` memo of choose_move: depth, move key
to cached order score. -/
abbrev ChooseMemo : Type := Nat → Move → Option OrderKey

/-- Source: the `_order_score` closure inside `choose_move` (memoised per
current_depth and move key). -/
def chooseOrderScore (b : Board) (killers : Nat → List Move) (history : HistKey → Nat)
    (memo : ChooseMemo) (mv : Move) (current_depth : Nat) : OrderKey × ChooseMemo :=
  match memo current_depth mv with
  | some k => (k, memo)
  | none =>
    let k := moveOrderScore b mv (some killers) (some history) current_depth
    (k, fun d m => if d = current_depth ∧ m = mv then some k else memo d m)

/-- sorted(legal_moves, key=_order_score(., current_depth), reverse=True):
keys are computed eagerly in list order (threading the memo), then the pairs
are stable-sorted descending. -/
def chooseSortDesc (b : Board) (killers : Nat → List Move) (history : HistKey → Nat)
    (memo : ChooseMemo) (moves : List Move) (current_depth : Nat) :
    List Move × ChooseMemo :=
  let kp := moves.foldl
    (fun (acc : List (Move × OrderKey) × ChooseMemo) mv =>
      let r := chooseOrderScore b killers history acc.2 mv current_depth
      (acc.1 ++ [(mv, r.1)], r.2))
    ([], memo)
  ((pySortDescPairs kp.1).map Prod.fst, kp.2)

/-- The tt-suggestion extraction of choose_move (pop the first list element
equal to the stored best move and warm its order score). -/
def chooseExtractTT (b : Board) (killers : Nat → List Move) (history : HistKey → Nat)
    (memo : ChooseMemo) (tt_order_entry : Option TTEntry) (legal : List Move)
    (current_depth : Nat) : Option Move × List Move × ChooseMemo :=
  match tt_order_entry with
  | some oe =>
    match oe.best_move with
    | some bm =>
      match legal.findIdx? (fun mv => mv == bm) with
      | some i =>
        let tb := legal.getD i bm
        let r := chooseOrderScore b killers history memo tb current_depth
        (some tb, legal.eraseIdx i, r.2)
      | none => (none, legal, memo)
    | none => (none, legal, memo)
  | none => (none, legal, memo)

/-- The root move loop of one iterative-deepening step (source: the
`for move in legal_moves` loop of choose_move). -/
def chooseInner (max_nodes : Option Nat) (color next_color : Color) (mdepth : Nat) :
    List Move → (Option Move × Score) → SearchCtx →
    Except String ((Option Move × Score) × SearchCtx)
  | [], acc, ctx => pure (acc, ctx)
  | mv :: rest, acc, ctx => do
    if (match max_nodes with | some mn => decide (mn ≤ ctx.counter) | none => false) then
      pure (acc, ctx)
    else do
      let r ← ctx.board.apply_move mv
      let ctx := { ctx with board := r.2 }
      let s ← minimaxM max_nodes color mdepth next_color Score.ninf Score.inf ctx
      let ctx := { s.2 with board := ((s.2).board.undo).1 }
      let acc := if acc.1.isNone ∨ Score.lt acc.2 s.1 then (some mv, s.1) else acc
      chooseInner max_nodes color next_color mdepth rest acc ctx

/-- The iterative-deepening loop of choose_move (source: the
`for current_depth in range(1, depth + 1)` loop). -/
def chooseDeepen (max_nodes : Option Nat) (color next_color : Color)
    (tt_order_entry : Option TTEntry) :
    List Nat → List Move → Option Move → ChooseMemo → SearchCtx →
    Except String (Option Move)
  | [], _, best, _, _ => pure best
  | current_depth :: restDepths, legal, best, memo, ctx => do
    let ex := chooseExtractTT ctx.board ctx.killers ctx.history memo tt_order_entry
      legal current_depth
    let tt_best_move := ex.1
    let sr := chooseSortDesc ctx.board ctx.killers ctx.history ex.2.2 ex.2.1 current_depth
    let legal :=
      match tt_best_move with
      | some tb => tb :: sr.1
      | none => sr.1
    let memo := sr.2
    let r ← chooseInner max_nodes color next_color (current_depth - 1) legal
      (none, Score.ninf) ctx
    let depth_best := r.1.1
    let ctx := r.2
    let bl :=
      match depth_best with
      | some dbm =>
        (some dbm, if dbm ∈ legal then dbm :: legal.erase dbm else legal)
      | none => (best, legal)
    let best := bl.1
    let legal := bl.2
    if (match max_nodes with | some mn => decide (mn ≤ ctx.counter) | none => false) then
      pure best
    else chooseDeepen max_nodes color next_color tt_order_entry restDepths legal best memo ctx

/-- Source: engine.py `choose_move` (time_limit_ms = None and
diagnostics = None, so all deadline branches are skipped). -/
def choose_move (board : Board) (depth : Nat) (color : Color)
    (max_nodes : Option Nat) (transposition_table : Option TranspositionTable) :
    Except String (Option Move) := do
  let board := BitboardBoard.from_board board
  let killers0 : Nat → List Move := fun _ => []
  let history0 : HistKey → Nat := fun _ => 0
  let memo0 : ChooseMemo := fun _ _ => none
  let g ← board.generate_legal_moves color
  let legal_moves := g.1
  let board := g.2
  let tt_order_entry : Option TTEntry :=
    match transposition_table with
    | some tbl => tbl.probe (zobrist_hash board color)
    | none => none
  let ex := chooseExtractTT board killers0 history0 memo0 tt_order_entry legal_moves depth
  let tt_best_move := ex.1
  let sr := chooseSortDesc board killers0 history0 ex.2.2 ex.2.1 depth
  let legal_moves :=
    match tt_best_move with
    | some tb => tb :: sr.1
    | none => sr.1
  let memo := sr.2
  if legal_moves = [] then pure none
  else if (match max_nodes with | some mn => decide (mn < legal_moves.length) | none => false) then
    pure legal_moves.head?
  else do
    let next_color := color.opponent
    let tt1 : TranspositionTable :=
      match transposition_table with
      | some tbl => tbl
      | none => TranspositionTable.default0
    let ctx0 : SearchCtx := ⟨board, 0, some tt1, killers0, history0⟩
    chooseDeepen max_nodes color next_color tt_order_entry
      ((List.range depth).map fun i => i + 1) legal_moves none memo ctx0

/- Predicates and concrete inputs used by the claim statements. -/

/-- The en-passant target square, when set, is a real empty board square
(true of every position the engine itself produces: apply_move only sets the
square a double push jumped over). -/
def epTargetClear (b : Board) : Bool :=
  match b.en_passant_square with
  | some sq => inBounds sq && (b.get_piece sq).isNone
  | none => true

/-- The en-passant row discipline of apply_move: a set target is on row 2 or
row 5. -/
def epRowOK (b : Board) : Bool :=
  match b.en_passant_square with
  | some sq => sq.1 == 2 || sq.1 == 5
  | none => true

/-- Castling rights only while the matching king is on its home square
(spec data-model invariant 4; maintained by apply_move from the standard
setup). -/
def rightsImplyHome (b : Board) : Bool :=
  (!b.castling_rights.1 || b.get_piece ((7 : Int), (4 : Int)) == some ⟨.K, .white⟩) &&
  (!b.castling_rights.2.1 || b.get_piece ((7 : Int), (4 : Int)) == some ⟨.K, .white⟩) &&
  (!b.castling_rights.2.2.1 || b.get_piece ((0 : Int), (4 : Int)) == some ⟨.K, .black⟩) &&
  (!b.castling_rights.2.2.2 || b.get_piece ((0 : Int), (4 : Int)) == some ⟨.K, .black⟩)

/-- The state invariant maintained by legal play (used for C3 and C4). -/
def boardInv (b : Board) : Bool :=
  rightsImplyHome b && epTargetClear b && epRowOK b

/-- The self-check value generate_legal_moves computes for one candidate
move, as a pure function of the starting board (the value its filter uses
whenever the apply/undo round trip restores the board). -/
def moveCheckTest (b : Board) (mv : Move) (color : Color) : Bool :=
  match b.apply_move mv with
  | .ok r => inCheckState color r.2.board_state
  | .error _ => true

/-- The legal moves contributed by one scanned square, as a pure function of
the starting board. -/
def legalMovesFrom (b : Board) (color : Color) (sq : Square) : List Move :=
  match b.get_piece sq with
  | some p =>
    if p.color = color then
      (pseudoMovesFor b sq p).filter fun mv => !moveCheckTest b mv color
    else []
  | none => []

/-- Pure specification of generate_legal_moves on an uncorrupted board. -/
def legalMovesSpec (b : Board) (color : Color) : List Move :=
  allSquares.flatMap (legalMovesFrom b color)

/-- Boards reachable from the standard setup through the generate/apply API
(the generated move list is applied to the board object generation leaves
behind, exactly as the Python callers do). -/
inductive Reachable : Board → Prop where
  | init : Reachable initialBoard
  | step {b : Board} {ms : List Move} {b2 : Board} {c : Color} {m : Move}
      {st : MoveState} {b3 : Board} :
      Reachable b → b.generate_legal_moves c = .ok (ms, b2) → m ∈ ms →
      b2.apply_move m = .ok (st, b3) → Reachable b3

/-- Spec formulation of the Zobrist hash (spec §4.3): the XOR of the
(color, piece-kind, square) key of every occupied square, the key of each
set castling right, the en-passant file key when the square is set, and the
side-to-move key iff White is to move. -/
def zobristSpecHash (b : Board) (side : Color) : Nat :=
  ((allSquares.filterMap fun sq =>
      (b.get_piece sq).map fun p => zobristPieceKey p.color p.kind (squareIndex sq)).foldl
    (fun a k => a ^^^ k) 0) ^^^
  (if b.castling_rights.1 then zobristCastlingKey 0 else 0) ^^^
  (if b.castling_rights.2.1 then zobristCastlingKey 1 else 0) ^^^
  (if b.castling_rights.2.2.1 then zobristCastlingKey 2 else 0) ^^^
  (if b.castling_rights.2.2.2 then zobristCastlingKey 3 else 0) ^^^
  (match b.en_passant_square with
   | some ep => zobristEpKey ep.2
   | none => 0) ^^^
  (if side = .white then zobristSideKey else 0)

/-- The claim's castling preconditions (C8): the right is held, the rook is
on its corner, every square between king and rook is empty, the king is not
in check, and no square the king traverses (destination included) is
attacked by the opponent. -/
def castlingConditions (b : Board) (color : Color) (kingside : Bool) : Bool :=
  let row : Int := if color = .white then 7 else 0
  let right :=
    match color, kingside with
    | .white, true => b.castling_rights.1
    | .white, false => b.castling_rights.2.1
    | .black, true => b.castling_rights.2.2.1
    | .black, false => b.castling_rights.2.2.2
  let rookSq : Square := (row, if kingside then 7 else 0)
  let between : List Square :=
    if kingside then [(row, 5), (row, 6)] else [(row, 1), (row, 2), (row, 3)]
  let traverse : List Square :=
    if kingside then [(row, 5), (row, 6)] else [(row, 3), (row, 2)]
  right && b.get_piece rookSq == some ⟨.R, color⟩ &&
    between.all (fun s => (b.get_piece s).isNone) &&
    !(b.in_check color) &&
    traverse.all (fun s => !(b.is_square_attacked s color.opponent))

/-- The castling right bit for one color and side. -/
def castleRight (b : Board) (color : Color) (kingside : Bool) : Bool :=
  match color, kingside with
  | .white, true => b.castling_rights.1
  | .white, false => b.castling_rights.2.1
  | .black, true => b.castling_rights.2.2.1
  | .black, false => b.castling_rights.2.2.2

def castleMoveOf (color : Color) (kingside : Bool) : Move :=
  { start := ((if color = .white then (7 : Int) else 0), (4 : Int)),
    dest := ((if color = .white then (7 : Int) else 0), (if kingside then (6 : Int) else 2)),
    is_castle := true }

/-- The moving side has exactly one king, on its home back-rank square. -/
def uniqueHomeKing (b : Board) (color : Color) : Bool :=
  let home : Square := ((if color = .white then (7 : Int) else 0), (4 : Int))
  allSquares.all fun sq =>
    if sq = home then b.get_piece sq == some ⟨.K, color⟩
    else !(b.get_piece sq == some ⟨.K, color⟩)

def emptyBoard : Board := ⟨fun _ _ => none, (false, false, false, false), none, [], 0⟩

def withPiece (b : Board) (r c : Int) (k : PieceType) (col : Color) : Board :=
  b.set_piece (r, c) (some ⟨k, col⟩)

/-- C1 counterexample position: the en-passant target square holds a black
knight; the en-passant capture overwrites it without recording it. -/
def cexC1 : Board :=
  { withPiece (withPiece (withPiece (withPiece (withPiece emptyBoard 3 2 .P .white)
      3 3 .P .black) 2 3 .N .black) 7 7 .K .white) 0 0 .K .black with
    en_passant_square := some ((2 : Int), (3 : Int)) }

def epMoveC1 : Move :=
  { start := ((3 : Int), (2 : Int)), dest := ((2 : Int), (3 : Int)), is_en_passant := true }

/-- C2 counterexample position: testing the en-passant move erases the black
knight on the target square, so the later king-move legality tests run on a
corrupted board. -/
def cexC2 : Board :=
  { withPiece (withPiece (withPiece (withPiece (withPiece emptyBoard 3 4 .P .white)
      3 3 .P .black) 2 3 .N .black) 4 5 .K .white) 0 0 .K .black with
    en_passant_square := some ((2 : Int), (3 : Int)) }

def kMoveC2 : Move := { start := ((4 : Int), (5 : Int)), dest := ((3 : Int), (5 : Int)) }

/-- C8 counterexample position: a white knight on the en-passant target
square shields g1 from the black queen; the en-passant legality test erases
the knight before the king is scanned, so castling is rejected although
every castling precondition holds on the position itself. -/
def cexC8 : Board :=
  { withPiece (withPiece (withPiece (withPiece (withPiece (withPiece (withPiece emptyBoard
      5 2 .P .white) 5 3 .P .black) 4 3 .N .white) 2 1 .Q .black) 7 4 .K .white)
      7 7 .R .white) 0 0 .K .black with
    castling_rights := (true, false, false, false)
    en_passant_square := some ((4 : Int), (3 : Int)) }

/-- C4 counterexample position: exactly one legal white move (Ka1-b1). -/
def cexC4 : Board :=
  withPiece (withPiece (withPiece emptyBoard 7 0 .K .white) 6 7 .R .black) 0 7 .K .black

def onlyMoveC4 : Move := { start := ((7 : Int), (0 : Int)), dest := ((7 : Int), (1 : Int)) }

/-- A castling-ready position: white king and both rooks at home, black
king on e8, white rights held. -/
def castleBoardW : Board :=
  { withPiece (withPiece (withPiece (withPiece emptyBoard 7 4 .K .white) 7 7 .R .white)
      7 0 .R .white) 0 4 .K .black with
    castling_rights := (true, true, false, false) }

/-- A table holding one exact entry with a best-move suggestion under the
given key (bucket layout of TranspositionTable with the default geometry). -/
def ttWithSuggestion (key : Nat) (mv : Move) : TranspositionTable :=
  { size := 1 <<< 18, bucket_size := 4,
    table := fun i => if i = key % (1 <<< 18) then [⟨key, 3, Score.fin 1, .exact, some mv, 0⟩] else [],
    counter := 1 }

/-- A legal opening move (e2e4) used to witness the amended C4 theorem. -/
def initMoveC4 : Move := { start := ((6 : Int), (4 : Int)), dest := ((4 : Int), (4 : Int)) }

/- ===================== Theorems ===================== -/

/- Basic board lemmas. -/

theorem toFin8_some {z : Int} {i : Fin 8} (h : toFin8 z = some i) :
    0 ≤ z ∧ z < 8 ∧ z.toNat = i.val := by
  unfold toFin8 at h
  split at h
  · rename_i hz
    cases h
    exact ⟨hz.1, hz.2, rfl⟩
  · cases h

theorem toFin8_none {z : Int} (h : toFin8 z = none) : ¬(0 ≤ z ∧ z < 8) := by
  unfold toFin8 at h
  split at h
  · cases h
  · assumption

theorem toFin8_inj {a b : Int} {i : Fin 8} (ha : toFin8 a = some i)
    (hb : toFin8 b = some i) : a = b := by
  obtain ⟨h1, h2, h3⟩ := toFin8_some ha
  obtain ⟨h4, h5, h6⟩ := toFin8_some hb
  omega

theorem inBounds_iff {r c : Int} :
    inBounds (r, c) = true ↔ 0 ≤ r ∧ r < 8 ∧ 0 ≤ c ∧ c < 8 := by
  simp [inBounds]

theorem toFin8_isSome {z : Int} (h : 0 ≤ z ∧ z < 8) :
    toFin8 z = some ⟨z.toNat, by omega⟩ := by
  unfold toFin8
  rw [dif_pos h]

/-- get after set, same in-bounds square. -/
theorem get_set_same (b : Board) {sq : Square} (h : inBounds sq = true) (v : Option Piece) :
    (b.set_piece sq v).get_piece sq = v := by
  obtain ⟨r, c⟩ := sq
  rw [inBounds_iff] at h
  unfold Board.set_piece Board.get_piece
  rw [toFin8_isSome ⟨h.1, h.2.1⟩, toFin8_isSome ⟨h.2.2.1, h.2.2.2⟩]
  simp

/-- get after set, different square (either may be out of bounds). -/
theorem get_set_other (b : Board) {sq sq2 : Square} (h : sq2 ≠ sq) (v : Option Piece) :
    (b.set_piece sq v).get_piece sq2 = b.get_piece sq2 := by
  obtain ⟨r, c⟩ := sq
  obtain ⟨r2, c2⟩ := sq2
  unfold Board.set_piece Board.get_piece
  rcases h1 : toFin8 r with _ | i
  · rfl
  rcases h2 : toFin8 c with _ | j
  · rfl
  rcases h3 : toFin8 r2 with _ | i2
  · rfl
  rcases h4 : toFin8 c2 with _ | j2
  · rfl
  simp only
  rw [if_neg]
  rintro ⟨e1, e2⟩
  subst e1
  subst e2
  exact h (by rw [toFin8_inj h3 h1, toFin8_inj h4 h2])

/-- set out of bounds is a no-op. -/
theorem set_oob (b : Board) {sq : Square} (h : inBounds sq = false) (v : Option Piece) :
    b.set_piece sq v = b := by
  obtain ⟨r, c⟩ := sq
  unfold Board.set_piece
  rcases h1 : toFin8 r with _ | i
  · rfl
  rcases h2 : toFin8 c with _ | j
  · rfl
  exfalso
  have hr := toFin8_some h1
  have hc := toFin8_some h2
  rw [← Bool.not_eq_true, inBounds_iff] at h
  exact h ⟨hr.1, hr.2.1, hc.1, hc.2.1⟩

@[simp] theorem set_piece_castling (b : Board) (sq : Square) (v : Option Piece) :
    (b.set_piece sq v).castling_rights = b.castling_rights := by
  unfold Board.set_piece
  rcases toFin8 sq.1 with _ | i <;> rcases toFin8 sq.2 with _ | j <;> rfl

@[simp] theorem set_piece_ep (b : Board) (sq : Square) (v : Option Piece) :
    (b.set_piece sq v).en_passant_square = b.en_passant_square := by
  unfold Board.set_piece
  rcases toFin8 sq.1 with _ | i <;> rcases toFin8 sq.2 with _ | j <;> rfl

@[simp] theorem set_piece_history (b : Board) (sq : Square) (v : Option Piece) :
    (b.set_piece sq v).history = b.history := by
  unfold Board.set_piece
  rcases toFin8 sq.1 with _ | i <;> rcases toFin8 sq.2 with _ | j <;> rfl

@[simp] theorem set_piece_clock (b : Board) (sq : Square) (v : Option Piece) :
    (b.set_piece sq v).halfmove_clock = b.halfmove_clock := by
  unfold Board.set_piece
  rcases toFin8 sq.1 with _ | i <;> rcases toFin8 sq.2 with _ | j <;> rfl

theorem get_piece_fin (b : Board) (i j : Fin 8) :
    b.get_piece ((i.val : Int), (j.val : Int)) = b.squares i j := by
  unfold Board.get_piece
  have h1 : toFin8 (i.val : Int) = some i := by
    rw [toFin8_isSome (by omega)]
    simp
  have h2 : toFin8 (j.val : Int) = some j := by
    rw [toFin8_isSome (by omega)]
    simp
  rw [h1, h2]

/-- Board extensionality through in-bounds square reads. -/
theorem Board.eq_of_parts (b b' : Board)
    (hsq : ∀ sq : Square, inBounds sq = true → b.get_piece sq = b'.get_piece sq)
    (h2 : b.castling_rights = b'.castling_rights)
    (h3 : b.en_passant_square = b'.en_passant_square)
    (h4 : b.history = b'.history)
    (h5 : b.halfmove_clock = b'.halfmove_clock) : b = b' := by
  obtain ⟨s1, r1, e1, hh1, c1⟩ := b
  obtain ⟨s2, r2, e2, hh2, c2⟩ := b'
  simp only at h2 h3 h4 h5
  subst h2; subst h3; subst h4; subst h5
  congr 1
  funext i j
  have := hsq ((i.val : Int), (j.val : Int)) (by rw [inBounds_iff]; omega)
  rwa [get_piece_fin, get_piece_fin] at this

theorem get_piece_oob (b : Board) {sq : Square} (h : inBounds sq = false) :
    b.get_piece sq = none := by
  obtain ⟨r, c⟩ := sq
  unfold Board.get_piece
  rcases h1 : toFin8 r with _ | i
  · rfl
  rcases h2 : toFin8 c with _ | j
  · rfl
  exfalso
  have hr := toFin8_some h1
  have hc := toFin8_some h2
  rw [← Bool.not_eq_true, inBounds_iff] at h
  exact h ⟨hr.1, hr.2.1, hc.1, hc.2.1⟩

theorem get_piece_inBounds (b : Board) {sq : Square} {p : Piece}
    (h : b.get_piece sq = some p) : inBounds sq = true := by
  rcases hb : inBounds sq with _ | _
  · rw [get_piece_oob b hb] at h
    cases h
  · rfl

@[simp] theorem get_piece_update_fields (b : Board) (r : Bool × Bool × Bool × Bool)
    (e : Option Square) (h : List MoveState) (c : Nat) (sq : Square) :
    (Board.mk b.squares r e h c).get_piece sq = b.get_piece sq := by
  unfold Board.get_piece
  rcases toFin8 sq.1 with _ | i <;> rcases toFin8 sq.2 with _ | j <;> rfl

@[simp] theorem set_piece_update_fields (b : Board) (r : Bool × Bool × Bool × Bool)
    (e : Option Square) (h : List MoveState) (c : Nat) (sq : Square) (v : Option Piece) :
    (Board.mk b.squares r e h c).set_piece sq v =
      Board.mk (b.set_piece sq v).squares r e h c := by
  unfold Board.set_piece
  rcases toFin8 sq.1 with _ | i <;> rcases toFin8 sq.2 with _ | j <;> rfl

@[simp] theorem get_piece_mk_of_squares (b b' : Board) (h : b.squares = b'.squares)
    (sq : Square) : b.get_piece sq = b'.get_piece sq := by
  unfold Board.get_piece
  rw [h]

/-- Reversibility of a normal (non-castle, non-en-passant) apply_move,
promotions included. -/
theorem apply_undo_normal (b : Board) (m : Move) (st : MoveState) (b1 : Board)
    (hc : m.is_castle = false) (he : m.is_en_passant = false)
    (happ : b.apply_move m = Except.ok (st, b1)) :
    b1.undo = (b, some st) := by
  rcases hget : b.get_piece m.start with _ | moved
  · simp only [Board.apply_move, hget] at happ
    exact Except.noConfusion happ
  · have hsb : inBounds m.start = true := get_piece_inBounds b hget
    rcases hp : m.promotion with _ | pk <;>
      by_cases h2p : (moved.kind = PieceType.P ∧ (m.start.1 - m.dest.1).natAbs = 2) <;>
      simp only [Board.apply_move, hget, hc, he, hp, h2p, Bool.false_eq_true, if_false,
        if_true, if_pos, if_neg, not_false_eq_true, and_true, and_false,
        set_piece_castling, set_piece_ep, set_piece_history, set_piece_clock,
        get_piece_update_fields, set_piece_update_fields] at happ <;>
      (rw [Except.ok.injEq, Prod.mk.injEq] at happ
       obtain ⟨hst, hb1⟩ := happ
       subst hst
       subst hb1
       simp only [Board.undo, hc, he, Bool.false_eq_true, if_false]
       rw [Prod.mk.injEq]
       refine ⟨?_, rfl⟩
       refine Board.eq_of_parts _ _ ?_ (by simp) (by simp) (by simp) (by simp)
       intro sq hsq
       by_cases hdq : sq = m.dest
       · subst hdq
         rw [get_set_same _ hsq]
       · rw [get_set_other _ hdq]
         by_cases hsq2 : sq = m.start
         · subst hsq2
           rw [get_set_same _ hsb, hget]
         · rw [get_set_other _ hsq2]
           simp only [get_piece_update_fields]
           first
           | rw [get_set_other _ hsq2, get_set_other _ hdq]
           | rw [get_set_other _ hdq, get_set_other _ hsq2, get_set_other _ hdq])

/-- Reversibility of an en-passant apply_move when the target square is
empty (the capture overwrites the target square without recording it, so
emptiness is exactly what undo needs). -/
theorem apply_undo_ep (b : Board) (m : Move) (st : MoveState) (b1 : Board)
    (he : m.is_en_passant = true) (hc : m.is_castle = false)
    (hp : m.promotion = none)
    (hrow : m.dest.1 ≠ m.start.1) (hcol : m.dest.2 ≠ m.start.2)
    (hdest : b.get_piece m.dest = none)
    (happ : b.apply_move m = Except.ok (st, b1)) :
    b1.undo = (b, some st) := by
  rcases hget : b.get_piece m.start with _ | moved
  · simp only [Board.apply_move, hget] at happ
    exact Except.noConfusion happ
  · have hsb : inBounds m.start = true := get_piece_inBounds b hget
    have hcs : ((m.start.1, m.dest.2) : Square) ≠ m.start := by
      intro e
      rw [Prod.ext_iff] at e
      exact hcol e.2
    have hcd : ((m.start.1, m.dest.2) : Square) ≠ m.dest := by
      intro e
      rw [Prod.ext_iff] at e
      exact hrow e.1.symm
    have hds : m.dest ≠ m.start := by
      intro e
      rw [Prod.ext_iff] at e
      exact hrow e.1
    by_cases h2p : (moved.kind = PieceType.P ∧ (m.start.1 - m.dest.1).natAbs = 2) <;>
      simp only [Board.apply_move, Board.resolve_en_passant_capture, hget, hc, he, hp, h2p,
        Bool.false_eq_true, if_false, if_true, not_false_eq_true, and_true, and_false,
        set_piece_castling, set_piece_ep, set_piece_history, set_piece_clock,
        get_piece_update_fields, set_piece_update_fields] at happ <;>
      (rw [Except.ok.injEq, Prod.mk.injEq] at happ
       obtain ⟨hst, hb1⟩ := happ
       subst hst
       subst hb1
       simp only [Board.undo, hc, he, Bool.false_eq_true, if_false, if_true]
       rw [Prod.mk.injEq]
       refine ⟨?_, rfl⟩
       refine Board.eq_of_parts _ _ ?_ (by simp) (by simp) (by simp) (by simp)
       intro sq hsq
       by_cases hq1 : sq = ((m.start.1, m.dest.2) : Square)
       · subst hq1
         rw [get_set_same _ hsq]
       · rw [get_set_other _ hq1]
         by_cases hq2 : sq = m.dest
         · subst hq2
           rw [get_set_same _ hsq, hdest]
         · rw [get_set_other _ hq2]
           by_cases hq3 : sq = m.start
           · subst hq3
             rw [get_set_same _ hsb, hget]
           · rw [get_set_other _ hq3]
             simp only [get_piece_update_fields]
             rw [get_set_other _ hq3, get_set_other _ hq2, get_set_other _ hq1])

/-- Reversibility of a castling apply_move under the emptiness facts the
pseudo-move generator guarantees (destination and rook-destination squares
empty). -/
theorem apply_undo_castle (b : Board) (m : Move) (st : MoveState) (b1 : Board)
    (hc : m.is_castle = true) (hp : m.promotion = none)
    (hs4 : m.start.2 = 4) (hrow : m.dest.1 = m.start.1)
    (hd : m.dest.2 = 6 ∨ m.dest.2 = 2)
    (hdest : b.get_piece m.dest = none)
    (hre : b.get_piece (m.start.1, if m.dest.2 = 6 then (5 : Int) else 3) = none)
    (happ : b.apply_move m = Except.ok (st, b1)) :
    b1.undo = (b, some st) := by
  rcases hget : b.get_piece m.start with _ | moved
  · simp only [Board.apply_move, hget] at happ
    exact Except.noConfusion happ
  · have hsb : inBounds m.start = true := get_piece_inBounds b hget
    obtain ⟨ms, md, mpr, mcf, mef⟩ := m
    obtain ⟨sr, sc⟩ := ms
    obtain ⟨dr, dc⟩ := md
    simp only at hc hp hs4 hrow hd hdest hre hget hsb happ
    subst hs4
    subst hrow
    have hdr : 0 ≤ dr ∧ dr < 8 := by
      rw [inBounds_iff] at hsb
      exact ⟨hsb.1, hsb.2.1⟩
    have h2p : ¬(moved.kind = PieceType.P ∧ ((dr : Int) - dr).natAbs = 2) := by
      simp
    have hb5 : inBounds ((dr, (5 : Int)) : Square) = true := by
      rw [inBounds_iff]; omega
    have hb3 : inBounds ((dr, (3 : Int)) : Square) = true := by
      rw [inBounds_iff]; omega
    rcases hd with hd6 | hd2
    · subst hd6
      simp only [reduceIte] at hre
      have e47 : ((dr, (7 : Int)) : Square) ≠ (dr, 4) := by
        intro e; rw [Prod.ext_iff] at e; omega
      have e67 : ((dr, (7 : Int)) : Square) ≠ (dr, 6) := by
        intro e; rw [Prod.ext_iff] at e; omega
      have e57 : ((dr, (5 : Int)) : Square) ≠ (dr, 7) := by
        intro e; rw [Prod.ext_iff] at e; omega
      have e46 : ((dr, (6 : Int)) : Square) ≠ (dr, 4) := by
        intro e; rw [Prod.ext_iff] at e; omega
      have e45 : ((dr, (5 : Int)) : Square) ≠ (dr, 4) := by
        intro e; rw [Prod.ext_iff] at e; omega
      have e56 : ((dr, (5 : Int)) : Square) ≠ (dr, 6) := by
        intro e; rw [Prod.ext_iff] at e; omega
      simp only [Board.apply_move, hget, hc, hp, h2p, if_true, if_false,
        Bool.false_eq_true, not_false_eq_true, and_true, and_false,
        set_piece_castling, set_piece_ep, set_piece_history, set_piece_clock,
        get_piece_update_fields, set_piece_update_fields, reduceIte] at happ
      rw [Except.ok.injEq, Prod.mk.injEq] at happ
      obtain ⟨hst, hb1⟩ := happ
      subst hst
      subst hb1
      simp only [Board.undo, hc, if_true, reduceIte]
      rw [Prod.mk.injEq]
      refine ⟨?_, rfl⟩
      refine Board.eq_of_parts _ _ ?_ (by simp) (by simp) (by simp) (by simp)
      intro sq hsq
      by_cases hq1 : sq = ((dr, (5 : Int)) : Square)
      · subst hq1
        rw [get_set_same _ hsq, hre.symm]
      · rw [get_set_other _ hq1]
        by_cases hq2 : sq = ((dr, (7 : Int)) : Square)
        · subst hq2
          rw [get_set_same _ hsq]
          rw [get_set_other _ e56, get_set_other _ e45]
          simp only [get_piece_update_fields]
          rw [get_set_other _ e57, get_set_same _ hb5]
          rw [get_set_other _ e47, get_set_other _ e67]
        · rw [get_set_other _ hq2]
          by_cases hq3 : sq = ((dr, (6 : Int)) : Square)
          · subst hq3
            rw [get_set_same _ hsq, hdest]
          · rw [get_set_other _ hq3]
            by_cases hq4 : sq = ((dr, (4 : Int)) : Square)
            · subst hq4
              rw [get_set_same _ hsb, hget]
            · rw [get_set_other _ hq4]
              simp only [get_piece_update_fields]
              rw [get_set_other _ hq2, get_set_other _ hq1,
                get_set_other _ hq4, get_set_other _ hq3]
    · subst hd2
      norm_num at hre
      have h26 : ((2 : Int) = 6) = False := by norm_num
      have e04 : ((dr, (0 : Int)) : Square) ≠ (dr, 4) := by
        intro e; rw [Prod.ext_iff] at e; omega
      have e02 : ((dr, (0 : Int)) : Square) ≠ (dr, 2) := by
        intro e; rw [Prod.ext_iff] at e; omega
      have e30 : ((dr, (3 : Int)) : Square) ≠ (dr, 0) := by
        intro e; rw [Prod.ext_iff] at e; omega
      have e24 : ((dr, (2 : Int)) : Square) ≠ (dr, 4) := by
        intro e; rw [Prod.ext_iff] at e; omega
      have e34 : ((dr, (3 : Int)) : Square) ≠ (dr, 4) := by
        intro e; rw [Prod.ext_iff] at e; omega
      have e32 : ((dr, (3 : Int)) : Square) ≠ (dr, 2) := by
        intro e; rw [Prod.ext_iff] at e; omega
      simp only [Board.apply_move, hget, hc, hp, h2p, if_true, if_false, h26,
        Bool.false_eq_true, not_false_eq_true, and_true, and_false,
        set_piece_castling, set_piece_ep, set_piece_history, set_piece_clock,
        get_piece_update_fields, set_piece_update_fields, reduceIte] at happ
      rw [Except.ok.injEq, Prod.mk.injEq] at happ
      obtain ⟨hst, hb1⟩ := happ
      subst hst
      subst hb1
      simp only [Board.undo, hc, if_true, reduceIte, h26, if_false]
      rw [Prod.mk.injEq]
      refine ⟨?_, rfl⟩
      refine Board.eq_of_parts _ _ ?_ (by simp) (by simp) (by simp) (by simp)
      intro sq hsq
      by_cases hq1 : sq = ((dr, (3 : Int)) : Square)
      · subst hq1
        rw [get_set_same _ hsq, hre.symm]
      · rw [get_set_other _ hq1]
        by_cases hq2 : sq = ((dr, (0 : Int)) : Square)
        · subst hq2
          rw [get_set_same _ hsq]
          rw [get_set_other _ e32, get_set_other _ e34]
          simp only [get_piece_update_fields]
          rw [get_set_other _ e30, get_set_same _ hb3]
          rw [get_set_other _ e04, get_set_other _ e02]
        · rw [get_set_other _ hq2]
          by_cases hq3 : sq = ((dr, (2 : Int)) : Square)
          · subst hq3
            rw [get_set_same _ hsq, hdest]
          · rw [get_set_other _ hq3]
            by_cases hq4 : sq = ((dr, (4 : Int)) : Square)
            · subst hq4
              rw [get_set_same _ hsb, hget]
            · rw [get_set_other _ hq4]
              simp only [get_piece_update_fields]
              rw [get_set_other _ hq2, get_set_other _ hq1,
                get_set_other _ hq4, get_set_other _ hq3]

/-- Moves produced by the slider walk: plain moves from the given start. -/
theorem slideMoves_facts (b : Board) (color : Color) (start : Square) (dr dc : Int) :
    ∀ (fuel : Nat) (nr nc : Int) (m : Move), m ∈ slideMoves b color start dr dc fuel nr nc →
      m.start = start ∧ m.is_castle = false ∧ m.is_en_passant = false ∧
        m.promotion = none := by
  intro fuel
  induction fuel with
  | zero =>
    intro nr nc m hm
    cases hm
  | succ n ih =>
    intro nr nc m hm
    unfold slideMoves at hm
    split at hm
    · split at hm
      · split at hm
        · rw [List.mem_singleton] at hm
          subst hm
          exact ⟨rfl, rfl, rfl, rfl⟩
        · cases hm
      · rcases List.mem_cons.mp hm with rfl | hm
        · exact ⟨rfl, rfl, rfl, rfl⟩
        · exact ih _ _ _ hm
    · cases hm

theorem castle_tail_iff (g1 g2 : Option Piece) (a1 a2 : Bool) :
    ((if (g1.isSome || g2.isSome) = true then false else !(a1 || a2)) = true) ↔
      (g1 = none ∧ g2 = none ∧ a1 = false ∧ a2 = false) := by
  cases g1 <;> cases g2 <;> cases a1 <;> cases a2 <;> simp

/-- Characterization of the castling-path check. -/
theorem castling_path_is_safe_iff (b : Board) (color : Color) (kingside : Bool) :
    b.castling_path_is_safe color kingside = true ↔
      (b.in_check color = false ∧
       b.get_piece ((if color = .white then (7 : Int) else 0),
         (if kingside then (7 : Int) else 0)) = some ⟨.R, color⟩ ∧
       b.get_piece ((if color = .white then (7 : Int) else 0),
         (if kingside then (5 : Int) else 3)) = none ∧
       b.get_piece ((if color = .white then (7 : Int) else 0),
         (if kingside then (6 : Int) else 2)) = none ∧
       b.is_square_attacked ((if color = .white then (7 : Int) else 0),
         (if kingside then (5 : Int) else 3)) color.opponent = false ∧
       b.is_square_attacked ((if color = .white then (7 : Int) else 0),
         (if kingside then (6 : Int) else 2)) color.opponent = false) := by
  cases kingside <;>
    (unfold Board.castling_path_is_safe
     simp only [Bool.false_eq_true, reduceIte, if_true, if_false]
     rcases hic : b.in_check color with _ | _
     · simp only [hic, Bool.false_eq_true, if_false]
       split
       · rename_i heq
         simp [heq]
       · rename_i rook heq
         obtain ⟨rk, rc2⟩ := rook
         by_cases hkc : rk = PieceType.R ∧ rc2 = color
         · obtain ⟨e1, e2⟩ := hkc
           subst e1
           subst e2
           rw [heq]
           rw [if_neg (by simp)]
           simp only [List.any_cons, List.any_nil, Bool.or_false]
           rw [castle_tail_iff]
           simp
         · rw [if_pos (by simp only [ne_eq]; tauto)]
           rw [heq]
           simp only [Bool.false_eq_true, false_iff, Option.some_inj, Piece.mk.injEq]
           rintro ⟨-, h, -⟩
           exact hkc h
     · simp [hic])


/-- Membership in an if-then-else of lists yields the branch condition. -/
theorem mem_ite_list {α : Type _} {c : Prop} [Decidable c] {a : α} {l l' : List α}
    (h : a ∈ if c then l else l') : (c ∧ a ∈ l) ∨ (¬c ∧ a ∈ l') := by
  split at h
  · exact Or.inl ⟨by assumption, h⟩
  · exact Or.inr ⟨by assumption, h⟩

/-- A knight/king step candidate starts on `pos`, lands on `t`, and carries
no special flags. -/
theorem stepMoveAt_facts (b : Board) (color : Color) (pos t : Square) (m : Move)
    (h : stepMoveAt b color pos t = some m) :
    m.start = pos ∧ m.dest = t ∧ m.promotion = none ∧ m.is_castle = false ∧
      m.is_en_passant = false := by
  unfold stepMoveAt at h
  by_cases hb : inBounds t = true
  · rw [if_pos hb] at h
    rcases hg : b.get_piece t with _ | target
    · simp only [hg] at h
      rw [Option.some_inj] at h
      subst h
      exact ⟨rfl, rfl, rfl, rfl, rfl⟩
    · simp only [hg] at h
      by_cases hc : target.color ≠ color ∧ target.kind ≠ PieceType.K
      · rw [if_pos hc, Option.some_inj] at h
        subst h
        exact ⟨rfl, rfl, rfl, rfl, rfl⟩
      · rw [if_neg hc] at h
        exact Option.noConfusion h
  · rw [if_neg hb] at h
    exact Option.noConfusion h

/-- A pawn push starts on `pos` and carries neither special flag. -/
theorem pawnPushesAt_facts (b : Board) (pos one_step two_step : Square)
    (allowTwo : Bool) (m : Move) (h : m ∈ pawnPushesAt b pos one_step two_step allowTwo) :
    m.start = pos ∧ m.is_castle = false ∧ m.is_en_passant = false := by
  unfold pawnPushesAt at h
  have base_facts : m ∈ pawnPushBase pos one_step →
      m.start = pos ∧ m.is_castle = false ∧ m.is_en_passant = false := by
    intro hb
    unfold pawnPushBase at hb
    rcases mem_ite_list hb with ⟨-, hb⟩ | ⟨-, hb⟩
    · simp only [List.mem_map] at hb
      obtain ⟨promo, -, hm⟩ := hb
      subst hm
      exact ⟨rfl, rfl, rfl⟩
    · rw [List.mem_singleton] at hb
      subst hb
      exact ⟨rfl, rfl, rfl⟩
  rcases mem_ite_list h with ⟨-, h⟩ | ⟨-, h⟩
  · rcases mem_ite_list h with ⟨-, h⟩ | ⟨-, h⟩
    · rcases List.mem_append.mp h with h | h
      · exact base_facts h
      · rw [List.mem_singleton] at h
        subst h
        exact ⟨rfl, rfl, rfl⟩
    · exact base_facts h
  · exact absurd h (List.not_mem_nil m)

/-- A pawn capture starts on `pos`, lands on `diag`, and carries neither
special flag. -/
theorem pawnCapsAt_facts (b : Board) (color : Color) (pos diag : Square) (m : Move)
    (h : m ∈ pawnCapsAt b color pos diag) :
    m.start = pos ∧ m.dest = diag ∧ m.is_castle = false ∧ m.is_en_passant = false := by
  unfold pawnCapsAt at h
  rcases mem_ite_list h with ⟨-, h⟩ | ⟨-, h⟩
  · rcases hg : b.get_piece diag with _ | target
    · simp only [hg] at h
      exact absurd h (List.not_mem_nil m)
    · simp only [hg] at h
      rcases mem_ite_list h with ⟨-, h⟩ | ⟨-, h⟩
      · rcases mem_ite_list h with ⟨-, h⟩ | ⟨-, h⟩
        · simp only [List.mem_map] at h
          obtain ⟨promo, -, hm⟩ := h
          subst hm
          exact ⟨rfl, rfl, rfl, rfl⟩
        · rw [List.mem_singleton] at h
          subst h
          exact ⟨rfl, rfl, rfl, rfl⟩
      · exact absurd h (List.not_mem_nil m)
  · exact absurd h (List.not_mem_nil m)

/-- The pawn en-passant generator only emits the canonical en-passant move,
and only when `diag` is the current en-passant target square. -/
theorem pawnEpAt_facts (b : Board) (color : Color) (pos diag adjsq : Square) (m : Move)
    (h : m ∈ pawnEpAt b color pos diag adjsq) :
    m = { start := pos, dest := diag, is_en_passant := true } ∧
      b.en_passant_square = some diag := by
  unfold pawnEpAt at h
  rcases he : b.en_passant_square with _ | ep
  · simp only [he] at h
    exact absurd h (List.not_mem_nil m)
  · simp only [he] at h
    by_cases hd : diag = ep
    · rw [if_pos hd] at h
      rcases hg : b.get_piece adjsq with _ | adj
      · simp only [hg] at h
        exact absurd h (List.not_mem_nil m)
      · simp only [hg] at h
        by_cases hc : adj.color ≠ color ∧ adj.kind = PieceType.P
        · rw [if_pos hc, List.mem_singleton] at h
          subst h
          subst hd
          exact ⟨rfl, rfl⟩
        · rw [if_neg hc] at h
          exact absurd h (List.not_mem_nil m)
    · rw [if_neg hd] at h
      exact absurd h (List.not_mem_nil m)

/-- Shape facts for every pseudo-legal move: a non-castle move starts on the
scanned square, at most one special flag is set, and the special-move data
satisfy the geometric and emptiness conditions their generator checked (a
castle move's start square is hardcoded to the home king square of the
mover's color, regardless of the scanned square). -/
theorem pseudo_move_facts (b : Board) (sq : Square) (p : Piece) (m : Move)
    (hmem : m ∈ pseudoMovesFor b sq p) :
    (m.is_castle = false → m.start = sq) ∧
    ¬(m.is_castle = true ∧ m.is_en_passant = true) ∧
    (m.is_en_passant = true →
      m.promotion = none ∧ b.en_passant_square = some m.dest ∧
        m.dest.1 ≠ m.start.1 ∧ m.dest.2 ≠ m.start.2) ∧
    (m.is_castle = true →
      m.promotion = none ∧
        m.dest.1 = m.start.1 ∧ (m.dest.2 = 6 ∨ m.dest.2 = 2) ∧
        b.get_piece m.dest = none ∧
        b.get_piece (m.start.1, if m.dest.2 = 6 then (5 : Int) else 3) = none ∧
        ((p.color = Color.white ∧ m.start = ((7 : Int), (4 : Int)) ∧
            (b.castling_rights.1 = true ∨ b.castling_rights.2.1 = true)) ∨
         (p.color = Color.black ∧ m.start = ((0 : Int), (4 : Int)) ∧
            (b.castling_rights.2.2.1 = true ∨ b.castling_rights.2.2.2 = true)))) := by
  obtain ⟨pk, pc⟩ := p
  obtain ⟨r, c⟩ := sq
  cases pk
  case B | R | Q =>
    unfold pseudoMovesFor at hmem
    simp only [List.mem_flatMap] at hmem
    obtain ⟨d, -, hm⟩ := hmem
    obtain ⟨h1, h2, h3, h4⟩ := slideMoves_facts b pc (r, c) d.1 d.2 8 _ _ m hm
    refine ⟨fun _ => h1, ?_, ?_, ?_⟩
    · rintro ⟨hc', -⟩
      rw [h2] at hc'
      exact Bool.noConfusion hc'
    · intro he'
      rw [h3] at he'
      exact Bool.noConfusion he'
    · intro hc'
      rw [h2] at hc'
      exact Bool.noConfusion hc'
  case N =>
    unfold pseudoMovesFor at hmem
    simp only [List.mem_filterMap] at hmem
    obtain ⟨d, -, hm⟩ := hmem
    obtain ⟨h1, -, -, h4, h5⟩ := stepMoveAt_facts b pc (r, c) _ m hm
    refine ⟨fun _ => h1, ?_, ?_, ?_⟩
    · rintro ⟨hc', -⟩
      rw [h4] at hc'
      exact Bool.noConfusion hc'
    · intro he'
      rw [h5] at he'
      exact Bool.noConfusion he'
    · intro hc'
      rw [h4] at hc'
      exact Bool.noConfusion hc'
  case P =>
    unfold pseudoMovesFor at hmem
    rcases List.mem_append.mp hmem with hpush | hcap
    · obtain ⟨h1, h4, h5⟩ := pawnPushesAt_facts b (r, c) _ _ _ m hpush
      refine ⟨fun _ => h1, ?_, ?_, ?_⟩
      · rintro ⟨hc', -⟩
        rw [h4] at hc'
        exact Bool.noConfusion hc'
      · intro he'
        rw [h5] at he'
        exact Bool.noConfusion he'
      · intro hc'
        rw [h4] at hc'
        exact Bool.noConfusion hc'
    · simp only [List.mem_flatMap] at hcap
      obtain ⟨dc, hdc, hm⟩ := hcap
      rcases List.mem_append.mp hm with hcapm | hep
      · obtain ⟨h1, -, h4, h5⟩ := pawnCapsAt_facts b pc (r, c) _ m hcapm
        refine ⟨fun _ => h1, ?_, ?_, ?_⟩
        · rintro ⟨hc', -⟩
          rw [h4] at hc'
          exact Bool.noConfusion hc'
        · intro he'
          rw [h5] at he'
          exact Bool.noConfusion he'
        · intro hc'
          rw [h4] at hc'
          exact Bool.noConfusion hc'
      · obtain ⟨hm', hepe⟩ := pawnEpAt_facts b pc (r, c) _ _ m hep
        subst hm'
        refine ⟨fun _ => rfl, ?_, ?_, ?_⟩
        · rintro ⟨hc', -⟩
          exact Bool.noConfusion hc'
        · intro _
          refine ⟨rfl, hepe, ?_, ?_⟩
          · show (r + (if pc = Color.white then (-1 : Int) else 1)) ≠ r
            split <;> omega
          · show c + dc ≠ c
            simp only [List.mem_cons, List.mem_singleton, List.not_mem_nil, or_false] at hdc
            rcases hdc with rfl | rfl <;> omega
        · intro hc'
          exact Bool.noConfusion hc'
  case K =>
    unfold pseudoMovesFor at hmem
    rcases List.mem_append.mp hmem with hnorm | hcast
    · simp only [List.mem_flatMap, List.mem_filterMap] at hnorm
      obtain ⟨dr, -, dc, -, hm⟩ := hnorm
      by_cases h0 : dr = 0 ∧ dc = 0
      · rw [if_pos h0] at hm
        exact Option.noConfusion hm
      · rw [if_neg h0] at hm
        obtain ⟨h1, -, -, h4, h5⟩ := stepMoveAt_facts b pc (r, c) _ m hm
        refine ⟨fun _ => h1, ?_, ?_, ?_⟩
        · rintro ⟨hc', -⟩
          rw [h4] at hc'
          exact Bool.noConfusion hc'
        · intro he'
          rw [h5] at he'
          exact Bool.noConfusion he'
        · intro hc'
          rw [h4] at hc'
          exact Bool.noConfusion hc'
    · rcases List.mem_append.mp hcast with hw | hb2
      · rcases mem_ite_list hw with ⟨hcw, hw⟩ | ⟨-, hw⟩
        · subst hcw
          rcases List.mem_append.mp hw with hk | hq
          · rcases mem_ite_list hk with ⟨⟨hwk, hsafe⟩, hk⟩ | ⟨-, hk⟩
            · rw [List.mem_singleton] at hk
              subst hk
              obtain ⟨-, -, h5e, h6e, -, -⟩ :=
                (castling_path_is_safe_iff b .white true).mp hsafe
              have hx : b.get_piece ((7 : Int), (6 : Int)) = none := by simpa using h6e
              have hy : b.get_piece ((7 : Int), (5 : Int)) = none := by simpa using h5e
              refine ⟨?_, ?_, ?_, ?_⟩
              · intro hc'
                exact Bool.noConfusion hc'
              · rintro ⟨-, he'⟩
                exact Bool.noConfusion he'
              · intro he'
                exact Bool.noConfusion he'
              · intro _
                refine ⟨rfl, rfl, Or.inl rfl, hx, ?_, Or.inl ⟨rfl, rfl, Or.inl hwk⟩⟩
                norm_num
                exact hy
            · exact absurd hk (List.not_mem_nil m)
          · rcases mem_ite_list hq with ⟨hwq, hq⟩ | ⟨-, hq⟩
            · rcases mem_ite_list hq with ⟨⟨hclear, -⟩, hq⟩ | ⟨-, hq⟩
              · rw [List.mem_singleton] at hq
                subst hq
                obtain ⟨-, h2c, h3c⟩ := hclear
                refine ⟨?_, ?_, ?_, ?_⟩
                · intro hc'
                  exact Bool.noConfusion hc'
                · rintro ⟨-, he'⟩
                  exact Bool.noConfusion he'
                · intro he'
                  exact Bool.noConfusion he'
                · intro _
                  refine ⟨rfl, rfl, Or.inr rfl, h2c, ?_, Or.inl ⟨rfl, rfl, Or.inr hwq⟩⟩
                  norm_num
                  exact h3c
              · exact absurd hq (List.not_mem_nil m)
            · exact absurd hq (List.not_mem_nil m)
        · exact absurd hw (List.not_mem_nil m)
      · rcases mem_ite_list hb2 with ⟨hcb, hb2⟩ | ⟨-, hb2⟩
        · subst hcb
          rcases List.mem_append.mp hb2 with hk | hq
          · rcases mem_ite_list hk with ⟨⟨hbk, hsafe⟩, hk⟩ | ⟨-, hk⟩
            · rw [List.mem_singleton] at hk
              subst hk
              obtain ⟨-, -, h5e, h6e, -, -⟩ :=
                (castling_path_is_safe_iff b .black true).mp hsafe
              have hx : b.get_piece ((0 : Int), (6 : Int)) = none := by simpa using h6e
              have hy : b.get_piece ((0 : Int), (5 : Int)) = none := by simpa using h5e
              refine ⟨?_, ?_, ?_, ?_⟩
              · intro hc'
                exact Bool.noConfusion hc'
              · rintro ⟨-, he'⟩
                exact Bool.noConfusion he'
              · intro he'
                exact Bool.noConfusion he'
              · intro _
                refine ⟨rfl, rfl, Or.inl rfl, hx, ?_, Or.inr ⟨rfl, rfl, Or.inl hbk⟩⟩
                norm_num
                exact hy
            · exact absurd hk (List.not_mem_nil m)
          · rcases mem_ite_list hq with ⟨hbq, hq⟩ | ⟨-, hq⟩
            · rcases mem_ite_list hq with ⟨⟨hclear, -⟩, hq⟩ | ⟨-, hq⟩
              · rw [List.mem_singleton] at hq
                subst hq
                obtain ⟨-, h2c, h3c⟩ := hclear
                refine ⟨?_, ?_, ?_, ?_⟩
                · intro hc'
                  exact Bool.noConfusion hc'
                · rintro ⟨-, he'⟩
                  exact Bool.noConfusion he'
                · intro he'
                  exact Bool.noConfusion he'
                · intro _
                  refine ⟨rfl, rfl, Or.inr rfl, h2c, ?_, Or.inr ⟨rfl, rfl, Or.inr hbq⟩⟩
                  norm_num
                  exact h3c
              · exact absurd hq (List.not_mem_nil m)
            · exact absurd hq (List.not_mem_nil m)
        · exact absurd hb2 (List.not_mem_nil m)

theorem except_bind_ok {ε α β : Type _} (a : α) (f : α → Except ε β) :
    ((Except.ok a : Except ε α) >>= f) = f a := rfl

/-- apply_move succeeds exactly when the start square is occupied. -/
theorem apply_move_ok (b : Board) (m : Move) (moved : Piece)
    (h : b.get_piece m.start = some moved) :
    ∃ st b1, b.apply_move m = Except.ok (st, b1) := by
  unfold Board.apply_move
  rw [h]
  exact ⟨_, _, rfl⟩

/-- On a board whose en-passant target is clear and whose castling rights
imply the matching home king, every pseudo move applies successfully and
undo restores the starting board exactly. -/
theorem pseudo_apply_undo (b : Board) (sq : Square) (p : Piece)
    (hep : epTargetClear b = true) (hcr : rightsImplyHome b = true)
    (hsq : b.get_piece sq = some p)
    (m : Move) (hm : m ∈ pseudoMovesFor b sq p) :
    ∃ st b1, b.apply_move m = Except.ok (st, b1) ∧ b1.undo = (b, some st) := by
  obtain ⟨hstart0, hnot, heps, hcas⟩ := pseudo_move_facts b sq p m hm
  have hcr4 :
      (!b.castling_rights.1 ||
        b.get_piece ((7 : Int), (4 : Int)) == some ⟨.K, .white⟩) = true ∧
      (!b.castling_rights.2.1 ||
        b.get_piece ((7 : Int), (4 : Int)) == some ⟨.K, .white⟩) = true ∧
      (!b.castling_rights.2.2.1 ||
        b.get_piece ((0 : Int), (4 : Int)) == some ⟨.K, .black⟩) = true ∧
      (!b.castling_rights.2.2.2 ||
        b.get_piece ((0 : Int), (4 : Int)) == some ⟨.K, .black⟩) = true := by
    unfold rightsImplyHome at hcr
    simp only [Bool.and_eq_true] at hcr
    exact ⟨hcr.1.1.1, hcr.1.1.2, hcr.1.2, hcr.2⟩
  have hocc : ∃ moved, b.get_piece m.start = some moved := by
    by_cases hc : m.is_castle = true
    · obtain ⟨-, -, -, -, -, hside⟩ := hcas hc
      rcases hside with ⟨-, hst, hr⟩ | ⟨-, hst, hr⟩
      · refine ⟨⟨.K, .white⟩, ?_⟩
        rw [hst]
        rcases hr with hr | hr
        · have h1 := hcr4.1
          rw [hr] at h1
          simpa using h1
        · have h1 := hcr4.2.1
          rw [hr] at h1
          simpa using h1
      · refine ⟨⟨.K, .black⟩, ?_⟩
        rw [hst]
        rcases hr with hr | hr
        · have h1 := hcr4.2.2.1
          rw [hr] at h1
          simpa using h1
        · have h1 := hcr4.2.2.2
          rw [hr] at h1
          simpa using h1
    · rw [Bool.not_eq_true] at hc
      rw [hstart0 hc]
      exact ⟨p, hsq⟩
  obtain ⟨moved, hmoved⟩ := hocc
  obtain ⟨st, b1, happ⟩ := apply_move_ok b m moved hmoved
  refine ⟨st, b1, happ, ?_⟩
  by_cases hc : m.is_castle = true
  · obtain ⟨hp, hrow, hd, hdest, hre, hside⟩ := hcas hc
    have hs4 : m.start.2 = 4 := by
      rcases hside with ⟨-, hst, -⟩ | ⟨-, hst, -⟩ <;> rw [hst]
    exact apply_undo_castle b m st b1 hc hp hs4 hrow hd hdest hre happ
  · rw [Bool.not_eq_true] at hc
    by_cases hem : m.is_en_passant = true
    · obtain ⟨hp, hepsq, hrow, hcol⟩ := heps hem
      have hdest : b.get_piece m.dest = none := by
        unfold epTargetClear at hep
        rw [hepsq] at hep
        simp only [Bool.and_eq_true, Option.isNone_iff_eq_none] at hep
        exact hep.2
      exact apply_undo_ep b m st b1 hem hc hp hrow hcol hdest happ
    · rw [Bool.not_eq_true] at hem
      exact apply_undo_normal b m st b1 hc hem happ

/-- On a board whose en-passant target is clear and whose castling rights
imply the matching home king, the apply/undo self-check test of any pseudo
move restores the board exactly and returns the pure check value. -/
theorem move_test_restores (b : Board) (color : Color) (sq : Square) (p : Piece)
    (hep : epTargetClear b = true) (hcr : rightsImplyHome b = true)
    (hsq : b.get_piece sq = some p)
    (m : Move) (hm : m ∈ pseudoMovesFor b sq p) :
    b.move_puts_self_in_check m color =
      Except.ok (moveCheckTest b m color, b) := by
  obtain ⟨st, b1, happ, hundo⟩ := pseudo_apply_undo b sq p hep hcr hsq m hm
  have h1 : b.move_puts_self_in_check m color =
      Except.ok (inCheckState color b1.board_state, (b1.undo).1) := by
    unfold Board.move_puts_self_in_check
    rw [happ]
    rfl
  rw [h1, hundo]
  unfold moveCheckTest
  rw [happ]

/-- The inner candidate loop, when every test restores the board, threads the
board unchanged and accumulates exactly the moves passing the check filter. -/
theorem gen_inner_fold (b : Board) (color : Color) :
    ∀ (ms : List Move) (acc : List Move),
      (∀ m ∈ ms, b.move_puts_self_in_check m color =
        Except.ok (moveCheckTest b m color, b)) →
      ms.foldlM (genMoveStep color) (acc, b) =
        Except.ok (acc ++ ms.filter (fun mv => !moveCheckTest b mv color), b) := by
  intro ms
  induction ms with
  | nil =>
    intro acc h
    simp only [List.foldlM, List.filter_nil, List.append_nil]
    rfl
  | cons m ms ih =>
    intro acc h
    have hm := h m (List.mem_cons_self m ms)
    have hstep : genMoveStep color (acc, b) m =
        Except.ok (if moveCheckTest b m color then (acc, b) else (acc ++ [m], b)) := by
      unfold genMoveStep
      rw [hm]
      rfl
    rw [List.foldlM_cons, hstep, except_bind_ok]
    rcases hchk : moveCheckTest b m color
    · have hrest := ih (acc ++ [m]) (fun m' hm' => h m' (List.mem_cons_of_mem m hm'))
      simp only [hchk, Bool.false_eq_true, if_false]
      rw [hrest]
      simp [List.filter_cons, hchk]
    · have hrest := ih acc (fun m' hm' => h m' (List.mem_cons_of_mem m hm'))
      simp only [hchk, if_true]
      rw [hrest]
      simp [List.filter_cons, hchk]

/-- The outer square scan, when every candidate test restores the board,
threads the board unchanged and accumulates the per-square legal moves. -/
theorem gen_outer_fold (b : Board) (color : Color)
    (htest : ∀ sq p, b.get_piece sq = some p → ∀ m ∈ pseudoMovesFor b sq p,
      b.move_puts_self_in_check m color = Except.ok (moveCheckTest b m color, b)) :
    ∀ (sqs : List Square) (acc : List Move),
      sqs.foldlM (genSquareStep color) (acc, b) =
        Except.ok (acc ++ sqs.flatMap (legalMovesFrom b color), b) := by
  intro sqs
  induction sqs with
  | nil =>
    intro acc
    simp only [List.foldlM, List.flatMap_nil, List.append_nil]
    rfl
  | cons sq sqs ih =>
    intro acc
    rw [List.foldlM_cons]
    rcases hg : b.get_piece sq with _ | p
    · have hstep : genSquareStep color (acc, b) sq = Except.ok (acc, b) := by
        unfold genSquareStep
        simp only [hg]
        rfl
      rw [hstep, except_bind_ok, ih acc]
      have hfrom : legalMovesFrom b color sq = [] := by
        unfold legalMovesFrom
        simp only [hg]
      rw [List.flatMap_cons, hfrom, List.nil_append]
    · by_cases hpc : p.color = color
      · have hstep : genSquareStep color (acc, b) sq =
            Except.ok (acc ++ (pseudoMovesFor b sq p).filter
              (fun mv => !moveCheckTest b mv color), b) := by
          unfold genSquareStep
          simp only [hg, hpc, if_true]
          exact gen_inner_fold b color (pseudoMovesFor b sq p) acc (htest sq p hg)
        rw [hstep, except_bind_ok, ih]
        have hfrom : legalMovesFrom b color sq =
            (pseudoMovesFor b sq p).filter (fun mv => !moveCheckTest b mv color) := by
          unfold legalMovesFrom
          simp only [hg, hpc, if_true]
        rw [List.flatMap_cons, hfrom, List.append_assoc]
      · have hstep : genSquareStep color (acc, b) sq = Except.ok (acc, b) := by
          unfold genSquareStep
          simp only [hg, hpc, if_false]
          rfl
        rw [hstep, except_bind_ok, ih acc]
        have hfrom : legalMovesFrom b color sq = [] := by
          unfold legalMovesFrom
          simp only [hg, hpc, if_false]
        rw [List.flatMap_cons, hfrom, List.nil_append]

/-- On a board satisfying the en-passant and castling-rights invariants,
generate_legal_moves succeeds, leaves the board object exactly as it was,
and returns the pure filtered move list. -/
theorem generate_legal_moves_ok (b : Board) (color : Color)
    (hep : epTargetClear b = true) (hcr : rightsImplyHome b = true) :
    b.generate_legal_moves color = Except.ok (legalMovesSpec b color, b) := by
  unfold Board.generate_legal_moves legalMovesSpec
  have h := gen_outer_fold b color
    (fun sq p hg m hm => move_test_restores b color sq p hep hcr hg m hm)
    allSquares []
  simpa using h

/-- A square is in the scan list exactly when it is on the board. -/
theorem mem_allSquares (sq : Square) : sq ∈ allSquares ↔ inBounds sq = true := by
  obtain ⟨r, c⟩ := sq
  unfold allSquares
  rw [inBounds_iff]
  constructor
  · intro h
    rw [List.mem_flatMap] at h
    obtain ⟨rn, hrn, h⟩ := h
    rw [List.mem_map] at h
    obtain ⟨cn, hcn, heq⟩ := h
    rw [List.mem_range] at hrn
    rw [List.mem_range] at hcn
    rw [Prod.mk.injEq] at heq
    obtain ⟨h1, h2⟩ := heq
    subst h1
    subst h2
    refine ⟨by omega, by omega, by omega, by omega⟩
  · rintro ⟨h1, h2, h3, h4⟩
    rw [List.mem_flatMap]
    refine ⟨r.toNat, by rw [List.mem_range]; omega, ?_⟩
    rw [List.mem_map]
    refine ⟨c.toNat, by rw [List.mem_range]; omega, ?_⟩
    rw [Prod.mk.injEq]
    constructor <;> omega

/-- Decomposition of membership in the pure legal-move list. -/
theorem legalMovesSpec_mem (b : Board) (color : Color) (m : Move) :
    m ∈ legalMovesSpec b color ↔
      ∃ sq p, b.get_piece sq = some p ∧ p.color = color ∧
        m ∈ pseudoMovesFor b sq p ∧ moveCheckTest b m color = false := by
  unfold legalMovesSpec
  rw [List.mem_flatMap]
  constructor
  · rintro ⟨sq, -, hm⟩
    unfold legalMovesFrom at hm
    rcases hg : b.get_piece sq with _ | p
    · simp only [hg] at hm
      exact absurd hm (List.not_mem_nil m)
    · simp only [hg] at hm
      by_cases hpc : p.color = color
      · rw [if_pos hpc, List.mem_filter] at hm
        refine ⟨sq, p, hg, hpc, hm.1, ?_⟩
        simpa using hm.2
      · rw [if_neg hpc] at hm
        exact absurd hm (List.not_mem_nil m)
  · rintro ⟨sq, p, hg, hpc, hmem, hchk⟩
    refine ⟨sq, ?_, ?_⟩
    · rw [mem_allSquares]
      exact get_piece_inBounds b hg
    · unfold legalMovesFrom
      simp only [hg]
      rw [if_pos hpc, List.mem_filter]
      exact ⟨hmem, by simp [hchk]⟩

/-- C10: applying a move whose start square is empty fails with the
ValueError message; the error is produced before any state is built, so the
caller keeps the board exactly as it was (the embedding returns only the
error and no successor state). -/
theorem c10_empty_start_error (b : Board) (m : Move)
    (h : b.get_piece m.start = none) :
    b.apply_move m = Except.error "No piece on start square" := by
  unfold Board.apply_move
  rw [h]

/-- C10 witness: a concrete empty-start move on the standard board. -/
theorem c10_empty_start_error_witness :
    initialBoard.get_piece ((4 : Int), (4 : Int)) = none ∧
    initialBoard.apply_move
        { start := ((4 : Int), (4 : Int)), dest := ((3 : Int), (4 : Int)) } =
      Except.error "No piece on start square" :=
  ⟨by decide,
   c10_empty_start_error initialBoard
     { start := ((4 : Int), (4 : Int)), dest := ((3 : Int), (4 : Int)) } (by decide)⟩

/-- C9: on the standard starting position, generate_legal_moves for white
succeeds, returns the board unchanged, and the returned list has exactly 20
moves. -/
theorem c9_initial_twenty :
    initialBoard.generate_legal_moves Color.white =
      Except.ok (legalMovesSpec initialBoard Color.white, initialBoard) ∧
    (legalMovesSpec initialBoard Color.white).length = 20 :=
  ⟨generate_legal_moves_ok initialBoard Color.white (by decide) (by decide),
   by decide⟩

/-- C1 counterexample: on cexC1 (black knight standing on the en-passant
target square) the en-passant capture epMoveC1 is produced as a legal move,
yet applying it and undoing leaves the target square empty instead of
restoring the knight. -/
theorem c1_counterexample :
    ((cexC1.generate_legal_moves Color.white).map fun r => r.1.contains epMoveC1) =
      Except.ok true ∧
    ((cexC1.apply_move epMoveC1).map fun r =>
        ((r.2.undo).1.get_piece ((2 : Int), (3 : Int)) == none) &&
        (cexC1.get_piece ((2 : Int), (3 : Int)) == some ⟨.N, .black⟩)) =
      Except.ok true :=
  ⟨rfl, rfl⟩

/-- C1 (amended): on a board whose en-passant target square is an empty
board square and whose castling rights imply the matching home king, every
move of the generated legal list applies successfully and undo then restores
the position exactly — squares, castling rights, en-passant square, halfmove
clock and history — hence also its Zobrist hash; generation itself returns
the board unchanged. -/
theorem c1_apply_undo_round_trip (b : Board) (color : Color) (ms : List Move)
    (b2 : Board) (m : Move)
    (hep : epTargetClear b = true) (hcr : rightsImplyHome b = true)
    (hgen : b.generate_legal_moves color = Except.ok (ms, b2)) (hm : m ∈ ms) :
    b2 = b ∧ ∃ st b1, b.apply_move m = Except.ok (st, b1) ∧
      b1.undo = (b, some st) ∧
      ∀ side, zobrist_hash (b1.undo).1 side = zobrist_hash b side := by
  have hgen' := generate_legal_moves_ok b color hep hcr
  rw [hgen] at hgen'
  injection hgen' with h
  rw [Prod.mk.injEq] at h
  obtain ⟨h1, h2⟩ := h
  refine ⟨h2, ?_⟩
  rw [h1, legalMovesSpec_mem] at hm
  obtain ⟨sq, p, hg, hpc, hmem, -⟩ := hm
  obtain ⟨st, b1, happ, hundo⟩ := pseudo_apply_undo b sq p hep hcr hg m hmem
  exact ⟨st, b1, happ, hundo, fun side => by rw [hundo]⟩

/-- C1 witness: the double pawn push e2–e4 on the standard board. -/
theorem c1_apply_undo_round_trip_witness :
    epTargetClear initialBoard = true ∧ rightsImplyHome initialBoard = true ∧
    initialBoard.generate_legal_moves Color.white =
      Except.ok (legalMovesSpec initialBoard Color.white, initialBoard) ∧
    ({ start := ((6 : Int), (4 : Int)), dest := ((4 : Int), (4 : Int)) } : Move) ∈
      legalMovesSpec initialBoard Color.white ∧
    (initialBoard = initialBoard ∧ ∃ st b1,
      initialBoard.apply_move
          { start := ((6 : Int), (4 : Int)), dest := ((4 : Int), (4 : Int)) } =
        Except.ok (st, b1) ∧
      b1.undo = (initialBoard, some st) ∧
      ∀ side, zobrist_hash (b1.undo).1 side = zobrist_hash initialBoard side) :=
  ⟨by decide, by decide,
   generate_legal_moves_ok initialBoard Color.white (by decide) (by decide),
   by decide,
   c1_apply_undo_round_trip initialBoard Color.white
     (legalMovesSpec initialBoard Color.white) initialBoard
     { start := ((6 : Int), (4 : Int)), dest := ((4 : Int), (4 : Int)) }
     (by decide) (by decide)
     (generate_legal_moves_ok initialBoard Color.white (by decide) (by decide))
     (by decide)⟩

/-- C2 counterexample: on cexC2 the king move kMoveC2 is produced as a legal
move (the en-passant legality test erased the black knight guarding f5
before the king was scanned), yet applying it leaves white in check. -/
theorem c2_counterexample :
    ((cexC2.generate_legal_moves Color.white).map fun r => r.1.contains kMoveC2) =
      Except.ok true ∧
    ((cexC2.apply_move kMoveC2).map fun r => r.2.in_check Color.white) =
      Except.ok true :=
  ⟨rfl, rfl⟩

/-- C2 (amended): under the en-passant and castling-rights invariants, the
generated list contains exactly the pseudo-legal moves of the side to move
whose application leaves that side not in check (a missing king counts as
in check). -/
theorem c2_legal_iff (b : Board) (color : Color) (ms : List Move) (b2 : Board)
    (hep : epTargetClear b = true) (hcr : rightsImplyHome b = true)
    (hgen : b.generate_legal_moves color = Except.ok (ms, b2)) (m : Move) :
    m ∈ ms ↔
      ∃ sq p, b.get_piece sq = some p ∧ p.color = color ∧
        m ∈ pseudoMovesFor b sq p ∧
        ∃ st b1, b.apply_move m = Except.ok (st, b1) ∧
          b1.in_check color = false := by
  have hgen' := generate_legal_moves_ok b color hep hcr
  rw [hgen] at hgen'
  injection hgen' with h
  rw [Prod.mk.injEq] at h
  obtain ⟨h1, h2⟩ := h
  rw [h1]
  constructor
  · intro hm
    rw [legalMovesSpec_mem] at hm
    obtain ⟨sq, p, hg, hpc, hmem, hchk⟩ := hm
    obtain ⟨st, b1, happ, -⟩ := pseudo_apply_undo b sq p hep hcr hg m hmem
    refine ⟨sq, p, hg, hpc, hmem, st, b1, happ, ?_⟩
    unfold moveCheckTest at hchk
    rw [happ] at hchk
    exact hchk
  · rintro ⟨sq, p, hg, hpc, hmem, st, b1, happ, hchk⟩
    rw [legalMovesSpec_mem]
    refine ⟨sq, p, hg, hpc, hmem, ?_⟩
    unfold moveCheckTest
    rw [happ]
    exact hchk

/-- C2 witness: the knight development move Nb1–c3 on the standard board. -/
theorem c2_legal_iff_witness :
    epTargetClear initialBoard = true ∧ rightsImplyHome initialBoard = true ∧
    initialBoard.generate_legal_moves Color.white =
      Except.ok (legalMovesSpec initialBoard Color.white, initialBoard) ∧
    (({ start := ((7 : Int), (1 : Int)), dest := ((5 : Int), (2 : Int)) } : Move) ∈
        legalMovesSpec initialBoard Color.white ↔
      ∃ sq p, initialBoard.get_piece sq = some p ∧ p.color = Color.white ∧
        ({ start := ((7 : Int), (1 : Int)), dest := ((5 : Int), (2 : Int)) } : Move) ∈
          pseudoMovesFor initialBoard sq p ∧
        ∃ st b1, initialBoard.apply_move
            { start := ((7 : Int), (1 : Int)), dest := ((5 : Int), (2 : Int)) } =
          Except.ok (st, b1) ∧ b1.in_check Color.white = false) :=
  ⟨by decide, by decide,
   generate_legal_moves_ok initialBoard Color.white (by decide) (by decide),
   c2_legal_iff initialBoard Color.white
     (legalMovesSpec initialBoard Color.white) initialBoard
     (by decide) (by decide)
     (generate_legal_moves_ok initialBoard Color.white (by decide) (by decide))
     { start := ((7 : Int), (1 : Int)), dest := ((5 : Int), (2 : Int)) }⟩

/-- The occupied-square scan of zobrist_hash equals a XOR fold over the
filtered key list. -/
theorem zob_fold_eq (b : Board) : ∀ (l : List Square) (h0 : Nat),
    l.foldl (fun h sq => match b.get_piece sq with
      | some p => h ^^^ zobristPieceKey p.color p.kind (squareIndex sq)
      | none => h) h0 =
    (l.filterMap fun sq => (b.get_piece sq).map fun p =>
        zobristPieceKey p.color p.kind (squareIndex sq)).foldl
      (fun a k => a ^^^ k) h0 := by
  intro l
  induction l with
  | nil => intro h0; rfl
  | cons sq l ih =>
    intro h0
    rw [List.foldl_cons, List.filterMap_cons]
    rcases hg : b.get_piece sq with _ | p
    · simp only [hg, Option.map_none']
      exact ih h0
    · simp only [hg, Option.map_some']
      rw [List.foldl_cons]
      exact ih _

theorem xor_ite_zero (c : Prop) [Decidable c] (h k : Nat) :
    (if c then h ^^^ k else h) = h ^^^ (if c then k else 0) := by
  split <;> simp

/-- C7: for every board and side to move, zobrist_hash equals the XOR of the
(color, kind, square) key of every occupied square, the key of each set
castling right, the en-passant file key when the square is set, and the
side-to-move key exactly when the side to move is white; the keys are fixed
deterministic values, so the hash of a position is the same across runs. -/
theorem c7_zobrist_formula (b : Board) (side : Color) :
    zobrist_hash b side = zobristSpecHash b side := by
  obtain ⟨bs, ⟨wk, wq, bk, bq⟩, ep, hist, clk⟩ := b
  rcases ep with _ | e <;>
    simp only [zobrist_hash, zobristSpecHash, List.enum, List.enumFrom,
      List.foldl_cons, List.foldl_nil, zob_fold_eq, xor_ite_zero, Nat.xor_zero]

/-- C6: storing an exact entry in a fresh table and probing the same key at
any requested depth d2 ≤ d returns exactly the stored entry (same score,
flag and best move), for all alpha and beta. -/
theorem c6_store_probe_round_trip (size bucket_size : Nat)
    (hb : 0 < bucket_size) (key : Nat) (d : Int) (score : Score)
    (best_move : Option Move) (d2 : Int) (hd : d2 ≤ d) (alpha beta : Score) :
    tt_probe
        (tt_store (TranspositionTable.mk0 size bucket_size) key d score .exact best_move)
        key d2 alpha beta =
      some ⟨key, d, score, .exact, best_move, 0⟩ := by
  have hstore :
      tt_store (TranspositionTable.mk0 size bucket_size) key d score .exact best_move =
        { size := size, bucket_size := bucket_size,
          table := fun i => if i = key % size then
              [⟨key, d, score, .exact, best_move, 0⟩] else [],
          counter := 1 } := by
    unfold tt_store TranspositionTable.store TranspositionTable.mk0 TranspositionTable.index
    simp only [List.findIdx?_nil]
    rw [if_pos (by simpa using hb)]
    rfl
  rw [hstore]
  unfold tt_probe TranspositionTable.probe TranspositionTable.index
  simp only [eq_self_iff_true, if_true]
  rw [List.find?_cons_of_pos _ (by simp)]
  simp only
  rw [if_neg (show ¬(key ≠ key ∨ d < d2) from by push_neg; exact ⟨rfl, by omega⟩)]
  simp

/-- C6 witness: exact entry at depth 3 probed at depth 2 on a fresh 8×2
table. -/
theorem c6_store_probe_round_trip_witness :
    0 < 2 ∧ (2 : Int) ≤ 3 ∧
    tt_probe
        (tt_store (TranspositionTable.mk0 8 2) 42 3 (Score.fin 1) .exact
          (some { start := ((0 : Int), (0 : Int)), dest := ((0 : Int), (1 : Int)) }))
        42 2 Score.ninf Score.inf =
      some ⟨42, 3, Score.fin 1, .exact,
        some { start := ((0 : Int), (0 : Int)), dest := ((0 : Int), (1 : Int)) }, 0⟩ :=
  ⟨by decide, by decide,
   c6_store_probe_round_trip 8 2 (by decide) 42 3 (Score.fin 1)
     (some { start := ((0 : Int), (0 : Int)), dest := ((0 : Int), (1 : Int)) }) 2
     (by decide) Score.ninf Score.inf⟩

theorem lexDA_refl (a : TTEntry) : lexDA a a := Or.inr ⟨rfl, le_refl _⟩

theorem lexDA_trans {a b c : TTEntry} (h1 : lexDA a b) (h2 : lexDA b c) :
    lexDA a c := by
  unfold lexDA at h1 h2 ⊢
  omega

/-- The min fold returns a candidate that is a member and (depth, age)-below
the accumulator and every scanned element. -/
theorem minFold_spec :
    ∀ (L : List (Nat × TTEntry)) (a : Nat × TTEntry),
      ∃ m : Nat × TTEntry, L.foldl minDAStep (some a) = some m ∧
        (m = a ∨ m ∈ L) ∧ lexDA m.2 a.2 ∧ ∀ x ∈ L, lexDA m.2 x.2 := by
  intro L
  induction L with
  | nil =>
    intro a
    exact ⟨a, rfl, Or.inl rfl, lexDA_refl a.2, fun x hx => absurd hx (List.not_mem_nil x)⟩
  | cons c L ih =>
    intro a
    rw [List.foldl_cons]
    by_cases hR : c.2.depth < a.2.depth ∨ (c.2.depth = a.2.depth ∧ c.2.age < a.2.age)
    · have hstep : minDAStep (some a) c = some c := by
        show (if c.2.depth < a.2.depth ∨ (c.2.depth = a.2.depth ∧ c.2.age < a.2.age) then
            some c else some a) = some c
        exact if_pos hR
      rw [hstep]
      obtain ⟨m, hfold, hmem, hle, hall⟩ := ih c
      have hca : lexDA c.2 a.2 := by unfold lexDA; omega
      refine ⟨m, hfold, ?_, lexDA_trans hle hca, ?_⟩
      · rcases hmem with rfl | hmem
        · exact Or.inr (List.mem_cons_self _ _)
        · exact Or.inr (List.mem_cons_of_mem _ hmem)
      · intro x hx
        rcases List.mem_cons.mp hx with rfl | hx
        · exact hle
        · exact hall x hx
    · have hstep : minDAStep (some a) c = some a := by
        show (if c.2.depth < a.2.depth ∨ (c.2.depth = a.2.depth ∧ c.2.age < a.2.age) then
            some c else some a) = some a
        exact if_neg hR
      rw [hstep]
      obtain ⟨m, hfold, hmem, hle, hall⟩ := ih a
      have hac : lexDA a.2 c.2 := by unfold lexDA; omega
      refine ⟨m, hfold, ?_, hle, ?_⟩
      · rcases hmem with rfl | hmem
        · exact Or.inl rfl
        · exact Or.inr (List.mem_cons_of_mem _ hmem)
      · intro x hx
        rcases List.mem_cons.mp hx with rfl | hx
        · exact lexDA_trans hle hac
        · exact hall x hx

/-- minDepthAgeIdx of a nonempty bucket is a valid index achieving the
lexicographic (depth, age) minimum. -/
theorem minDepthAgeIdx_spec (bucket : List TTEntry) (h0 : 0 < bucket.length)
    (d : TTEntry) :
    minDepthAgeIdx bucket < bucket.length ∧
    ∀ j, j < bucket.length →
      lexDA (bucket.getD (minDepthAgeIdx bucket) d) (bucket.getD j d) := by
  rcases hb : bucket with _ | ⟨b0, rest⟩
  · rw [hb] at h0
    exact absurd h0 (by simp)
  · rw [← hb]
    have henum : bucket.enum = (0, b0) :: rest.enumFrom 1 := by
      rw [hb]
      rfl
    have hfold : bucket.enum.foldl minDAStep none =
        (rest.enumFrom 1).foldl minDAStep (some (0, b0)) := by
      rw [henum, List.foldl_cons]
      rfl
    obtain ⟨m, hm, hmem, hle, hall⟩ := minFold_spec (rest.enumFrom 1) (0, b0)
    have hmem' : m ∈ bucket.enum := by
      rw [henum]
      rcases hmem with rfl | hmem
      · exact List.mem_cons_self _ _
      · exact List.mem_cons_of_mem _ hmem
    have hget : bucket.get? m.1 = some m.2 := List.mem_enum_iff_get?.mp hmem'
    have hidx : minDepthAgeIdx bucket = m.1 := by
      unfold minDepthAgeIdx
      rw [hfold, hm]
      rfl
    have hlen : m.1 < bucket.length := List.get?_eq_some.mp hget |>.choose
    have hgetD : bucket.getD m.1 d = m.2 := by
      rw [List.getD_eq_get?, hget]
      rfl
    refine ⟨by rw [hidx]; exact hlen, ?_⟩
    intro j hj
    rw [hidx, hgetD]
    have hjget : ∃ v, bucket.get? j = some v :=
      ⟨bucket.get ⟨j, hj⟩, List.get?_eq_get hj⟩
    obtain ⟨v, hv⟩ := hjget
    have hjmem : (j, v) ∈ bucket.enum := List.mem_enum_iff_get?.mpr hv
    have hgetDj : bucket.getD j d = v := by
      rw [List.getD_eq_get?, hv]
      rfl
    rw [hgetDj]
    rcases List.mem_cons.mp (henum ▸ hjmem) with heq | hmem2
    · rw [show v = b0 from congrArg Prod.snd heq]
      rcases hmem with rfl | hmem
      · exact lexDA_refl _
      · exact hle
    · exact hall (j, v) hmem2

/-- C5: the store replacement policy.  At the bucket index key mod size, a
first entry with the same key is overwritten exactly when the new depth is
at least the existing depth; otherwise with room in the bucket the entry is
appended; otherwise the (depth, age)-lexicographically weakest entry is
replaced exactly when the new depth is at least its depth, and the bucket
is left unchanged otherwise.  The age counter always advances and no other
bucket changes. -/
theorem c5_store_replacement_policy (t : TranspositionTable) (e : TTEntry)
    (index : Nat) (hidx : index = t.index e.key)
    (bucket : List TTEntry) (hbk : bucket = t.table index)
    (e2 : TTEntry) (he2 : e2 = { e with age := t.counter }) :
    (t.store e).counter = t.counter + 1 ∧
    (∀ i, i ≠ index → (t.store e).table i = t.table i) ∧
    (∀ idx, bucket.findIdx? (fun x => x.key == e.key) = some idx →
      ((bucket.getD idx e2).depth ≤ e.depth →
          (t.store e).table index = bucket.set idx e2) ∧
      (e.depth < (bucket.getD idx e2).depth →
          (t.store e).table index = bucket)) ∧
    (bucket.findIdx? (fun x => x.key == e.key) = none →
      (bucket.length < t.bucket_size →
          (t.store e).table index = bucket ++ [e2]) ∧
      (t.bucket_size ≤ bucket.length →
        ((bucket.getD (minDepthAgeIdx bucket) e2).depth ≤ e.depth →
            (t.store e).table index = bucket.set (minDepthAgeIdx bucket) e2) ∧
        (e.depth < (bucket.getD (minDepthAgeIdx bucket) e2).depth →
            (t.store e).table index = bucket) ∧
        (0 < bucket.length →
          minDepthAgeIdx bucket < bucket.length ∧
          ∀ j, j < bucket.length →
            lexDA (bucket.getD (minDepthAgeIdx bucket) e2) (bucket.getD j e2)))) := by
  subst hidx
  subst hbk
  subst he2
  have hstore : t.store e =
      (match (t.table (t.index e.key)).findIdx? (fun x => x.key == e.key) with
       | some idx =>
         if ((t.table (t.index e.key)).getD idx { e with age := t.counter }).depth ≤
             e.depth then
           { t with
             counter := t.counter + 1
             table := fun i =>
               if i = t.index e.key then
                 (t.table (t.index e.key)).set idx { e with age := t.counter }
               else t.table i }
         else { t with counter := t.counter + 1 }
       | none =>
         if (t.table (t.index e.key)).length < t.bucket_size then
           { t with
             counter := t.counter + 1
             table := fun i =>
               if i = t.index e.key then
                 t.table (t.index e.key) ++ [{ e with age := t.counter }]
               else t.table i }
         else if e.depth <
             ((t.table (t.index e.key)).getD (minDepthAgeIdx (t.table (t.index e.key)))
               { e with age := t.counter }).depth then
           { t with counter := t.counter + 1 }
         else
           { t with
             counter := t.counter + 1
             table := fun i =>
               if i = t.index e.key then
                 (t.table (t.index e.key)).set (minDepthAgeIdx (t.table (t.index e.key)))
                   { e with age := t.counter }
               else t.table i }) := by
    unfold TranspositionTable.store
    rfl
  refine ⟨?_, ?_, ?_, ?_⟩
  · rw [hstore]
    rcases hf : (t.table (t.index e.key)).findIdx? (fun x => x.key == e.key) with _ | idx
    · simp only [hf]
      split
      · rfl
      · split <;> rfl
    · simp only [hf]
      split <;> rfl
  · intro i hi
    rw [hstore]
    rcases hf : (t.table (t.index e.key)).findIdx? (fun x => x.key == e.key) with _ | idx
    · simp only [hf]
      split
      · simp [hi]
      · split
        · rfl
        · simp [hi]
    · simp only [hf]
      split
      · simp [hi]
      · rfl
  · intro idx hf
    rw [hstore]
    simp only [hf]
    constructor
    · intro hd
      rw [if_pos hd]
      simp
    · intro hd
      rw [if_neg (by omega)]
  · intro hf
    rw [hstore]
    simp only [hf]
    refine ⟨?_, ?_⟩
    · intro hlen
      rw [if_pos hlen]
      simp
    · intro hlen
      rw [if_neg (by omega)]
      refine ⟨?_, ?_, ?_⟩
      · intro hd
        rw [if_neg (by omega)]
        simp
      · intro hd
        rw [if_pos hd]
      · intro h0
        exact minDepthAgeIdx_spec _ h0 _

/-- C5 witness: a same-key deeper store overwrites the existing entry and
advances the counter, on a concrete 4×2 table. -/
theorem c5_store_replacement_policy_witness :
    ((tt_store (TranspositionTable.mk0 4 2) 5 2 (Score.fin 0) .lower none).store
        ⟨5, 3, Score.fin 1, .exact, none, 0⟩).counter = 2 ∧
    ((tt_store (TranspositionTable.mk0 4 2) 5 2 (Score.fin 0) .lower none).store
        ⟨5, 3, Score.fin 1, .exact, none, 0⟩).table 1 =
      [⟨5, 3, Score.fin 1, .exact, none, 1⟩] := by
  have h := c5_store_replacement_policy
    (tt_store (TranspositionTable.mk0 4 2) 5 2 (Score.fin 0) .lower none)
    ⟨5, 3, Score.fin 1, .exact, none, 0⟩
    1 (by decide)
    [⟨5, 2, Score.fin 0, .lower, none, 0⟩] (by decide)
    ⟨5, 3, Score.fin 1, .exact, none, 1⟩ (by decide)
  obtain ⟨h1, -, h3, -⟩ := h
  refine ⟨h1, ?_⟩
  have h4 := (h3 0 (by decide)).1 (by decide)
  exact h4

theorem mem_ite_of {α : Type _} (c : Prop) [Decidable c] (hc : c) {a : α}
    {l l' : List α} (h : a ∈ l) : a ∈ (if c then l else l') := by
  rw [if_pos hc]
  exact h

/-- The canonical castle move is pseudo-generated from a scanned piece
exactly when that piece is a king of the moving color, the matching right is
held, the path test passes, and (queenside) the b-file path is clear; the
scanned square itself is irrelevant. -/
theorem castle_mem_pseudo_iff (b : Board) (sq : Square) (p : Piece)
    (color : Color) (kingside : Bool) (hpc : p.color = color) :
    castleMoveOf color kingside ∈ pseudoMovesFor b sq p ↔
      (p.kind = PieceType.K ∧
       castleRight b color kingside = true ∧
       b.castling_path_is_safe color kingside = true ∧
       (kingside = false →
         b.get_piece ((if color = .white then (7 : Int) else 0), (1 : Int)) = none ∧
         b.get_piece ((if color = .white then (7 : Int) else 0), (2 : Int)) = none ∧
         b.get_piece ((if color = .white then (7 : Int) else 0), (3 : Int)) = none)) := by
  obtain ⟨pk, pc⟩ := p
  obtain ⟨r, c⟩ := sq
  subst hpc
  have hcastle : (castleMoveOf pc kingside).is_castle = true := by
    cases pc <;> cases kingside <;> rfl
  cases pk
  case P =>
    constructor
    · intro hmem
      unfold pseudoMovesFor at hmem
      rcases List.mem_append.mp hmem with hpush | hcap
      · obtain ⟨-, h4, -⟩ := pawnPushesAt_facts b (r, c) _ _ _ _ hpush
        rw [hcastle] at h4
        exact Bool.noConfusion h4
      · simp only [List.mem_flatMap] at hcap
        obtain ⟨dc, -, hm⟩ := hcap
        rcases List.mem_append.mp hm with hcapm | hep
        · obtain ⟨-, -, h4, -⟩ := pawnCapsAt_facts b pc (r, c) _ _ hcapm
          rw [hcastle] at h4
          exact Bool.noConfusion h4
        · obtain ⟨hm', -⟩ := pawnEpAt_facts b pc (r, c) _ _ _ hep
          have h4 := congrArg Move.is_castle hm'
          rw [hcastle] at h4
          exact Bool.noConfusion h4
    · rintro ⟨hK, -⟩
      exact PieceType.noConfusion hK
  case N =>
    constructor
    · intro hmem
      unfold pseudoMovesFor at hmem
      simp only [List.mem_filterMap] at hmem
      obtain ⟨d, -, hm⟩ := hmem
      obtain ⟨-, -, -, h4, -⟩ := stepMoveAt_facts b pc (r, c) _ _ hm
      rw [hcastle] at h4
      exact Bool.noConfusion h4
    · rintro ⟨hK, -⟩
      exact PieceType.noConfusion hK
  case B | R | Q =>
    constructor
    · intro hmem
      unfold pseudoMovesFor at hmem
      simp only [List.mem_flatMap] at hmem
      obtain ⟨d, -, hm⟩ := hmem
      obtain ⟨-, h2, -, -⟩ := slideMoves_facts b pc (r, c) d.1 d.2 8 _ _ _ hm
      rw [hcastle] at h2
      exact Bool.noConfusion h2
    · rintro ⟨hK, -⟩
      exact PieceType.noConfusion hK
  case K =>
    have hnormal : ∀ hm : castleMoveOf pc kingside ∈
        (([(-1 : Int), 0, 1]).flatMap fun dr =>
          ([(-1 : Int), 0, 1]).filterMap fun dc =>
            if dr = 0 ∧ dc = 0 then none
            else stepMoveAt b pc (r, c) (r + dr, c + dc)), False := by
      intro hm
      simp only [List.mem_flatMap, List.mem_filterMap] at hm
      obtain ⟨dr, -, dc, -, hm⟩ := hm
      by_cases h0 : dr = 0 ∧ dc = 0
      · rw [if_pos h0] at hm
        exact Option.noConfusion hm
      · rw [if_neg h0] at hm
        obtain ⟨-, -, -, h4, -⟩ := stepMoveAt_facts b pc (r, c) _ _ hm
        rw [hcastle] at h4
        exact Bool.noConfusion h4
    cases pc <;> cases kingside
    case white.true =>
      constructor
      · intro hmem
        unfold pseudoMovesFor at hmem
        rcases List.mem_append.mp hmem with hnorm | hcast
        · exact absurd hnorm hnormal
        · rcases List.mem_append.mp hcast with hw | hb2
          · rcases mem_ite_list hw with ⟨-, hw⟩ | ⟨-, hw⟩
            · rcases List.mem_append.mp hw with hk | hq
              · rcases mem_ite_list hk with ⟨⟨hwk, hsafe⟩, hk⟩ | ⟨-, hk⟩
                · exact ⟨rfl, hwk, hsafe, fun hf => Bool.noConfusion hf⟩
                · exact absurd hk (List.not_mem_nil _)
              · rcases mem_ite_list hq with ⟨-, hq⟩ | ⟨-, hq⟩
                · rcases mem_ite_list hq with ⟨-, hq⟩ | ⟨-, hq⟩
                  · rw [List.mem_singleton] at hq
                    exact absurd hq (by decide)
                  · exact absurd hq (List.not_mem_nil _)
                · exact absurd hq (List.not_mem_nil _)
            · exact absurd hw (List.not_mem_nil _)
          · rcases mem_ite_list hb2 with ⟨hcb, -⟩ | ⟨-, hb2⟩
            · exact absurd hcb (by decide)
            · exact absurd hb2 (List.not_mem_nil _)
      · rintro ⟨-, hright, hsafe, -⟩
        unfold pseudoMovesFor
        exact List.mem_append.mpr (Or.inr (List.mem_append.mpr (Or.inl
          (mem_ite_of _ rfl (List.mem_append.mpr (Or.inl
            (mem_ite_of _ ⟨hright, hsafe⟩ (List.mem_singleton.mpr (by decide)))))))))
    case white.false =>
      constructor
      · intro hmem
        unfold pseudoMovesFor at hmem
        rcases List.mem_append.mp hmem with hnorm | hcast
        · exact absurd hnorm hnormal
        · rcases List.mem_append.mp hcast with hw | hb2
          · rcases mem_ite_list hw with ⟨-, hw⟩ | ⟨-, hw⟩
            · rcases List.mem_append.mp hw with hk | hq
              · rcases mem_ite_list hk with ⟨-, hk⟩ | ⟨-, hk⟩
                · rw [List.mem_singleton] at hk
                  exact absurd hk (by decide)
                · exact absurd hk (List.not_mem_nil _)
              · rcases mem_ite_list hq with ⟨hwq, hq⟩ | ⟨-, hq⟩
                · rcases mem_ite_list hq with ⟨⟨hclear, hsafe⟩, hq⟩ | ⟨-, hq⟩
                  · exact ⟨rfl, hwq, hsafe, fun _ => hclear⟩
                  · exact absurd hq (List.not_mem_nil _)
                · exact absurd hq (List.not_mem_nil _)
            · exact absurd hw (List.not_mem_nil _)
          · rcases mem_ite_list hb2 with ⟨hcb, -⟩ | ⟨-, hb2⟩
            · exact absurd hcb (by decide)
            · exact absurd hb2 (List.not_mem_nil _)
      · rintro ⟨-, hright, hsafe, hclear⟩
        obtain ⟨hc1, hc2, hc3⟩ := hclear rfl
        unfold pseudoMovesFor
        exact List.mem_append.mpr (Or.inr (List.mem_append.mpr (Or.inl
          (mem_ite_of _ rfl (List.mem_append.mpr (Or.inr
            (mem_ite_of _ hright
              (mem_ite_of _ ⟨⟨hc1, hc2, hc3⟩, hsafe⟩
                (List.mem_singleton.mpr (by decide))))))))))
    case black.true =>
      constructor
      · intro hmem
        unfold pseudoMovesFor at hmem
        rcases List.mem_append.mp hmem with hnorm | hcast
        · exact absurd hnorm hnormal
        · rcases List.mem_append.mp hcast with hw | hb2
          · rcases mem_ite_list hw with ⟨hcw, -⟩ | ⟨-, hw⟩
            · exact absurd hcw (by decide)
            · exact absurd hw (List.not_mem_nil _)
          · rcases mem_ite_list hb2 with ⟨-, hb2⟩ | ⟨-, hb2⟩
            · rcases List.mem_append.mp hb2 with hk | hq
              · rcases mem_ite_list hk with ⟨⟨hbk, hsafe⟩, hk⟩ | ⟨-, hk⟩
                · exact ⟨rfl, hbk, hsafe, fun hf => Bool.noConfusion hf⟩
                · exact absurd hk (List.not_mem_nil _)
              · rcases mem_ite_list hq with ⟨-, hq⟩ | ⟨-, hq⟩
                · rcases mem_ite_list hq with ⟨-, hq⟩ | ⟨-, hq⟩
                  · rw [List.mem_singleton] at hq
                    exact absurd hq (by decide)
                  · exact absurd hq (List.not_mem_nil _)
                · exact absurd hq (List.not_mem_nil _)
            · exact absurd hb2 (List.not_mem_nil _)
      · rintro ⟨-, hright, hsafe, -⟩
        unfold pseudoMovesFor
        exact List.mem_append.mpr (Or.inr (List.mem_append.mpr (Or.inr
          (mem_ite_of _ rfl (List.mem_append.mpr (Or.inl
            (mem_ite_of _ ⟨hright, hsafe⟩ (List.mem_singleton.mpr (by decide)))))))))
    case black.false =>
      constructor
      · intro hmem
        unfold pseudoMovesFor at hmem
        rcases List.mem_append.mp hmem with hnorm | hcast
        · exact absurd hnorm hnormal
        · rcases List.mem_append.mp hcast with hw | hb2
          · rcases mem_ite_list hw with ⟨hcw, -⟩ | ⟨-, hw⟩
            · exact absurd hcw (by decide)
            · exact absurd hw (List.not_mem_nil _)
          · rcases mem_ite_list hb2 with ⟨-, hb2⟩ | ⟨-, hb2⟩
            · rcases List.mem_append.mp hb2 with hk | hq
              · rcases mem_ite_list hk with ⟨-, hk⟩ | ⟨-, hk⟩
                · rw [List.mem_singleton] at hk
                  exact absurd hk (by decide)
                · exact absurd hk (List.not_mem_nil _)
              · rcases mem_ite_list hq with ⟨hbq, hq⟩ | ⟨-, hq⟩
                · rcases mem_ite_list hq with ⟨⟨hclear, hsafe⟩, hq⟩ | ⟨-, hq⟩
                  · exact ⟨rfl, hbq, hsafe, fun _ => hclear⟩
                  · exact absurd hq (List.not_mem_nil _)
                · exact absurd hq (List.not_mem_nil _)
            · exact absurd hb2 (List.not_mem_nil _)
      · rintro ⟨-, hright, hsafe, hclear⟩
        obtain ⟨hc1, hc2, hc3⟩ := hclear rfl
        unfold pseudoMovesFor
        exact List.mem_append.mpr (Or.inr (List.mem_append.mpr (Or.inr
          (mem_ite_of _ rfl (List.mem_append.mpr (Or.inr
            (mem_ite_of _ hright
              (mem_ite_of _ ⟨⟨hc1, hc2, hc3⟩, hsafe⟩
                (List.mem_singleton.mpr (by decide))))))))))

/-- The claim's castling conditions, restated through the generator's own
path test. -/
theorem castlingConditions_iff (b : Board) (color : Color) (kingside : Bool) :
    castlingConditions b color kingside = true ↔
      (castleRight b color kingside = true ∧
       b.castling_path_is_safe color kingside = true ∧
       (kingside = false →
         b.get_piece ((if color = .white then (7 : Int) else 0), (1 : Int)) = none ∧
         b.get_piece ((if color = .white then (7 : Int) else 0), (2 : Int)) = none ∧
         b.get_piece ((if color = .white then (7 : Int) else 0), (3 : Int)) = none)) := by
  cases color <;> cases kingside <;>
    (simp only [castlingConditions, castleRight, castling_path_is_safe_iff,
      Bool.and_eq_true, List.all_cons, List.all_nil, Bool.and_true, beq_iff_eq,
      Bool.not_eq_true', Option.isNone_iff_eq_none, Bool.true_eq_false,
      Bool.false_eq_true, false_implies, true_implies, reduceCtorEq, reduceIte,
      if_true, if_false] <;>
     constructor)
  all_goals
    intro h
  all_goals
    tauto

/-- If any castling right of a color is held and the rights imply the home
king, the home square holds that king. -/
theorem home_king_of_right (b : Board) (color : Color) (kingside : Bool)
    (hcr : rightsImplyHome b = true) (hright : castleRight b color kingside = true) :
    b.get_piece ((if color = .white then (7 : Int) else 0), (4 : Int)) =
      some ⟨.K, color⟩ := by
  unfold rightsImplyHome at hcr
  simp only [Bool.and_eq_true, Bool.or_eq_true, Bool.not_eq_true', beq_iff_eq] at hcr
  obtain ⟨⟨⟨h1, h2⟩, h3⟩, h4⟩ := hcr
  cases color <;> cases kingside
  · rcases h2 with h | h
    · have hr : b.castling_rights.2.1 = true := hright
      rw [hr] at h
      exact Bool.noConfusion h
    · simpa using h
  · rcases h1 with h | h
    · have hr : b.castling_rights.1 = true := hright
      rw [hr] at h
      exact Bool.noConfusion h
    · simpa using h
  · rcases h4 with h | h
    · have hr : b.castling_rights.2.2.2 = true := hright
      rw [hr] at h
      exact Bool.noConfusion h
    · simpa using h
  · rcases h3 with h | h
    · have hr : b.castling_rights.2.2.1 = true := hright
      rw [hr] at h
      exact Bool.noConfusion h
    · simpa using h

set_option maxRecDepth 8000 in
/-- C8 counterexample: on cexC8 every condition of the claim holds for white
kingside castling, yet the generated legal list does not contain the castle
move — the en-passant self-check test erased the white knight blocking the
black queen's diagonal before the king was scanned. -/
theorem c8_counterexample :
    castlingConditions cexC8 Color.white true = true ∧
    ((cexC8.generate_legal_moves Color.white).map fun r =>
        r.1.contains (castleMoveOf Color.white true)) = Except.ok false :=
  ⟨by decide, rfl⟩

/-- C8 (amended): on a board satisfying the en-passant and castling-rights
invariants, a castling move is generated exactly when the claim's conditions
hold (right held, rook on its corner, squares between empty, king not in
check, traversed squares unattacked) and the applied castle additionally
leaves the mover not in check. -/
theorem c8_castling_inclusion_iff (b : Board) (color : Color) (kingside : Bool)
    (ms : List Move) (b2 : Board)
    (hep : epTargetClear b = true) (hcr : rightsImplyHome b = true)
    (hgen : b.generate_legal_moves color = Except.ok (ms, b2)) :
    castleMoveOf color kingside ∈ ms ↔
      (castlingConditions b color kingside = true ∧
        ∃ st b1, b.apply_move (castleMoveOf color kingside) = Except.ok (st, b1) ∧
          b1.in_check color = false) := by
  have hgen' := generate_legal_moves_ok b color hep hcr
  rw [hgen] at hgen'
  injection hgen' with h
  rw [Prod.mk.injEq] at h
  obtain ⟨h1, -⟩ := h
  rw [h1, legalMovesSpec_mem]
  constructor
  · rintro ⟨sq, p, hg, hpcc, hmem, hchk⟩
    obtain ⟨hK, hright, hsafe, hclear⟩ :=
      (castle_mem_pseudo_iff b sq p color kingside hpcc).mp hmem
    refine ⟨(castlingConditions_iff b color kingside).mpr ⟨hright, hsafe, hclear⟩, ?_⟩
    obtain ⟨st, b1, happ, -⟩ := pseudo_apply_undo b sq p hep hcr hg _ hmem
    refine ⟨st, b1, happ, ?_⟩
    unfold moveCheckTest at hchk
    rw [happ] at hchk
    exact hchk
  · rintro ⟨hcond, st, b1, happ, hchk⟩
    obtain ⟨hright, hsafe, hclear⟩ := (castlingConditions_iff b color kingside).mp hcond
    refine ⟨_, ⟨.K, color⟩, home_king_of_right b color kingside hcr hright, rfl, ?_, ?_⟩
    · exact (castle_mem_pseudo_iff b _ ⟨.K, color⟩ color kingside rfl).mpr
        ⟨rfl, hright, hsafe, hclear⟩
    · unfold moveCheckTest
      rw [happ]
      exact hchk

/-- C8 witness: the standard castling-ready position with both white rooks. -/
theorem c8_castling_inclusion_iff_witness :
    epTargetClear castleBoardW = true ∧ rightsImplyHome castleBoardW = true ∧
    castleBoardW.generate_legal_moves Color.white =
      Except.ok (legalMovesSpec castleBoardW Color.white, castleBoardW) ∧
    (castleMoveOf Color.white true ∈ legalMovesSpec castleBoardW Color.white ↔
      (castlingConditions castleBoardW Color.white true = true ∧
        ∃ st b1, castleBoardW.apply_move (castleMoveOf Color.white true) =
            Except.ok (st, b1) ∧ b1.in_check Color.white = false)) :=
  ⟨by decide, by decide,
   generate_legal_moves_ok castleBoardW Color.white (by decide) (by decide),
   c8_castling_inclusion_iff castleBoardW Color.white true
     (legalMovesSpec castleBoardW Color.white) castleBoardW (by decide) (by decide)
     (generate_legal_moves_ok castleBoardW Color.white (by decide) (by decide))⟩

/-- A knight/king step lands on an empty square or a capturable enemy
non-king. -/
theorem stepMoveAt_dest (b : Board) (color : Color) (pos t : Square) (m : Move)
    (h : stepMoveAt b color pos t = some m) :
    b.get_piece m.dest = none ∨
      ∃ tp, b.get_piece m.dest = some tp ∧ tp.color ≠ color ∧ tp.kind ≠ PieceType.K := by
  unfold stepMoveAt at h
  by_cases hb : inBounds t = true
  · rw [if_pos hb] at h
    rcases hg : b.get_piece t with _ | target
    · simp only [hg] at h
      rw [Option.some_inj] at h
      subst h
      exact Or.inl hg
    · simp only [hg] at h
      by_cases hc : target.color ≠ color ∧ target.kind ≠ PieceType.K
      · rw [if_pos hc, Option.some_inj] at h
        subst h
        exact Or.inr ⟨target, hg, hc.1, hc.2⟩
      · rw [if_neg hc] at h
        exact Option.noConfusion h
  · rw [if_neg hb] at h
    exact Option.noConfusion h

/-- A sliding move lands on an empty square or a capturable enemy non-king. -/
theorem slideMoves_dest (b : Board) (color : Color) (start : Square) (dr dc : Int) :
    ∀ (fuel : Nat) (nr nc : Int) (m : Move), m ∈ slideMoves b color start dr dc fuel nr nc →
      b.get_piece m.dest = none ∨
        ∃ tp, b.get_piece m.dest = some tp ∧ tp.color ≠ color ∧ tp.kind ≠ PieceType.K := by
  intro fuel
  induction fuel with
  | zero =>
    intro nr nc m hm
    cases hm
  | succ n ih =>
    intro nr nc m hm
    unfold slideMoves at hm
    split at hm
    · split at hm
      · rename_i target heq
        split at hm
        · rename_i hcond
          rw [List.mem_singleton] at hm
          subst hm
          exact Or.inr ⟨target, heq, hcond.1, hcond.2⟩
        · cases hm
      · rename_i heq
        rcases List.mem_cons.mp hm with rfl | hm
        · exact Or.inl heq
        · exact ih _ _ _ hm
    · cases hm

/-- Every pawn-push base move lands on the single-step square. -/
theorem pawnPushBase_dest (pos one_step : Square) (m : Move)
    (h : m ∈ pawnPushBase pos one_step) : m.dest = one_step := by
  unfold pawnPushBase at h
  rcases mem_ite_list h with ⟨-, h⟩ | ⟨-, h⟩
  · simp only [List.mem_map] at h
    obtain ⟨promo, -, hm⟩ := h
    subst hm
    rfl
  · rw [List.mem_singleton] at h
    subst h
    rfl

/-- Pawn pushes land on the single-step square or, with both path squares
checked empty and the start-row test passed, on the double-step square. -/
theorem pawnPushesAt_dest (b : Board) (pos one_step two_step : Square)
    (allowTwo : Bool) (m : Move) (h : m ∈ pawnPushesAt b pos one_step two_step allowTwo) :
    (m.dest = one_step ∧ b.get_piece one_step = none) ∨
    (m.dest = two_step ∧ allowTwo = true ∧ inBounds one_step = true ∧
      b.get_piece one_step = none ∧ inBounds two_step = true ∧
      b.get_piece two_step = none) := by
  unfold pawnPushesAt at h
  rcases mem_ite_list h with ⟨hC1, h⟩ | ⟨-, h⟩
  · rcases mem_ite_list h with ⟨hC2, h⟩ | ⟨-, h⟩
    · rcases List.mem_append.mp h with h | h
      · exact Or.inl ⟨pawnPushBase_dest pos one_step m h, hC1.2⟩
      · rw [List.mem_singleton] at h
        subst h
        exact Or.inr ⟨rfl, hC2.1, hC1.1, hC1.2, hC2.2.1, hC2.2.2⟩
    · exact Or.inl ⟨pawnPushBase_dest pos one_step m h, hC1.2⟩
  · exact absurd h (List.not_mem_nil m)

/-- A pawn capture takes a capturable enemy non-king on the diagonal. -/
theorem pawnCapsAt_dest (b : Board) (color : Color) (pos diag : Square) (m : Move)
    (h : m ∈ pawnCapsAt b color pos diag) :
    ∃ tp, b.get_piece diag = some tp ∧ tp.color ≠ color ∧ tp.kind ≠ PieceType.K := by
  unfold pawnCapsAt at h
  rcases mem_ite_list h with ⟨-, h⟩ | ⟨-, h⟩
  · rcases hg : b.get_piece diag with _ | target
    · simp only [hg] at h
      exact absurd h (List.not_mem_nil m)
    · simp only [hg] at h
      rcases mem_ite_list h with ⟨hc, -⟩ | ⟨-, h⟩
      · exact ⟨target, rfl, hc.1, hc.2⟩
      · exact absurd h (List.not_mem_nil m)
  · exact absurd h (List.not_mem_nil m)

/-- The en-passant generator checked an enemy pawn on the adjacent square. -/
theorem pawnEpAt_adj (b : Board) (color : Color) (pos diag adjsq : Square) (m : Move)
    (h : m ∈ pawnEpAt b color pos diag adjsq) :
    ∃ adj, b.get_piece adjsq = some adj ∧ adj.color ≠ color ∧
      adj.kind = PieceType.P := by
  unfold pawnEpAt at h
  rcases he : b.en_passant_square with _ | ep
  · simp only [he] at h
    exact absurd h (List.not_mem_nil m)
  · simp only [he] at h
    by_cases hd : diag = ep
    · rw [if_pos hd] at h
      rcases hg : b.get_piece adjsq with _ | adj
      · simp only [hg] at h
        exact absurd h (List.not_mem_nil m)
      · simp only [hg] at h
        by_cases hc : adj.color ≠ color ∧ adj.kind = PieceType.P
        · exact ⟨adj, rfl, hc.1, hc.2⟩
        · rw [if_neg hc] at h
          exact absurd h (List.not_mem_nil m)
    · rw [if_neg hd] at h
      exact absurd h (List.not_mem_nil m)

/-- Capture-target and double-step facts for pseudo moves: a plain move's
destination is empty or holds a capturable enemy non-king; an en-passant
move's capture square holds an enemy pawn; a pawn move spanning two rows is
the double push from the start row through a checked-empty jumped square. -/
theorem pseudo_move_more_facts (b : Board) (sq : Square) (p : Piece) (m : Move)
    (hmem : m ∈ pseudoMovesFor b sq p) :
    (m.is_castle = false → m.is_en_passant = false →
      (b.get_piece m.dest = none ∨
        ∃ tp, b.get_piece m.dest = some tp ∧ tp.color ≠ p.color ∧
          tp.kind ≠ PieceType.K)) ∧
    (m.is_en_passant = true →
      ∃ adj, b.get_piece (m.start.1, m.dest.2) = some adj ∧
        adj.color ≠ p.color ∧ adj.kind = PieceType.P) ∧
    (p.kind = PieceType.P → (m.start.1 - m.dest.1).natAbs = 2 →
      m.start.1 = (if p.color = Color.white then (6 : Int) else 1) ∧
      m.dest = (m.start.1 + 2 * (if p.color = Color.white then (-1 : Int) else 1),
        m.start.2) ∧
      inBounds (m.start.1 + (if p.color = Color.white then (-1 : Int) else 1),
        m.start.2) = true ∧
      b.get_piece (m.start.1 + (if p.color = Color.white then (-1 : Int) else 1),
        m.start.2) = none) := by
  obtain ⟨pk, pc⟩ := p
  obtain ⟨r, c⟩ := sq
  cases pk
  case B | R | Q =>
    unfold pseudoMovesFor at hmem
    simp only [List.mem_flatMap] at hmem
    obtain ⟨d, -, hm⟩ := hmem
    obtain ⟨-, -, h3, -⟩ := slideMoves_facts b pc (r, c) d.1 d.2 8 _ _ m hm
    refine ⟨fun _ _ => slideMoves_dest b pc (r, c) d.1 d.2 8 _ _ m hm, ?_,
      fun hk => PieceType.noConfusion hk⟩
    intro he'
    rw [h3] at he'
    exact Bool.noConfusion he'
  case N =>
    unfold pseudoMovesFor at hmem
    simp only [List.mem_filterMap] at hmem
    obtain ⟨d, -, hm⟩ := hmem
    obtain ⟨-, -, -, -, h5⟩ := stepMoveAt_facts b pc (r, c) _ m hm
    refine ⟨fun _ _ => stepMoveAt_dest b pc (r, c) _ m hm, ?_,
      fun hk => PieceType.noConfusion hk⟩
    intro he'
    rw [h5] at he'
    exact Bool.noConfusion he'
  case K =>
    unfold pseudoMovesFor at hmem
    rcases List.mem_append.mp hmem with hnorm | hcast
    · simp only [List.mem_flatMap, List.mem_filterMap] at hnorm
      obtain ⟨dr, -, dc, -, hm⟩ := hnorm
      by_cases h0 : dr = 0 ∧ dc = 0
      · rw [if_pos h0] at hm
        exact Option.noConfusion hm
      · rw [if_neg h0] at hm
        obtain ⟨-, -, -, -, h5⟩ := stepMoveAt_facts b pc (r, c) _ m hm
        refine ⟨fun _ _ => stepMoveAt_dest b pc (r, c) _ m hm, ?_,
          fun hk => PieceType.noConfusion hk⟩
        intro he'
        rw [h5] at he'
        exact Bool.noConfusion he'
    · have hflags : m.is_castle = true ∧ m.is_en_passant = false := by
        rcases List.mem_append.mp hcast with hw | hb2
        · rcases mem_ite_list hw with ⟨-, hw⟩ | ⟨-, hw⟩
          · rcases List.mem_append.mp hw with hk | hq
            · rcases mem_ite_list hk with ⟨-, hk⟩ | ⟨-, hk⟩
              · rw [List.mem_singleton] at hk
                subst hk
                exact ⟨rfl, rfl⟩
              · exact absurd hk (List.not_mem_nil _)
            · rcases mem_ite_list hq with ⟨-, hq⟩ | ⟨-, hq⟩
              · rcases mem_ite_list hq with ⟨-, hq⟩ | ⟨-, hq⟩
                · rw [List.mem_singleton] at hq
                  subst hq
                  exact ⟨rfl, rfl⟩
                · exact absurd hq (List.not_mem_nil _)
              · exact absurd hq (List.not_mem_nil _)
          · exact absurd hw (List.not_mem_nil _)
        · rcases mem_ite_list hb2 with ⟨-, hb2⟩ | ⟨-, hb2⟩
          · rcases List.mem_append.mp hb2 with hk | hq
            · rcases mem_ite_list hk with ⟨-, hk⟩ | ⟨-, hk⟩
              · rw [List.mem_singleton] at hk
                subst hk
                exact ⟨rfl, rfl⟩
              · exact absurd hk (List.not_mem_nil _)
            · rcases mem_ite_list hq with ⟨-, hq⟩ | ⟨-, hq⟩
              · rcases mem_ite_list hq with ⟨-, hq⟩ | ⟨-, hq⟩
                · rw [List.mem_singleton] at hq
                  subst hq
                  exact ⟨rfl, rfl⟩
                · exact absurd hq (List.not_mem_nil _)
              · exact absurd hq (List.not_mem_nil _)
          · exact absurd hb2 (List.not_mem_nil _)
      refine ⟨?_, ?_, fun hk => PieceType.noConfusion hk⟩
      · intro hc' _
        rw [hflags.1] at hc'
        exact Bool.noConfusion hc'
      · intro he'
        rw [hflags.2] at he'
        exact Bool.noConfusion he'
  case P =>
    unfold pseudoMovesFor at hmem
    rcases List.mem_append.mp hmem with hpush | hcap
    · obtain ⟨h1, -, h5⟩ := pawnPushesAt_facts b (r, c) _ _ _ m hpush
      have hdest := pawnPushesAt_dest b (r, c) _ _ _ m hpush
      refine ⟨?_, ?_, ?_⟩
      · intro _ _
        rcases hdest with ⟨hd, hempty⟩ | ⟨hd, -, -, -, -, hempty⟩ <;>
          (rw [hd]; exact Or.inl hempty)
      · intro he'
        rw [h5] at he'
        exact Bool.noConfusion he'
      · intro _ h2
        rw [h1] at h2 ⊢
        rcases hdest with ⟨hd, -⟩ | ⟨hd, hallow, hib1, hempty1, -, -⟩
        · exfalso
          rw [hd] at h2
          revert h2
          simp only
          split <;> (intro h2; omega)
        · rw [hd] at h2 ⊢
          have hrow : r = (if pc = Color.white then (6 : Int) else 1) :=
            of_decide_eq_true hallow
        
          exact ⟨hrow, rfl, hib1, hempty1⟩
    · simp only [List.mem_flatMap] at hcap
      obtain ⟨dc, -, hm⟩ := hcap
      rcases List.mem_append.mp hm with hcapm | hep
      · obtain ⟨h1, hd, -, h5⟩ := pawnCapsAt_facts b pc (r, c) _ m hcapm
        refine ⟨?_, ?_, ?_⟩
        · intro _ _
          rw [hd]
          exact Or.inr (pawnCapsAt_dest b pc (r, c) _ m hcapm)
        · intro he'
          rw [h5] at he'
          exact Bool.noConfusion he'
        · intro _ h2
          exfalso
          rw [h1, hd] at h2
          revert h2
          simp only
          split <;> (intro h2; omega)
      · obtain ⟨hm', -⟩ := pawnEpAt_facts b pc (r, c) _ _ m hep
        have hadj := pawnEpAt_adj b pc (r, c) _ _ m hep
        subst hm'
        refine ⟨?_, ?_, ?_⟩
        · intro _ he'
          exact Bool.noConfusion he'
        · intro _
          exact hadj
        · intro _ h2
          exfalso
          revert h2
          simp only
          split <;> (intro h2; omega)

theorem rightsImplyHome_elim (b : Board) (h : rightsImplyHome b = true) :
    (b.castling_rights.1 = true →
      b.get_piece ((7 : Int), (4 : Int)) = some ⟨.K, .white⟩) ∧
    (b.castling_rights.2.1 = true →
      b.get_piece ((7 : Int), (4 : Int)) = some ⟨.K, .white⟩) ∧
    (b.castling_rights.2.2.1 = true →
      b.get_piece ((0 : Int), (4 : Int)) = some ⟨.K, .black⟩) ∧
    (b.castling_rights.2.2.2 = true →
      b.get_piece ((0 : Int), (4 : Int)) = some ⟨.K, .black⟩) := by
  unfold rightsImplyHome at h
  simp only [Bool.and_eq_true, Bool.or_eq_true, Bool.not_eq_true', beq_iff_eq] at h
  obtain ⟨⟨⟨h1, h2⟩, h3⟩, h4⟩ := h
  refine ⟨?_, ?_, ?_, ?_⟩ <;> intro hr
  · rcases h1 with h | h
    · rw [hr] at h
      exact Bool.noConfusion h
    · exact h
  · rcases h2 with h | h
    · rw [hr] at h
      exact Bool.noConfusion h
    · exact h
  · rcases h3 with h | h
    · rw [hr] at h
      exact Bool.noConfusion h
    · exact h
  · rcases h4 with h | h
    · rw [hr] at h
      exact Bool.noConfusion h
    · exact h

theorem rightsImplyHome_intro (b : Board)
    (h1 : b.castling_rights.1 = true →
      b.get_piece ((7 : Int), (4 : Int)) = some ⟨.K, .white⟩)
    (h2 : b.castling_rights.2.1 = true →
      b.get_piece ((7 : Int), (4 : Int)) = some ⟨.K, .white⟩)
    (h3 : b.castling_rights.2.2.1 = true →
      b.get_piece ((0 : Int), (4 : Int)) = some ⟨.K, .black⟩)
    (h4 : b.castling_rights.2.2.2 = true →
      b.get_piece ((0 : Int), (4 : Int)) = some ⟨.K, .black⟩) :
    rightsImplyHome b = true := by
  unfold rightsImplyHome
  simp only [Bool.and_eq_true, Bool.or_eq_true, Bool.not_eq_true', beq_iff_eq]
  refine ⟨⟨⟨?_, ?_⟩, ?_⟩, ?_⟩
  · rcases hx : b.castling_rights.1 with _ | _
    · exact Or.inl rfl
    · exact Or.inr (h1 hx)
  · rcases hx : b.castling_rights.2.1 with _ | _
    · exact Or.inl rfl
    · exact Or.inr (h2 hx)
  · rcases hx : b.castling_rights.2.2.1 with _ | _
    · exact Or.inl rfl
    · exact Or.inr (h3 hx)
  · rcases hx : b.castling_rights.2.2.2 with _ | _
    · exact Or.inl rfl
    · exact Or.inr (h4 hx)

/-- updateCastlingRights only ever clears rights. -/
theorem updateCastlingRights_le (rights : Bool × Bool × Bool × Bool) (m : Move)
    (moved : Piece) (captured : Option Piece) :
    ((updateCastlingRights rights m moved captured).1 = true → rights.1 = true) ∧
    ((updateCastlingRights rights m moved captured).2.1 = true → rights.2.1 = true) ∧
    ((updateCastlingRights rights m moved captured).2.2.1 = true →
      rights.2.2.1 = true) ∧
    ((updateCastlingRights rights m moved captured).2.2.2 = true →
      rights.2.2.2 = true) := by
  rcases rights with ⟨wk, wq, bk, bq⟩
  refine ⟨?_, ?_, ?_, ?_⟩ <;>
    (intro h
     unfold updateCastlingRights at h
     repeat' split at h
     all_goals (try dsimp only at h ⊢)
     all_goals first | exact h | exact Bool.noConfusion h)

/-- A king move clears both rights of its color. -/
theorem updateCastlingRights_king (rights : Bool × Bool × Bool × Bool) (m : Move)
    (moved : Piece) (captured : Option Piece) (hk : moved.kind = PieceType.K) :
    (moved.color = Color.white →
      (updateCastlingRights rights m moved captured).1 = false ∧
      (updateCastlingRights rights m moved captured).2.1 = false) ∧
    (moved.color = Color.black →
      (updateCastlingRights rights m moved captured).2.2.1 = false ∧
      (updateCastlingRights rights m moved captured).2.2.2 = false) := by
  rcases rights with ⟨wk, wq, bk, bq⟩
  constructor <;> intro hcol <;> constructor <;>
    (unfold updateCastlingRights
     simp only [hk, hcol, eq_self_iff_true, if_true, reduceCtorEq, if_false, ite_self]
     rcases captured with _ | cap
     · rfl
     · repeat' split
       all_goals (try dsimp only)
       all_goals first | rfl | (split <;> rfl))

/-- The fields of a successful apply_move: castling rights go through
updateCastlingRights, the en-passant target is set exactly by a two-row
pawn move, the recorded capture is the branch's capture square, and every
square away from the touched ones is unchanged. -/
theorem apply_move_parts (b : Board) (m : Move) (st : MoveState) (b1 : Board)
    (moved : Piece) (hget : b.get_piece m.start = some moved)
    (happ : b.apply_move m = Except.ok (st, b1)) :
    b1.castling_rights =
      updateCastlingRights b.castling_rights m moved st.captured ∧
    b1.en_passant_square =
      (if moved.kind = PieceType.P ∧ (m.start.1 - m.dest.1).natAbs = 2 then
        some (m.start.1 + (if moved.color = Color.white then (-1 : Int) else 1),
          m.start.2)
      else none) ∧
    st.captured = (if m.is_castle = true then none
      else if m.is_en_passant = true then b.get_piece (m.start.1, m.dest.2)
      else b.get_piece m.dest) ∧
    (∀ q : Square,
      q ≠ m.start → q ≠ m.dest →
      (m.is_en_passant = true → q ≠ (m.start.1, m.dest.2)) →
      (m.is_castle = true → q ≠ (m.start.1, (7 : Int)) ∧ q ≠ (m.start.1, (0 : Int)) ∧
        q ≠ (m.start.1, (5 : Int)) ∧ q ≠ (m.start.1, (3 : Int))) →
      b1.get_piece q = b.get_piece q) := by
  by_cases hc : m.is_castle = true
  · rcases hp : m.promotion with _ | pk <;>
      by_cases h2p : (moved.kind = PieceType.P ∧ (m.start.1 - m.dest.1).natAbs = 2) <;>
      (simp only [Board.apply_move, hget, hc, hp, h2p, Bool.false_eq_true, if_false,
        if_true, not_false_eq_true, and_true, and_false,
        set_piece_castling, set_piece_ep, set_piece_history, set_piece_clock,
        get_piece_update_fields, set_piece_update_fields] at happ
       rw [Except.ok.injEq, Prod.mk.injEq] at happ
       obtain ⟨hst, hb1⟩ := happ
       subst hst
       subst hb1
       refine ⟨?_, ?_, ?_, ?_⟩
       · rfl
       · split
         · first
           | rfl
           | (rename_i hyes; exact absurd hyes h2p)
         · first
           | rfl
           | (rename_i hno; exact absurd h2p hno)
       · rw [if_pos hc]
       · intro q hqs hqd hqe hqc
         obtain ⟨hq7, hq0, hq5, hq3⟩ := hqc hc
         simp only [get_piece_update_fields]
         have hrs : q ≠ (if m.dest.2 = 6 then ((m.start.1, (7 : Int)) : Square)
             else (m.start.1, 0)) := by
           split <;> assumption
         have hre2 : q ≠ (if m.dest.2 = 6 then ((m.start.1, (5 : Int)) : Square)
             else (m.start.1, 3)) := by
           split <;> assumption
         first
         | rw [get_set_other _ hrs, get_set_other _ hre2, get_set_other _ hqs,
             get_set_other _ hqd]
         | rw [get_set_other _ hqd, get_set_other _ hrs, get_set_other _ hre2,
             get_set_other _ hqs, get_set_other _ hqd]
         try rfl)
  · by_cases hem : m.is_en_passant = true
    · rcases hp : m.promotion with _ | pk <;>
        by_cases h2p : (moved.kind = PieceType.P ∧ (m.start.1 - m.dest.1).natAbs = 2) <;>
        (simp only [Board.apply_move, Board.resolve_en_passant_capture, hget, hc, hem,
          hp, h2p, Bool.false_eq_true, if_false, if_true, not_false_eq_true, and_true,
          and_false, set_piece_castling, set_piece_ep, set_piece_history,
          set_piece_clock, get_piece_update_fields, set_piece_update_fields] at happ
         rw [Except.ok.injEq, Prod.mk.injEq] at happ
         obtain ⟨hst, hb1⟩ := happ
         subst hst
         subst hb1
         refine ⟨?_, ?_, ?_, ?_⟩
         · rfl
         · split
           · first
             | rfl
             | (rename_i hyes; exact absurd hyes h2p)
           · first
             | rfl
             | (rename_i hno; exact absurd h2p hno)
         · rw [if_neg hc, if_pos hem]
           try rfl
         · intro q hqs hqd hqe hqc
           have hqc2 := hqe hem
           simp only [get_piece_update_fields]
           first
           | rw [get_set_other _ hqs, get_set_other _ hqd, get_set_other _ hqc2]
           | rw [get_set_other _ hqd, get_set_other _ hqs, get_set_other _ hqd,
               get_set_other _ hqc2]
           try rfl)
    · rcases hp : m.promotion with _ | pk <;>
        by_cases h2p : (moved.kind = PieceType.P ∧ (m.start.1 - m.dest.1).natAbs = 2) <;>
        (simp only [Board.apply_move, hget, hc, hem, hp, h2p, Bool.false_eq_true,
          if_false, if_true, not_false_eq_true, and_true, and_false,
          set_piece_castling, set_piece_ep, set_piece_history, set_piece_clock,
          get_piece_update_fields, set_piece_update_fields] at happ
         rw [Except.ok.injEq, Prod.mk.injEq] at happ
         obtain ⟨hst, hb1⟩ := happ
         subst hst
         subst hb1
         refine ⟨?_, ?_, ?_, ?_⟩
         · rfl
         · split
           · first
             | rfl
             | (rename_i hyes; exact absurd hyes h2p)
           · first
             | rfl
             | (rename_i hno; exact absurd h2p hno)
         · rw [if_neg hc, if_neg hem]
           try rfl
         · intro q hqs hqd hqe hqc
           simp only [get_piece_update_fields]
           first
           | rw [get_set_other _ hqs, get_set_other _ hqd]
           | rw [get_set_other _ hqd, get_set_other _ hqs, get_set_other _ hqd]
           try rfl)

/-- The piece apply_move will find on a pseudo move's start square: the
scanned piece for ordinary moves, the mover's home king for castle moves
(whose start square is hardcoded). -/
theorem pseudo_moved_piece (b : Board) (sq : Square) (p : Piece) (m : Move)
    (hsq : b.get_piece sq = some p) (hmem : m ∈ pseudoMovesFor b sq p)
    (hcr : rightsImplyHome b = true) :
    (m.is_castle = false → b.get_piece m.start = some p) ∧
    (m.is_castle = true → b.get_piece m.start = some ⟨.K, p.color⟩) := by
  obtain ⟨hstart0, -, -, hcas⟩ := pseudo_move_facts b sq p m hmem
  constructor
  · intro hc
    rw [hstart0 hc, hsq]
  · intro hc
    obtain ⟨-, -, -, -, -, hdisj⟩ := hcas hc
    obtain ⟨e1, e2, e3, e4⟩ := rightsImplyHome_elim b hcr
    rcases hdisj with ⟨hcol, hst, hr | hr⟩ | ⟨hcol, hst, hr | hr⟩
    · rw [hst, e1 hr, hcol]
    · rw [hst, e2 hr, hcol]
    · rw [hst, e3 hr, hcol]
    · rw [hst, e4 hr, hcol]

/-- Applying any pseudo move of the side whose pieces were scanned preserves
the state invariant (clear en-passant target, en-passant row discipline, and
castling rights implying the home king). -/
theorem apply_preserves_inv (b : Board) (sq : Square) (p : Piece) (m : Move)
    (st : MoveState) (b1 : Board)
    (hsq : b.get_piece sq = some p) (hmem : m ∈ pseudoMovesFor b sq p)
    (hep : epTargetClear b = true) (hcr : rightsImplyHome b = true)
    (happ : b.apply_move m = Except.ok (st, b1)) :
    epTargetClear b1 = true ∧ epRowOK b1 = true ∧ rightsImplyHome b1 = true := by
  obtain ⟨hstart0, hnotboth, heps, hcas⟩ := pseudo_move_facts b sq p m hmem
  obtain ⟨hdest1, hadj2, hdbl3⟩ := pseudo_move_more_facts b sq p m hmem
  obtain ⟨moved, hget, hchar1, hchar2⟩ :
      ∃ moved, b.get_piece m.start = some moved ∧
        (m.is_castle = true → moved = Piece.mk .K p.color) ∧
        (m.is_castle = false → moved = p) := by
    obtain ⟨hmp1, hmp2⟩ := pseudo_moved_piece b sq p m hsq hmem hcr
    rcases hx : m.is_castle with _ | _
    · refine ⟨p, hmp1 hx, ?_, fun _ => rfl⟩
      intro hT
      exact Bool.noConfusion hT
    · refine ⟨⟨.K, p.color⟩, hmp2 hx, fun _ => rfl, ?_⟩
      intro hF
      exact Bool.noConfusion hF
  obtain ⟨hcr1, hep1, hcap1, hframe⟩ := apply_move_parts b m st b1 moved hget happ
  have key : ∀ (h0 : Square) (kp : Piece), h0.2 = 4 → kp.kind = PieceType.K →
      b.get_piece h0 = some kp → h0 ≠ m.start → b1.get_piece h0 = some kp := by
    intro h0 kp h04 hkk hb0 hns
    have hnd : h0 ≠ m.dest := by
      intro heq
      rw [heq] at hb0
      by_cases hc : m.is_castle = true
      · obtain ⟨-, -, -, hde, -, -⟩ := hcas hc
        rw [hb0] at hde
        exact Option.noConfusion hde
      · by_cases hem : m.is_en_passant = true
        · obtain ⟨-, hepd, -, -⟩ := heps hem
          unfold epTargetClear at hep
          rw [hepd] at hep
          have hep2 : (inBounds m.dest && (b.get_piece m.dest).isNone) = true := hep
          rw [hb0] at hep2
          simp only [Option.isNone_some, Bool.and_false] at hep2
          exact Bool.noConfusion hep2
        · have hcf : m.is_castle = false := by
            rw [← Bool.not_eq_true]
            exact hc
          have hef : m.is_en_passant = false := by
            rw [← Bool.not_eq_true]
            exact hem
          rcases hdest1 hcf hef with hnone | ⟨tp, htp, -, htk⟩
          · rw [hb0] at hnone
            exact Option.noConfusion hnone
          · rw [hb0] at htp
            injection htp with h'
            rw [← h', hkk] at htk
            exact htk rfl
    have hne : m.is_en_passant = true → h0 ≠ (m.start.1, m.dest.2) := by
      intro hem heq
      obtain ⟨adj, hadj, -, hadjk⟩ := hadj2 hem
      rw [heq] at hb0
      rw [hb0] at hadj
      injection hadj with h'
      rw [← h', hkk] at hadjk
      exact PieceType.noConfusion hadjk
    have hnc : m.is_castle = true →
        h0 ≠ (m.start.1, (7 : Int)) ∧ h0 ≠ (m.start.1, (0 : Int)) ∧
        h0 ≠ (m.start.1, (5 : Int)) ∧ h0 ≠ (m.start.1, (3 : Int)) := by
      intro _
      refine ⟨?_, ?_, ?_, ?_⟩ <;>
        (intro heq
         have h2 := congrArg Prod.snd heq
         rw [h04] at h2
         dsimp only at h2
         exact absurd h2 (by decide))
    rw [hframe h0 hns hnd hne hnc]
    exact hb0
  have he1he2 : epTargetClear b1 = true ∧ epRowOK b1 = true := by
    by_cases h2p : (moved.kind = PieceType.P ∧ (m.start.1 - m.dest.1).natAbs = 2)
    · rw [if_pos h2p] at hep1
      have hcflag : m.is_castle = false := by
        rcases hx : m.is_castle with _ | _
        · rfl
        · exfalso
          have hmv := hchar1 hx
          rw [hmv] at h2p
          exact PieceType.noConfusion h2p.1
      have hmvedp : moved = p := hchar2 hcflag
      rw [hmvedp] at hep1 h2p
      obtain ⟨hrow, hdest, hib, hemp⟩ := hdbl3 h2p.1 h2p.2
      have hjs : ((m.start.1 + (if p.color = Color.white then (-1 : Int) else 1),
          m.start.2) : Square) ≠ m.start := by
        intro heq
        have h1 : m.start.1 + (if p.color = Color.white then (-1 : Int) else 1) =
            m.start.1 := congrArg Prod.fst heq
        revert h1
        split <;> (intro h1; omega)
      have hjd : ((m.start.1 + (if p.color = Color.white then (-1 : Int) else 1),
          m.start.2) : Square) ≠ m.dest := by
        intro heq
        rw [hdest] at heq
        have h1 : m.start.1 + (if p.color = Color.white then (-1 : Int) else 1) =
            m.start.1 + 2 * (if p.color = Color.white then (-1 : Int) else 1) :=
          congrArg Prod.fst heq
        revert h1
        split <;> (intro h1; omega)
      have hje : m.is_en_passant = true →
          ((m.start.1 + (if p.color = Color.white then (-1 : Int) else 1),
            m.start.2) : Square) ≠ (m.start.1, m.dest.2) := by
        intro _ heq
        have h1 : m.start.1 + (if p.color = Color.white then (-1 : Int) else 1) =
            m.start.1 := congrArg Prod.fst heq
        revert h1
        split <;> (intro h1; omega)
      have hjc : m.is_castle = true →
          ((m.start.1 + (if p.color = Color.white then (-1 : Int) else 1),
            m.start.2) : Square) ≠ (m.start.1, (7 : Int)) ∧
          ((m.start.1 + (if p.color = Color.white then (-1 : Int) else 1),
            m.start.2) : Square) ≠ (m.start.1, (0 : Int)) ∧
          ((m.start.1 + (if p.color = Color.white then (-1 : Int) else 1),
            m.start.2) : Square) ≠ (m.start.1, (5 : Int)) ∧
          ((m.start.1 + (if p.color = Color.white then (-1 : Int) else 1),
            m.start.2) : Square) ≠ (m.start.1, (3 : Int)) := by
        intro hx
        rw [hcflag] at hx
        exact Bool.noConfusion hx
      constructor
      · unfold epTargetClear
        rw [hep1]
        show (inBounds (m.start.1 + (if p.color = Color.white then (-1 : Int) else 1),
            m.start.2) &&
          (b1.get_piece (m.start.1 + (if p.color = Color.white then (-1 : Int) else 1),
            m.start.2)).isNone) = true
        rw [Bool.and_eq_true]
        refine ⟨hib, ?_⟩
        rw [hframe _ hjs hjd hje hjc, hemp]
        rfl
      · unfold epRowOK
        rw [hep1]
        show ((m.start.1 + (if p.color = Color.white then (-1 : Int) else 1) == 2) ||
          (m.start.1 + (if p.color = Color.white then (-1 : Int) else 1) == 5)) = true
        simp only [Bool.or_eq_true, beq_iff_eq]
        revert hrow
        split <;> (intro hrow; omega)
    · rw [if_neg h2p] at hep1
      constructor
      · unfold epTargetClear
        rw [hep1]
      · unfold epRowOK
        rw [hep1]
  refine ⟨he1he2.1, he1he2.2, rightsImplyHome_intro b1 ?_ ?_ ?_ ?_⟩
  · intro hr1
    rw [hcr1] at hr1
    have hrpre := (updateCastlingRights_le b.castling_rights m moved st.captured).1 hr1
    have hhome := (rightsImplyHome_elim b hcr).1 hrpre
    by_cases hstart : (((7 : Int), (4 : Int)) : Square) = m.start
    · exfalso
      rw [← hstart, hhome] at hget
      injection hget with h'
      have hclear := (updateCastlingRights_king b.castling_rights m moved st.captured
        (by rw [← h'])).1 (by rw [← h'])
      rw [hclear.1] at hr1
      exact Bool.noConfusion hr1
    · exact key _ _ rfl rfl hhome hstart
  · intro hr1
    rw [hcr1] at hr1
    have hrpre := (updateCastlingRights_le b.castling_rights m moved st.captured).2.1 hr1
    have hhome := (rightsImplyHome_elim b hcr).2.1 hrpre
    by_cases hstart : (((7 : Int), (4 : Int)) : Square) = m.start
    · exfalso
      rw [← hstart, hhome] at hget
      injection hget with h'
      have hclear := (updateCastlingRights_king b.castling_rights m moved st.captured
        (by rw [← h'])).1 (by rw [← h'])
      rw [hclear.2] at hr1
      exact Bool.noConfusion hr1
    · exact key _ _ rfl rfl hhome hstart
  · intro hr1
    rw [hcr1] at hr1
    have hrpre := (updateCastlingRights_le b.castling_rights m moved st.captured).2.2.1 hr1
    have hhome := (rightsImplyHome_elim b hcr).2.2.1 hrpre
    by_cases hstart : (((0 : Int), (4 : Int)) : Square) = m.start
    · exfalso
      rw [← hstart, hhome] at hget
      injection hget with h'
      have hclear := (updateCastlingRights_king b.castling_rights m moved st.captured
        (by rw [← h'])).2 (by rw [← h'])
      rw [hclear.1] at hr1
      exact Bool.noConfusion hr1
    · exact key _ _ rfl rfl hhome hstart
  · intro hr1
    rw [hcr1] at hr1
    have hrpre := (updateCastlingRights_le b.castling_rights m moved st.captured).2.2.2 hr1
    have hhome := (rightsImplyHome_elim b hcr).2.2.2 hrpre
    by_cases hstart : (((0 : Int), (4 : Int)) : Square) = m.start
    · exfalso
      rw [← hstart, hhome] at hget
      injection hget with h'
      have hclear := (updateCastlingRights_king b.castling_rights m moved st.captured
        (by rw [← h'])).2 (by rw [← h'])
      rw [hclear.2] at hr1
      exact Bool.noConfusion hr1
    · exact key _ _ rfl rfl hhome hstart

/-- Every board reachable through the generate/apply API satisfies the state
invariant. -/
theorem reachable_inv (b : Board) (h : Reachable b) : boardInv b = true := by
  induction h with
  | init => decide
  | step hre hgen hmm happ ih =>
    rename_i b0 ms b2 c m st b3
    unfold boardInv at ih
    simp only [Bool.and_eq_true] at ih
    obtain ⟨⟨hcr, hep⟩, hrow⟩ := ih
    rw [generate_legal_moves_ok b0 c hep hcr, Except.ok.injEq, Prod.mk.injEq] at hgen
    obtain ⟨hms, hb2⟩ := hgen
    subst hms
    subst hb2
    obtain ⟨sq, p, hsqp, -, hmem, -⟩ := (legalMovesSpec_mem b0 c m).mp hmm
    obtain ⟨h1, h2, h3⟩ := apply_preserves_inv b0 sq p m st b3 hsqp hmem hep hcr happ
    unfold boardInv
    simp only [Bool.and_eq_true]
    exact ⟨⟨h3, h1⟩, h2⟩

/-- On a board satisfying the invariant, the static evaluation runs to
completion (both mobility move generations succeed and leave the board
unchanged), producing a rational score. -/
theorem evaluate_board_ok (b : Board) (hep : epTargetClear b = true)
    (hcr : rightsImplyHome b = true) :
    ∃ q : ℚ, evaluate_board b = Except.ok (q, b) := by
  have h : evaluate_board b = Except.ok
      (interpolate
        ((materialAndPosition b).1 + (kingSafety b).1 + pawnStructure b +
          minorCentralization b +
          (((legalMovesSpec b .white).length : ℚ) -
            ((legalMovesSpec b .black).length : ℚ)) * 0.01 +
          (outpostSquares b).1 + (developmentAndCastling b).1)
        ((materialAndPosition b).2 + (kingSafety b).2 + pawnStructure b +
          minorCentralization b +
          (((legalMovesSpec b .white).length : ℚ) -
            ((legalMovesSpec b .black).length : ℚ)) * 0.004 +
          (outpostSquares b).2 + (developmentAndCastling b).2)
        (gamePhase b), b) := by
    unfold evaluate_board evalMobility
    rw [generate_legal_moves_ok b .white hep hcr, except_bind_ok]
    rw [generate_legal_moves_ok b .black hep hcr, except_bind_ok]
    rfl
  exact ⟨_, h⟩

/-- The index the tt-suggestion scan finds for a move known to be in the
list: the found element is the move itself and popping it shortens the list
by one. -/
theorem findIdx_mem_facts (l : List Move) (mv : Move) (hm : mv ∈ l) :
    ∃ i, l.findIdx? (fun m => m == mv) = some i ∧
      l.getD i mv = mv ∧ (l.eraseIdx i).length + 1 = l.length := by
  induction l with
  | nil => exact absurd hm (List.not_mem_nil mv)
  | cons a t ih =>
    by_cases ha : a = mv
    · refine ⟨0, ?_, ha, rfl⟩
      rw [List.findIdx?_cons]
      simp [ha]
    · have hm' : mv ∈ t := by
        rcases List.mem_cons.mp hm with h | h
        · exact absurd h.symm ha
        · exact h
      obtain ⟨i, h1, h2, h3⟩ := ih hm'
      refine ⟨i + 1, ?_, ?_, ?_⟩
      · rw [List.findIdx?_cons]
        simp [ha, h1]
      · simpa using h2
      · simp only [List.eraseIdx_cons_succ, List.length_cons]
        omega

/-- The eager order-key pass of choose_move's sort keeps the list length. -/
theorem chooseSortPairs_length (b : Board) (k : Nat → List Move)
    (h : HistKey → Nat) (d : Nat) (l : List Move)
    (acc : List (Move × OrderKey) × ChooseMemo) :
    (l.foldl
      (fun (acc : List (Move × OrderKey) × ChooseMemo) mv =>
        let r := chooseOrderScore b k h acc.2 mv d
        (acc.1 ++ [(mv, r.1)], r.2)) acc).1.length = acc.1.length + l.length := by
  induction l generalizing acc with
  | nil => simp
  | cons a t ih =>
    rw [List.foldl_cons, ih]
    simp only [List.length_append, List.length_cons, List.length_nil]
    omega

/-- The descending stable sort of choose_move keeps the list length. -/
theorem chooseSortDesc_length (b : Board) (k : Nat → List Move)
    (h : HistKey → Nat) (m : ChooseMemo) (l : List Move) (d : Nat) :
    (chooseSortDesc b k h m l d).1.length = l.length := by
  unfold chooseSortDesc
  rw [List.length_map]
  unfold pySortDescPairs
  rw [List.length_insertionSort, chooseSortPairs_length]
  simp

/-- C4 (amended): when the root position has at least two legal moves, a
stored transposition entry keyed to the root position whose best-move
suggestion is a legal root move makes choose_move with max_nodes = 1 return
exactly the suggested move for every search depth: the node budget is below
the move count, so the engine early-returns the head of the ordered list,
which is the popped-and-reinserted suggestion.  With a single legal move
and depth 0 the claim fails (c4_counterexample): the deepening loop runs
zero iterations and returns None. -/
theorem c4_tt_suggestion (b : Board) (depth : Nat) (color : Color)
    (tbl : TranspositionTable) (e : TTEntry) (mv : Move)
    (hep : epTargetClear b = true) (hcr : rightsImplyHome b = true)
    (hprobe : tbl.probe (zobrist_hash b color) = some e)
    (hflag : e.flag = .exact)
    (hbm : e.best_move = some mv)
    (hmem : mv ∈ legalMovesSpec b color)
    (hlen : 2 ≤ (legalMovesSpec b color).length) :
    choose_move b depth color (some 1) (some tbl) = Except.ok (some mv) := by
  obtain ⟨i, hfind, hgetd, herase⟩ := findIdx_mem_facts (legalMovesSpec b color) mv hmem
  unfold choose_move
  dsimp only [BitboardBoard.from_board]
  rw [generate_legal_moves_ok b color hep hcr, except_bind_ok]
  dsimp only []
  rw [hprobe]
  unfold chooseExtractTT
  dsimp only []
  rw [hbm]
  dsimp only []
  rw [hfind]
  dsimp only []
  rw [hgetd]
  split
  · rename_i hnil
    exact absurd hnil (List.cons_ne_nil _ _)
  · split
    · rfl
    · rename_i hB
      exfalso
      apply hB
      apply decide_eq_true
      rw [List.length_cons, chooseSortDesc_length]
      omega

set_option maxRecDepth 8000 in
/-- C4 counterexample: on cexC4 white has exactly one legal move, the
transposition table holds an EXACT entry keyed to the root position whose
suggestion is that legal move, yet choose_move at depth 0 with
max_nodes = 1 returns None (.toOption = some none means the call returned
ok None) instead of the suggested move. -/
theorem c4_counterexample :
    legalMovesSpec cexC4 Color.white = [onlyMoveC4] ∧
    cexC4.generate_legal_moves Color.white =
      Except.ok (legalMovesSpec cexC4 Color.white, cexC4) ∧
    (ttWithSuggestion (zobrist_hash cexC4 Color.white) onlyMoveC4).probe
      (zobrist_hash cexC4 Color.white) =
      some ⟨zobrist_hash cexC4 Color.white, 3, Score.fin 1, TTFlag.exact,
        some onlyMoveC4, 0⟩ ∧
    (choose_move cexC4 0 Color.white (some 1)
        (some (ttWithSuggestion (zobrist_hash cexC4 Color.white) onlyMoveC4))).toOption =
      some none :=
  ⟨by decide, generate_legal_moves_ok cexC4 Color.white (by decide) (by decide),
   by decide, by rfl⟩

/-- C3: on every board reachable through the generate/apply API the static
evaluation returns normally with a (finite) rational score, leaving the
board unchanged. -/
theorem c3_evaluate_total (b : Board) (h : Reachable b) :
    ∃ q : ℚ, evaluate_board b = Except.ok (q, b) := by
  have hinv := reachable_inv b h
  unfold boardInv at hinv
  simp only [Bool.and_eq_true] at hinv
  exact evaluate_board_ok b hinv.1.2 hinv.1.1

/-- C3 witness: the standard starting position evaluates successfully. -/
theorem c3_evaluate_total_witness :
    ∃ q : ℚ, evaluate_board initialBoard = Except.ok (q, initialBoard) :=
  c3_evaluate_total initialBoard Reachable.init

set_option maxRecDepth 8000 in
/-- C4 witness: a table suggesting e2e4 on the standard starting position
(20 legal moves) makes choose_move with max_nodes = 1 return e2e4. -/
theorem c4_tt_suggestion_witness :
    choose_move initialBoard 3 Color.white (some 1)
        (some (ttWithSuggestion (zobrist_hash initialBoard Color.white) initMoveC4)) =
      Except.ok (some initMoveC4) :=
  c4_tt_suggestion initialBoard 3 Color.white
    (ttWithSuggestion (zobrist_hash initialBoard Color.white) initMoveC4)
    ⟨zobrist_hash initialBoard Color.white, 3, Score.fin 1, TTFlag.exact,
      some initMoveC4, 0⟩
    initMoveC4 (by decide) (by decide) (by decide) rfl rfl (by decide) (by decide)
